import Mathlib

/-!
# mt2mseed: the NIMS bin reader, the channel namer and the segment extractor

A shallow embedding of `src/readNIMSbin.c` (`get_chan_name`, `read_bin_file`)
and of `binconvert` in `src/mt2mseed.c`, followed by the properties proved
about them.

Conventions of the embedding:

* a C `int` / `int32_t` value is an `Int`; where the C arithmetic can leave the
  32-bit range the result is reduced with `wrap32` (two's complement);
* the input file is a list of bytes; a 4-byte object read from it is its
  unsigned bit pattern (`Nat`, below `2^32`), decoded in the byte order of a
  little-endian host;
* a `float` is a `CFloat`: NaN, an infinity, or the rational it denotes; the
  one float operation of the code, `1/dt`, is IEEE 754 binary32 division
  (`recipF32`); float literals are taken at their decimal value;
* a function that returns 0 / 1 and prints a message returns `Except`, the
  error naming the message that was printed;
* `malloc` fails exactly on a request that, converted to `size_t`, is beyond
  any allocatable size (a negative `int`);
* `packmsr` is a parameter of `binconvert`: a function from the program state
  and a segment to a return value and a new state;
* loops take a fuel argument; running out of fuel, or indexing an array
  outside its bounds, is a `Fault`.
-/

namespace Mt2mseed

/-! ## Values of type `float` -/

/-- The value of a C `float`: not-a-number, an infinity, or a finite rational. -/
inductive CFloat where
  | nan
  | posInf
  | negInf
  | fin (q : ℚ)
  deriving DecidableEq

/-- The C comparison `c <= x` of a float `x` against a finite literal `c`
(false on NaN). -/
def CFloat.geLit : CFloat → ℚ → Bool
  | .nan, _ => false
  | .posInf, _ => true
  | .negInf, _ => false
  | .fin q, c => decide (c ≤ q)

/-- The C comparison `x < c` of a float `x` against a finite literal `c`
(false on NaN). -/
def CFloat.ltLit : CFloat → ℚ → Bool
  | .nan, _ => false
  | .posInf, _ => false
  | .negInf, _ => true
  | .fin q, c => decide (q < c)

/-- The C comparison `x <= c` of a float `x` against a finite literal `c`
(false on NaN). -/
def CFloat.leLit : CFloat → ℚ → Bool
  | .nan, _ => false
  | .posInf, _ => false
  | .negInf, _ => true
  | .fin q, c => decide (q ≤ c)

/-- The number of binary digits of `n`, for `n < 2 ^ fuel`. -/
def bitLength : Nat → Nat → Nat
  | 0, _ => 0
  | fuel + 1, n => if n = 0 then 0 else bitLength fuel (n / 2) + 1

/-- A binary32 value in integer terms: NaN, a signed infinity, or sign,
significand and exponent of the finite value `± mant * 2 ^ exp`. -/
inductive F32Value where
  | nan
  | inf (neg : Bool)
  | fin (neg : Bool) (mant : Nat) (exp : Int)
  deriving DecidableEq, Repr

/-- The number a binary32 value denotes (both zeros denote 0). -/
def F32Value.toCFloat : F32Value → CFloat
  | .nan => .nan
  | .inf false => .posInf
  | .inf true => .negInf
  | .fin false m e => .fin ((m : ℚ) * 2 ^ e)
  | .fin true m e => .fin (-((m : ℚ) * 2 ^ e))

/-- Nearest binary32 value to the positive rational `num / den` (round to
nearest, ties to even; a result beyond the largest finite value is an
infinity), for `num` and `den` below `2 ^ 256`, with the sign `neg`. -/
def roundF32 (neg : Bool) (num den : Nat) : F32Value :=
  let k0 : Int := (bitLength 256 num : Int) - (bitLength 256 den : Int)
  let k : Int :=
    if (if 0 ≤ k0 then den * 2 ^ k0.toNat ≤ num else den ≤ num * 2 ^ (-k0).toNat)
    then k0 else k0 - 1
  let u : Int := max k (-126) - 23
  let N : Nat := if u ≤ 0 then num * 2 ^ (-u).toNat else num
  let D : Nat := if u ≤ 0 then den else den * 2 ^ u.toNat
  let n : Nat := N / D
  let r : Nat := N % D
  let n1 : Nat := if D < 2 * r ∨ (2 * r = D ∧ n % 2 = 1) then n + 1 else n
  if 104 < u ∨ (u = 104 ∧ n1 = 16777216) then .inf neg else .fin neg n1 u

/-- The C expression `1/dt` for the `float` whose bit pattern is `w`, evaluated
in IEEE 754 binary32 arithmetic, in integer terms: `w` is decoded (sign bit, 8
exponent bits, 23 fraction bits) and the exact reciprocal is rounded by
`roundF32`. -/
def recipBits (w : Nat) : F32Value :=
  let neg : Bool := w / 2147483648 % 2 = 1
  let e : Nat := w / 8388608 % 256
  let m : Nat := w % 8388608
  if e = 255 then (if m = 0 then .fin neg 0 0 else .nan)
  else if e = 0 ∧ m = 0 then .inf neg
  else if e = 0 then roundF32 neg (2 ^ 149) m
  else if e ≤ 150 then roundF32 neg (2 ^ (150 - e)) (8388608 + m)
  else roundF32 neg 1 ((8388608 + m) * 2 ^ (e - 150))

/-- The value of the C expression `1/dt` for the `float` of bit pattern `w`. -/
def recipF32 (w : Nat) : CFloat :=
  (recipBits w).toCFloat

/-! ## `get_chan_name` (readNIMSbin.c, lines 22-76) -/

/-- The two ways `get_chan_name` returns 0, after the message it prints. -/
inductive ChanError where
  /-- "Please refer to Appendix A of SEED manual for correct band code". -/
  | bandCode
  /-- "We only know channel names for the first five channels". -/
  | channelIndex
  deriving DecidableEq, Repr

/-- The band-code chain of `get_chan_name`, lines 34-55. The literals are taken
at their decimal value. -/
def bandCode (freq : CFloat) : Option Char :=
  if freq.geLit 10 && freq.ltLit 80 then some 'B'
  else if freq.geLit 1.01 && freq.ltLit 10 then some 'M'
  else if freq.geLit 0.5 && freq.ltLit 1.01 then some 'L'
  else if freq.geLit 0.05 && freq.ltLit 0.5 then some 'V'
  else if freq.geLit 0.001 && freq.ltLit 0.05 then some 'U'
  else if freq.geLit (1 / 10000) && freq.ltLit (1 / 1000) then some 'R'
  else if freq.geLit (1 / 100000) && freq.ltLit (1 / 10000) then some 'P'
  else if freq.geLit (1 / 100000) && freq.ltLit (1 / 100000) then some 'T'
  else if freq.ltLit (1 / 1000000) then some 'Q'
  else none

/-- The function `get_chan_name`: `.ok name` stands for return value 1 with
`name` written to `chan_name`, `.error e` for return value 0. -/
def get_chan_name (freq : CFloat) (chan_index : Int) : Except ChanError String :=
  match bandCode freq with
  | none => .error .bandCode
  | some b =>
    if chan_index = 1 then .ok (String.mk [b, 'F', 'N'])
    else if chan_index = 2 then .ok (String.mk [b, 'F', 'E'])
    else if chan_index = 3 then .ok (String.mk [b, 'F', 'Z'])
    else if chan_index = 4 then .ok (String.mk [b, 'Q', 'N'])
    else if chan_index = 5 then .ok (String.mk [b, 'Q', 'E'])
    else .error .channelIndex

/-! ## The input stream and `fread` -/

/-- A byte of the input file. -/
abbrev Byte := Fin 256

/-- The 4-byte object at the head of the stream as the host (little-endian)
sees it: its unsigned bit pattern. -/
def hostWord (b0 b1 b2 b3 : Byte) : Nat :=
  b0.val + 256 * b1.val + 65536 * b2.val + 16777216 * b3.val

/-- The libmseed routine `ms_gswap4a`: the 4 bytes of a word in reverse order. -/
def ms_gswap4a (w : Nat) : Nat :=
  16777216 * (w % 256) + 65536 * (w / 256 % 256) + 256 * (w / 65536 % 256)
    + w / 16777216 % 256

/-- The `int32_t` value of a 32-bit pattern (two's complement). -/
def toInt32 (w : Nat) : Int :=
  if w < 2147483648 then (w : Int) else (w : Int) - 4294967296

/-- Reduction of an integer to the `int32_t` range (two's complement wrap). -/
def wrap32 (x : Int) : Int :=
  (x + 2147483648) % 4294967296 - 2147483648

/-- The messages with which `read_bin_file` returns 0, in source order. -/
inductive ReadError where
  | headerLengthRecord
  | headerLengthInvalid
  | latitude
  | longitude
  | declination
  | samplingTime
  | elevation
  | startTime
  | clockZero
  | numberOfScans
  | gapType
  | missingDataFlag
  | numberOfGaps
  | allocGaps
  | gapInformation
  | allocPadding
  | headerPadding
  | endOfHeaderRecord
  | endOfHeaderMarker
  | dataLengthRecord
  | allocData
  | dataBlock
  | endOfDataRecord
  | endOfDataMarker
  deriving DecidableEq, Repr

/-- The errors raised because an `fread` returned fewer items than asked for
(the specification's `IOError`). -/
def ReadError.isShortRead : ReadError → Bool
  | .headerLengthInvalid => false
  | .allocGaps => false
  | .allocPadding => false
  | .allocData => false
  | .endOfHeaderMarker => false
  | .endOfDataMarker => false
  | _ => true

/-- The errors about the framing of the file (the specification's
`HeaderError`): no byte order gives an acceptable header length, or a trailing
length marker differs from the leading one. -/
def ReadError.isHeaderError : ReadError → Bool
  | .headerLengthInvalid => true
  | .endOfHeaderMarker => true
  | .endOfDataMarker => true
  | _ => false

/-- `fread (buf, 4, n, f)` on the rest of the stream: the `n` words and what
is left of the stream, or `none` when fewer than `n` whole items remain. -/
def fread4 : Nat → List Byte → Option (List Nat × List Byte)
  | 0, s => some ([], s)
  | n + 1, b0 :: b1 :: b2 :: b3 :: s =>
    match fread4 n s with
    | some (ws, r) => some (hostWord b0 b1 b2 b3 :: ws, r)
    | none => none
  | _ + 1, _ => none

/-- A step of the reader: from the rest of the stream to an error or a value
and the new rest of the stream. -/
def Reader (α : Type) : Type := List Byte → Except ReadError (α × List Byte)

/-- A step that reads nothing. -/
def Reader.pure {α : Type} (a : α) : Reader α := fun s => .ok (a, s)

/-- Sequencing: the first error ends the function. -/
def Reader.bind {α β : Type} (m : Reader α) (f : α → Reader β) : Reader β :=
  fun s =>
    match m s with
    | .error e => .error e
    | .ok (a, r) => f a r

instance : Monad Reader where
  pure := Reader.pure
  bind := Reader.bind

/-- The statement `return 0` after the message `e`. -/
def Reader.fail {α : Type} (e : ReadError) : Reader α := fun _ => .error e

/-- The pattern `if (fread (buf, 4, n, f) != n) return 0;` followed by
`if (swapflag) ms_gswap4a (...)` on each item read. The count `n` is a C `int`
converted to `size_t`: a negative count asks for more items than any stream
holds, so the read is short. -/
def readWords (e : ReadError) (swapflag : Bool) (n : Int) : Reader (List Nat) :=
  fun s =>
    if n < 0 then .error e
    else
      match fread4 n.toNat s with
      | none => .error e
      | some (ws, r) => .ok (if swapflag then ws.map ms_gswap4a else ws, r)

/-- The same pattern for a single item. -/
def readWord (e : ReadError) (swapflag : Bool) : Reader Nat :=
  fun s =>
    match fread4 1 s with
    | some ([w], r) => .ok (if swapflag then ms_gswap4a w else w, r)
    | _ => .error e

/-- The pattern `if (!(p = malloc (size))) return 0;`. The `int` argument is
converted to `size_t`: a negative one becomes a request no allocator grants;
any other request is taken to succeed (for size 0 a non-null pointer is
returned, as glibc does). -/
def malloc (e : ReadError) (size : Int) : Reader Unit :=
  fun s => if size < 0 then .error e else .ok ((), s)

/-- The pattern `if (j1 != j2) return 0;`. -/
def checkMarker (e : ReadError) (j1 j2 : Int) : Reader Unit :=
  fun s => if j1 ≠ j2 then .error e else .ok ((), s)

/-! ## `read_bin_file` (readNIMSbin.c, lines 79-257) -/

/-- The test of lines 113 and 118 on a candidate header length, negated: the
gap count `(rl/4 - 21)/3` (C division, truncating) lies in 0..100, or `rl` is
the padded length 5108. -/
def rlAccepted (rl : Int) : Bool :=
  let padded_rl : Int := 5108
  let ngaps : Int := Int.tdiv (Int.tdiv rl 4 - 21) 3
  !((ngaps < 0 || ngaps > 100) && rl != padded_rl)

/-- Lines 109-127: the byte-order check on the header length record. Returns
the header length to use and `swapflag`. -/
def swapCheck (rl : Nat) : Reader (Int × Bool) :=
  if rlAccepted (toInt32 rl) then Reader.pure (toInt32 rl, false)
  else if rlAccepted (toInt32 (ms_gswap4a rl)) then Reader.pure (toInt32 (ms_gswap4a rl), true)
  else Reader.fail .headerLengthInvalid

/-- What lines 104-222 have read when the end-of-header marker is about to be
compared: `j1` is the leading length record and `j2` the trailing one, both
after byte-order resolution. -/
structure Header where
  swapflag : Bool
  j1 : Int
  lat : Nat
  lon : Nat
  decl : Nat
  dt : Nat
  elev : Nat
  start_time : List Int
  clock_zero : List Int
  nscans : Int
  gaptyp : Int
  missingdataflag : Int
  ngaps : Int
  gaps : List Int
  itmp : List Nat
  j2 : Int
  deriving DecidableEq, Repr

/-- What lines 229-248 have read when the end-of-data marker is about to be
compared. -/
structure DataBlock where
  rl : Int
  data : List Int
  j2 : Int
  deriving DecidableEq, Repr

/-- Lines 129-222, after the byte order is known. -/
def read_header_fields (rl : Int) (swapflag : Bool) : Reader Header := do
  let lat ← readWord .latitude swapflag
  let lon ← readWord .longitude swapflag
  let decl ← readWord .declination swapflag
  let dt ← readWord .samplingTime swapflag
  let elev ← readWord .elevation swapflag
  let start_time ← readWords .startTime swapflag 6
  let clock_zero ← readWords .clockZero swapflag 6
  let nscans ← readWord .numberOfScans swapflag
  let gaptyp ← readWord .gapType swapflag
  let missingdataflag ← readWord .missingDataFlag swapflag
  let ngaps ← readWord .numberOfGaps swapflag
  malloc .allocGaps (wrap32 (wrap32 (3 * toInt32 ngaps) * 4))
  let gaps ← readWords .gapInformation swapflag (wrap32 (3 * toInt32 ngaps))
  let nskip := wrap32 (1 + Int.tdiv rl 4 - 22 - wrap32 (3 * toInt32 ngaps))
  malloc .allocPadding (wrap32 (nskip * 4))
  let itmp ← readWords .headerPadding false nskip
  let j2 ← readWord .endOfHeaderRecord swapflag
  pure
    { swapflag := swapflag, j1 := rl, lat := lat, lon := lon, decl := decl, dt := dt,
      elev := elev, start_time := start_time.map toInt32,
      clock_zero := clock_zero.map toInt32, nscans := toInt32 nscans,
      gaptyp := toInt32 gaptyp, missingdataflag := toInt32 missingdataflag,
      ngaps := toInt32 ngaps, gaps := gaps.map toInt32, itmp := itmp,
      j2 := toInt32 j2 }

/-- Lines 104-222: the header up to and including the trailing length record. -/
def read_header : Reader Header := do
  let rl ← readWord .headerLengthRecord false
  let (rl, swapflag) ← swapCheck rl
  read_header_fields rl swapflag

/-- Lines 229-248: the data block up to and including its trailing length
record. -/
def read_data_block (swapflag : Bool) : Reader DataBlock := do
  let rl ← readWord .dataLengthRecord swapflag
  malloc .allocData (toInt32 rl)
  let data ← readWords .dataBlock swapflag (Int.tdiv (toInt32 rl) 4)
  let j2 ← readWord .endOfDataRecord swapflag
  pure { rl := toInt32 rl, data := data.map toInt32, j2 := toInt32 j2 }

/-- What a successful `read_bin_file` hands back: the return value `rl` and the
output parameters. `dt` is the bit pattern of the sampling interval from which
`s_rate = 1/dt` was computed. -/
structure BinFile where
  ret : Int
  dt : Nat
  s_rate : CFloat
  nscans : Int
  start_time : List Int
  data : List Int
  missingdataflag : Int
  deriving DecidableEq

/-- The function `read_bin_file`, as a step on the stream. -/
def read_bin_file_step : Reader BinFile := do
  let h ← read_header
  checkMarker .endOfHeaderMarker h.j1 h.j2
  let d ← read_data_block h.swapflag
  checkMarker .endOfDataMarker d.rl d.j2
  pure
    { ret := d.rl, dt := h.dt, s_rate := recipF32 h.dt, nscans := h.nscans,
      start_time := h.start_time, data := d.data,
      missingdataflag := h.missingdataflag }

/-- The function `read_bin_file` on a stream positioned at its start. -/
def read_bin_file (f : List Byte) : Except ReadError (BinFile × List Byte) :=
  read_bin_file_step f

/-- The `int` returned by `read_bin_file`: 0 after an error message, the data
length record `rl` otherwise. -/
def returnValue : Except ReadError (BinFile × List Byte) → Int
  | .error _ => 0
  | .ok (p, _) => p.ret

/-! ## `binconvert` (mt2mseed.c, lines 191-375) -/

/-- What `binconvert` hands to `packmsr` for one segment: the channel code in
`msr->channel`, the scan index `startidx` from which `msr->starttime` is
computed, and the first `numsamples` entries of `msr->datasamples`. -/
structure Segment where
  channel : String
  startidx : Nat
  samples : List Int
  deriving DecidableEq, Repr

/-- The ways the extraction loop can leave the embedding: the fuel of a loop is
used up, `idata` is read outside the parsed samples, or `cdata` is written
outside its `nscans` entries. -/
inductive Fault where
  | fuel
  | readBounds
  | writeBounds
  deriving DecidableEq, Repr

/-- The `for` loop of lines 327-337, entered with `dataidx` and the samples
already stored in `cdata` (so `datacnt = cdata.length`). Returns `dataidx` and
`cdata` on leaving the loop. -/
def extract_run (idata : List Int) (nscans missingdataflag : Int) (channel : Nat) :
    Nat → Nat → List Int → Except Fault (Nat × List Int)
  | 0, _, _ => .error .fuel
  | fuel + 1, dataidx, cdata =>
    if (dataidx : Int) < nscans then
      match idata[5 * dataidx + channel]? with
      | none => .error .readBounds
      | some v =>
        if v = missingdataflag ∨ v ≥ 2147483647 then .ok (dataidx + 1, cdata)
        else if (cdata.length : Int) < nscans then
          extract_run idata nscans missingdataflag channel fuel (dataidx + 1) (cdata ++ [v])
        else .error .writeBounds
    else .ok (dataidx, cdata)

/-- The `while` loop of lines 324-359 for one channel, entered with `dataidx`.
`packmsr` is the packing routine as a function of the program state; a
non-zero return value leaves the loop (`break`). Returns the segments handed
to `packmsr`, in call order, and the final state. -/
def extract_channel {σ : Type} (packmsr : σ → Segment → Int × σ) (idata : List Int)
    (nscans missingdataflag : Int) (channel : Nat) (chan : String) :
    Nat → Nat → σ → Except Fault (List Segment × σ)
  | 0, _, _ => .error .fuel
  | fuel + 1, dataidx, st =>
    if (dataidx : Int) < nscans then
      match extract_run idata nscans missingdataflag channel (nscans.toNat + 1) dataidx [] with
      | .error f => .error f
      | .ok (dataidx1, cdata) =>
        if cdata.length > 0 then
          let seg : Segment := { channel := chan, startidx := dataidx, samples := cdata }
          if (packmsr st seg).1 ≠ 0 then .ok ([seg], (packmsr st seg).2)
          else
            match extract_channel packmsr idata nscans missingdataflag channel chan fuel
                dataidx1 (packmsr st seg).2 with
            | .error f => .error f
            | .ok (segs, st2) => .ok (seg :: segs, st2)
        else
          extract_channel packmsr idata nscans missingdataflag channel chan fuel dataidx1 st
    else .ok ([], st)

/-- The `for` loop over the channels, lines 306-360, entered with `channel`.
A channel without a name leaves the loop (`break`). -/
def convert_channels {σ : Type} (packmsr : σ → Segment → Int × σ) (samprate : CFloat)
    (idata : List Int) (nscans missingdataflag : Int) :
    Nat → Nat → σ → Except Fault (List Segment × σ)
  | 0, _, _ => .error .fuel
  | fuel + 1, channel, st =>
    if channel < 5 then
      match get_chan_name samprate (channel + 1) with
      | .error _ => .ok ([], st)
      | .ok chan =>
        match extract_channel packmsr idata nscans missingdataflag channel chan
            (nscans.toNat + 1) 0 st with
        | .error f => .error f
        | .ok (segs, st1) =>
          match convert_channels packmsr samprate idata nscans missingdataflag fuel
              (channel + 1) st1 with
          | .error f => .error f
          | .ok (segs2, st2) => .ok (segs ++ segs2, st2)
    else .ok ([], st)

/-- The collaborators of `binconvert` outside the repository: `ms_md2doy`
(`none` for a non-zero return value, else the day of year) and whether
`msr_init` returns a record. -/
structure Ext where
  ms_md2doy : Int → Int → Int → Option Int
  msr_init : Bool

/-- The comparison of line 239, `datasize != (nscans * 5 * sizeof(int32_t))`:
`nscans * 5` is an `int` product, converted with `datasize` to the 64-bit
`size_t`. -/
def dataSizeMismatch (datasize nscans : Int) : Bool :=
  decide (datasize % 18446744073709551616 ≠
    (wrap32 (nscans * 5) % 18446744073709551616 * 4) % 18446744073709551616)

/-- Where `binconvert` stands after lines 214-303: it has returned -1, or it
enters the loop over the channels with the parse result. -/
inductive Checked where
  | rejected
  | accepted (p : BinFile)
  deriving DecidableEq

/-- Lines 214-303 of `binconvert`: `ifp` is the content of the input file, or
`none` when `fopen` fails. The request `malloc (sizeof(int32_t) * nscans)` is
beyond any allocatable size exactly when `nscans` is negative. -/
def binconvert_checks (ext : Ext) (ifp : Option (List Byte)) : Checked :=
  match ifp with
  | none => .rejected
  | some f =>
    match read_bin_file f with
    | .error _ => .rejected
    | .ok (p, _) =>
      if p.ret = 0 then .rejected
      else if p.s_rate.leLit 0 then .rejected
      else if dataSizeMismatch p.ret p.nscans then .rejected
      else
        match ext.ms_md2doy (p.start_time.getD 0 0) (p.start_time.getD 1 0)
            (p.start_time.getD 2 0) with
        | none => .rejected
        | some _ =>
          if !ext.msr_init then .rejected
          else if p.nscans < 0 then .rejected
          else .accepted p

/-- The outcome of `binconvert`: its return value, the segments it handed to
`packmsr` in call order, and the final program state. -/
structure Converted (σ : Type) where
  ret : Int
  segments : List Segment
  state : σ

/-- The function `binconvert`. -/
def binconvert {σ : Type} (ext : Ext) (packmsr : σ → Segment → Int × σ)
    (ifp : Option (List Byte)) (st : σ) : Except Fault (Converted σ) :=
  match binconvert_checks ext ifp with
  | .rejected => .ok { ret := -1, segments := [], state := st }
  | .accepted p =>
    match convert_channels packmsr p.s_rate p.data p.nscans p.missingdataflag 6 0 st with
    | .error f => .error f
    | .ok (segs, st1) => .ok { ret := 0, segments := segs, state := st1 }

/-- The messages with which `binconvert` returns -1, in source order. -/
inductive ConvertError where
  /-- "Cannot open input file". -/
  | openInput
  /-- "Error reading input bin file". -/
  | readInput
  /-- "Error with sample rate". -/
  | sampleRate
  /-- "Unexpected data array size". -/
  | dataSize
  /-- "Error converting month and day-of-month to day-of-year". -/
  | dayOfYear
  /-- "Error initializing MSRecord". -/
  | initRecord
  /-- "Error allocating memory". -/
  | allocate
  deriving DecidableEq, Repr

/-- The message that lines 214-274 of `binconvert` print before `return -1`,
or `none` when the loop over the channels is entered. The test of line 223
sees the return value of `read_bin_file` only: 0 after one of its error
messages, and the data length record otherwise. -/
def binconvert_error (ext : Ext) (ifp : Option (List Byte)) : Option ConvertError :=
  match ifp with
  | none => some .openInput
  | some f =>
    if returnValue (read_bin_file f) = 0 then some .readInput
    else
      match read_bin_file f with
      | .error _ => some .readInput
      | .ok (p, _) =>
        if p.s_rate.leLit 0 then some .sampleRate
        else if dataSizeMismatch p.ret p.nscans then some .dataSize
        else
          match ext.ms_md2doy (p.start_time.getD 0 0) (p.start_time.getD 1 0)
              (p.start_time.getD 2 0) with
          | none => some .dayOfYear
          | some _ =>
            if !ext.msr_init then some .initRecord
            else if p.nscans < 0 then some .allocate
            else none

/-! ## Reference definitions from the specification -/

/-- The band-code table as the specification words it: the half-open interval
`[lo, hi)` of each row (no lower bound for the last row) and its letter. -/
def specBandTable : List (Option ℚ × ℚ × Char) :=
  [ (some 10, 80, 'B'),
    (some 1.01, 10, 'M'),
    (some 0.5, 1.01, 'L'),
    (some 0.05, 0.5, 'V'),
    (some 0.001, 0.05, 'U'),
    (some (1 / 10000), 1 / 1000, 'R'),
    (some (1 / 100000), 1 / 10000, 'P'),
    (some (1 / 100000), 1 / 100000, 'T'),
    (none, 1 / 1000000, 'Q') ]

/-- Whether a frequency falls in a row of the specification table. -/
def inBandRow (freq : CFloat) (row : Option ℚ × ℚ × Char) : Bool :=
  (match row.1 with
   | none => true
   | some lo => freq.geLit lo) && freq.ltLit row.2.1

/-- The component suffix of the specification, by channel index. -/
def specSuffix (chan_index : Int) : List Char :=
  if chan_index = 1 then ['F', 'N']
  else if chan_index = 2 then ['F', 'E']
  else if chan_index = 3 then ['F', 'Z']
  else if chan_index = 4 then ['Q', 'N']
  else ['Q', 'E']

/-- The acceptance condition on a header length as the byte-order claim words
it: `0 <= (x/4 - 21)/3 <= 100` with C truncating division, or `x = 5108`. -/
def specValidLength (x : Int) : Prop :=
  (0 ≤ Int.tdiv (Int.tdiv x 4 - 21) 3 ∧ Int.tdiv (Int.tdiv x 4 - 21) 3 ≤ 100) ∨ x = 5108

/-- The stream in which every whole 4-byte word has its bytes in reverse order
(the same file written on a machine of the other byte order). -/
def swapStream : List Byte → List Byte
  | b0 :: b1 :: b2 :: b3 :: s => b3 :: b2 :: b1 :: b0 :: swapStream s
  | s => s

/-- A sample is valid when it is not the missing-data flag and is below
2147483647. -/
def validSample (missingdataflag : Int) (v : Int) : Bool :=
  decide (v ≠ missingdataflag ∧ v < 2147483647)

/-- The column of one channel: sample `i` is `idata[5 * i + channel]`. -/
def column (idata : List Int) (nscans channel : Nat) : List Int :=
  (List.range nscans).map (fun i => idata.getD (5 * i + channel) 0)

/-- Whether a maximal run of valid samples starts at scan `s` of a column: the
sample is valid and is the first one or follows an invalid one. -/
def runStartsAt (valid : Int → Bool) (col : List Int) (s : Nat) : Bool :=
  valid (col.getD s 0) && (s == 0 || !valid (col.getD (s - 1) 0))

/-- The maximal non-empty runs of consecutive valid samples of a column, in
increasing scan order, each with the scan index of its first sample. -/
def maximalRuns (valid : Int → Bool) (col : List Int) : List (Nat × List Int) :=
  (List.range col.length).filterMap (fun s =>
    if runStartsAt valid col s then some (s, (col.drop s).takeWhile valid) else none)

/-- The segment of channel code `chan` made of a run and its start scan. -/
def runSegment (chan : String) (r : Nat × List Int) : Segment :=
  { channel := chan, startidx := r.1, samples := r.2 }

/-- The reference segmentation of one channel: the maximal runs of valid
samples of the channel's column, in increasing scan order, as segments. -/
def referenceSegments (idata : List Int) (nscans channel : Nat) (missingdataflag : Int)
    (chan : String) : List Segment :=
  (maximalRuns (validSample missingdataflag) (column idata nscans channel)).map
    (runSegment chan)

/-- The value of a length record held in four bytes of the stream, after
byte-order resolution: the bytes are decoded in host order, and reversed when
`swapflag` is set. -/
def markerValue (swapflag : Bool) (b0 b1 b2 b3 : Byte) : Int :=
  toInt32 (if swapflag then ms_gswap4a (hostWord b0 b1 b2 b3) else hostWord b0 b1 b2 b3)

/-! ## Notions used in the proofs -/

/-- Two steps correspond across the byte swap of the stream: on a stream and
on its swapped twin they fail with the same error, or both succeed, with
results related by `R` and rests that are each other's twin. -/
def SwapRel {α : Type} (R : α → α → Prop) (m m' : Reader α) : Prop :=
  ∀ s,
    (∀ e, m s = .error e → m' (swapStream s) = .error e) ∧
    (∀ a r, m s = .ok (a, r) → ∃ a', R a a' ∧ m' (swapStream s) = .ok (a', swapStream r))

/-- A step reads its bytes from the front of the stream and nothing else:
whenever it succeeds, the stream is `c ++ r` with `r` the rest handed on, the
step gives the same value on `c` followed by anything, and on a shorter
beginning of `c` it fails with a short-read error. -/
def PrefixStrict {α : Type} (m : Reader α) : Prop :=
  ∀ s a r, m s = .ok (a, r) →
    ∃ c, s = c ++ r ∧
      (∀ r', m (c ++ r') = .ok (a, r')) ∧
      (∀ t, t <+: c → t ≠ c → ∃ e, m t = .error e ∧ e.isShortRead = true)

/-- Every error a step can end with satisfies `P`. -/
def ErrorsIn {α : Type} (P : ReadError → Prop) (m : Reader α) : Prop :=
  ∀ s e, m s = .error e → P e

/-- Every value a step can succeed with satisfies `P`. -/
def ResultsIn {α : Type} (P : α → Prop) (m : Reader α) : Prop :=
  ∀ s a r, m s = .ok (a, r) → P a

/-- The runs that start at scan `d` or later. -/
def runsFrom (valid : Int → Bool) (col : List Int) (d : Nat) : List (Nat × List Int) :=
  (List.range' d (col.length - d)).filterMap (fun s =>
    if runStartsAt valid col s then some (s, (col.drop s).takeWhile valid) else none)

/-- Handing a list of runs to `packmsr` in order, as segments of the channel
code `chan`, until a call fails: the segments handed over and the final
state. -/
def packRuns {σ : Type} (packmsr : σ → Segment → Int × σ) (chan : String) :
    List (Nat × List Int) → σ → List Segment × σ
  | [], st => ([], st)
  | (s, run) :: rest, st =>
    if (packmsr st { channel := chan, startidx := s, samples := run }).1 ≠ 0 then
      ([{ channel := chan, startidx := s, samples := run }],
        (packmsr st { channel := chan, startidx := s, samples := run }).2)
    else
      ({ channel := chan, startidx := s, samples := run } ::
          (packRuns packmsr chan rest
            (packmsr st { channel := chan, startidx := s, samples := run }).2).1,
        (packRuns packmsr chan rest
            (packmsr st { channel := chan, startidx := s, samples := run }).2).2)

/-- A step ends by reading a length record: whenever it succeeds, the stream is
`c ++ b0 :: b1 :: b2 :: b3 :: r` with `r` the rest handed on, the field `field`
of the result is the value of the four bytes, and with any four bytes and any
rest after `c` the step gives the same result except for that field, which is
the value of those bytes. -/
def EndsWithMarker {α : Type} (swapflag : Bool) (field : α → Int) (update : α → Int → α)
    (m : Reader α) : Prop :=
  ∀ s a r, m s = .ok (a, r) →
    ∃ c b0 b1 b2 b3, s = c ++ b0 :: b1 :: b2 :: b3 :: r ∧
      field a = markerValue swapflag b0 b1 b2 b3 ∧
      ∀ c0 c1 c2 c3 r1, m (c ++ c0 :: c1 :: c2 :: c3 :: r1) =
        .ok (update a (markerValue swapflag c0 c1 c2 c3), r1)

/-! ## The calls of `packmsr` made by `binconvert` -/

/-- A `packmsr` together with a record of its calls: every segment it is
given, with the value it returns for it, in call order. -/
def logged {σ : Type} (packmsr : σ → Segment → Int × σ)
    (st : σ × List (Segment × Int)) (seg : Segment) : Int × (σ × List (Segment × Int)) :=
  ((packmsr st.1 seg).1, ((packmsr st.1 seg).2, st.2 ++ [(seg, (packmsr st.1 seg).1)]))

/-! ## `packmsr` (mt2mseed.c, lines 99-183) -/

/-- The fields of the record `msr` that `packmsr` reads or sets. -/
structure MSRecord where
  network : String
  station : String
  channel : String
  starttime : Int
  encoding : Int
  datasamples : List Int
  deriving DecidableEq, Repr

/-- An output stream (a `FILE *` returned by `fopen`): the name it was opened
under and the rank of the `fopen` call that returned it, which tells apart two
streams opened under the same name. -/
structure OutStream where
  name : String
  rank : Nat
  deriving DecidableEq, Repr

/-- The collaborators of `packmsr` outside the repository: whether the call of
`fopen (name, "w")` of a given rank returns a stream; the record count that
`msr_pack` returns (negative on error) with the sample count it stores in
`trpackedsamples`; and the time string written by `ms_hptime2isotimestr`. -/
structure PackEnv where
  fopen : Nat → String → Bool
  msr_pack : MSRecord → Int × Int
  ms_hptime2isotimestr : Int → String

/-- The global variables that `packmsr` reads and updates (`outfp`,
`packedsamples`, `packedrecords`), with a record of what it did: the number of
`fopen` calls, the streams opened, the calls of `msr_pack` with the stream
handed to `record_handler`, and the streams closed, each in call order. -/
structure PackState where
  outfp : Option OutStream
  packedsamples : Int
  packedrecords : Int
  fopens : Nat
  opened : List OutStream
  packed : List (OutStream × MSRecord)
  closed : List OutStream
  deriving DecidableEq, Repr

/-- The state at program start: `outfp = 0` and both counters 0. -/
def PackState.start : PackState :=
  { outfp := none, packedsamples := 0, packedrecords := 0, fopens := 0, opened := [],
    packed := [], closed := [] }

/-- The call `fopen (name, "w")`. -/
def fopen_w (env : PackEnv) (name : String) (st : PackState) : Option OutStream × PackState :=
  if env.fopen st.fopens name then
    (some { name := name, rank := st.fopens },
      { st with fopens := st.fopens + 1,
                opened := st.opened ++ [{ name := name, rank := st.fopens }] })
  else (none, { st with fopens := st.fopens + 1 })

/-- Lines 159-182 of `packmsr`, with the stream `ofp` chosen: the encoding is
set, `msr_pack` is called with `ofp` as handler data, a negative record count
returns -1, otherwise the counters grow and `ofp` is closed when it is not
`outfp`. -/
def pack_records (env : PackEnv) (encoding : Int) (ofp : OutStream) (st : PackState)
    (msr : MSRecord) : Int × PackState :=
  let msr1 : MSRecord := { msr with encoding := encoding }
  let st1 : PackState := { st with packed := st.packed ++ [(ofp, msr1)] }
  if (env.msr_pack msr1).1 < 0 then (-1, st1)
  else
    let st2 : PackState :=
      { st1 with packedrecords := st1.packedrecords + (env.msr_pack msr1).1,
                 packedsamples := st1.packedsamples + (env.msr_pack msr1).2 }
    if some ofp ≠ st2.outfp then (0, { st2 with closed := st2.closed ++ [ofp] })
    else (0, st2)

/-- The function `packmsr`, with the globals `outfile`, `chanfiles` and
`encoding` as arguments. -/
def packmsr (env : PackEnv) (outfile : Option String) (chanfiles : Bool) (encoding : Int)
    (st : PackState) (msr : MSRecord) : Int × PackState :=
  match outfile with
  | some name =>
    match st.outfp with
    | some ofp => pack_records env encoding ofp st msr
    | none =>
      match fopen_w env name st with
      | (none, st1) => (-1, st1)
      | (some ofp, st1) => pack_records env encoding ofp { st1 with outfp := some ofp } msr
  | none =>
    if !chanfiles then
      match st.outfp with
      | some ofp => pack_records env encoding ofp st msr
      | none =>
        match fopen_w env (msr.network ++ "." ++ msr.station ++ "." ++
            env.ms_hptime2isotimestr msr.starttime) st with
        | (none, st1) => (-1, st1)
        | (some ofp, st1) => pack_records env encoding ofp { st1 with outfp := some ofp } msr
    else
      match fopen_w env (msr.network ++ "." ++ msr.station ++ "." ++
          env.ms_hptime2isotimestr msr.starttime ++ "." ++ msr.channel) st with
      | (none, st1) => (-1, st1)
      | (some ofp, st1) => pack_records env encoding ofp st1 msr

/-- The name under which `packmsr` opens `outfp` when it is not per-channel:
the output file given with `-o`, else network, station and the time string of
the record's start time. -/
def sharedName (env : PackEnv) (outfile : Option String) (msr : MSRecord) : String :=
  match outfile with
  | some name => name
  | none => msr.network ++ "." ++ msr.station ++ "." ++ env.ms_hptime2isotimestr msr.starttime

/-- A sequence of calls of `packmsr`, in order, whatever each call returns:
the values returned and the final state. -/
def packmsr_calls (env : PackEnv) (outfile : Option String) (chanfiles : Bool)
    (encoding : Int) : List MSRecord → PackState → List Int × PackState
  | [], st => ([], st)
  | msr :: rest, st =>
    ((packmsr env outfile chanfiles encoding st msr).1 ::
        (packmsr_calls env outfile chanfiles encoding rest
          (packmsr env outfile chanfiles encoding st msr).2).1,
      (packmsr_calls env outfile chanfiles encoding rest
          (packmsr env outfile chanfiles encoding st msr).2).2)

/-! ## The start time of a segment (mt2mseed.c, line 349) -/

/-- The integer nearest to `x`, the even one of the two when `x` lies half way. -/
def roundHalfEven (x : ℚ) : Int :=
  if x - ⌊x⌋ < 1 / 2 then ⌊x⌋
  else if x - ⌊x⌋ = 1 / 2 ∧ ⌊x⌋ % 2 = 0 then ⌊x⌋
  else ⌊x⌋ + 1

/-- The `double` (IEEE 754 binary64) nearest to `x`, ties to the even
significand: `x` is rounded to 53 significant binary digits. This is the
rounding of the format for 0 and for `2 ^ (-1022) ≤ |x| < 2 ^ 1024`, the range
in which every value of the start time computation lies. -/
def toDouble (x : ℚ) : ℚ :=
  if x = 0 then 0
  else (roundHalfEven (x / 2 ^ (Int.log 2 |x| - 52)) : ℚ) * 2 ^ (Int.log 2 |x| - 52)

/-- The libmseed constant `HPTMODULUS`: the number of `hptime_t` ticks in a
second. -/
def HPTMODULUS : ℚ := 1000000

/-- The conversion of a `double` to an integer type: the fraction is dropped
(rounding toward zero). -/
def truncate (x : ℚ) : Int :=
  if 0 ≤ x then ⌊x⌋ else ⌈x⌉

/-- The assignment of line 349,
`msr->starttime = starttime + ((startidx / msr->samprate) * HPTMODULUS)`, for a
finite non-zero sample rate: `startidx` is converted to `double` and divided by
the `double` sample rate, the quotient is multiplied by `HPTMODULUS`,
`starttime` is converted to `double` and added, each operation rounding its
exact result to a `double`, and the sum is converted to the 64-bit `hptime_t`;
`none` when the sum is outside the range of `hptime_t`, where the conversion
is undefined. -/
def segment_starttime (starttime : Int) (startidx : Nat) (samprate : ℚ) : Option Int :=
  let sum : ℚ :=
    toDouble (toDouble (starttime : ℚ) +
      toDouble (toDouble ((startidx : ℚ) / samprate) * HPTMODULUS))
  if -9223372036854775808 ≤ truncate sum ∧ truncate sum ≤ 9223372036854775807 then
    some (truncate sum)
  else none

/-! ## `parameter_proc`, `getoptval` and `main` (mt2mseed.c, lines 57-86 and 384-552) -/

/-- The global variables that `parameter_proc` sets (lines 39-52). -/
structure Options where
  verbose : Int
  packreclen : Int
  encoding : Int
  byteorder : Int
  chanfiles : Bool
  srateblkt : Bool
  network : Option String
  station : Option String
  location : Option String
  outfile : Option String
  filelist : List String
  deriving DecidableEq, Repr

/-- The initial values of the global variables. -/
def Options.start : Options :=
  { verbose := 0, packreclen := -1, encoding := 11, byteorder := -1, chanfiles := false,
    srateblkt := false, network := some "EM", station := none, location := none,
    outfile := none, filelist := [] }

/-- How a function ends when it does not return: the process is terminated by
`exit (status)`, or the fuel of a loop of the embedding is used up. -/
inductive Halt where
  | exit (status : Int)
  | fuel
  deriving DecidableEq, Repr

/-- The function `getoptval`: the value of the option at index `argopt`, or
`exit (1)` when the option is missing, the value is past the end of the
arguments, or the value starts with `-` (except in `-o -`). -/
def getoptval (argvec : List String) (argopt : Nat) : Except Halt String :=
  match argvec[argopt]? with
  | none => .error (.exit 1)
  | some opt =>
    match argvec[argopt + 1]? with
    | none => .error (.exit 1)
    | some val =>
      if opt = "-o" ∧ val = "-" then .ok val
      else if val.data.head? ≠ some '-' then .ok val
      else .error (.exit 1)

/-- The conversion of the `unsigned long` returned by `strtoul` to `int`. -/
def intOfUlong (v : Nat) : Int :=
  toInt32 (v % 4294967296)

/-- The loop over the command line arguments, lines 390-452, entered with
`optind`. `strtoul` is the C library function with base 10. -/
def process_arguments (strtoul : String → Nat) (argvec : List String) :
    Nat → Nat → Options → Except Halt Options
  | 0, _, _ => .error .fuel
  | fuel + 1, optind, o =>
    match argvec[optind]? with
    | none => .ok o
    | some arg =>
      if arg = "-V" then .error (.exit 0)
      else if arg = "-h" then .error (.exit 0)
      else if arg.data.take 2 = ['-', 'v'] then
        process_arguments strtoul argvec fuel (optind + 1)
          { o with verbose :=
              wrap32 (o.verbose + ((arg.data.drop 1).takeWhile (fun c => c = 'v')).length) }
      else if arg = "-S" then
        process_arguments strtoul argvec fuel (optind + 1) { o with srateblkt := true }
      else if arg = "-C" then
        process_arguments strtoul argvec fuel (optind + 1) { o with chanfiles := true }
      else if arg = "-n" then
        match getoptval argvec optind with
        | .error h => .error h
        | .ok v => process_arguments strtoul argvec fuel (optind + 2) { o with network := some v }
      else if arg = "-s" then
        match getoptval argvec optind with
        | .error h => .error h
        | .ok v => process_arguments strtoul argvec fuel (optind + 2) { o with station := some v }
      else if arg = "-l" then
        match getoptval argvec optind with
        | .error h => .error h
        | .ok v =>
          process_arguments strtoul argvec fuel (optind + 2) { o with location := some v }
      else if arg = "-r" then
        match getoptval argvec optind with
        | .error h => .error h
        | .ok v =>
          process_arguments strtoul argvec fuel (optind + 2)
            { o with packreclen := intOfUlong (strtoul v) }
      else if arg = "-e" then
        match getoptval argvec optind with
        | .error h => .error h
        | .ok v =>
          process_arguments strtoul argvec fuel (optind + 2)
            { o with encoding := intOfUlong (strtoul v) }
      else if arg = "-b" then
        match getoptval argvec optind with
        | .error h => .error h
        | .ok v =>
          process_arguments strtoul argvec fuel (optind + 2)
            { o with byteorder := intOfUlong (strtoul v) }
      else if arg = "-o" then
        match getoptval argvec optind with
        | .error h => .error h
        | .ok v => process_arguments strtoul argvec fuel (optind + 2) { o with outfile := some v }
      else if arg.data.head? = some '-' ∧ arg.data.length > 1 then .error (.exit 1)
      else
        process_arguments strtoul argvec fuel (optind + 1)
          { o with filelist := o.filelist ++ [arg] }

/-- The loop over the file list, lines 476-514, at the node `ln`: `kept` are
the nodes before `ln` that stay in the list, the third argument is the list
from `ln` on, and `lists` are the list files read so far. A node whose name
starts with `@` is taken out and `readlistfile` appends the names it reads at
the end of the list. The `next` field of the node just freed is read as it
was when the node was taken out: the end of the list if the node was last. -/
def expand_lists (readlistfile : String → List String) :
    Nat → List String → List String → List String → Except Halt (List String × List String)
  | 0, _, _, _ => .error .fuel
  | _ + 1, kept, [], lists => .ok (kept, lists)
  | fuel + 1, kept, lfname :: rest, lists =>
    if lfname.data.head? = some '@' then
      if rest = [] then
        .ok (kept ++ readlistfile (String.mk (lfname.data.drop 1)),
          lists ++ [String.mk (lfname.data.drop 1)])
      else
        expand_lists readlistfile fuel kept
          (rest ++ readlistfile (String.mk (lfname.data.drop 1)))
          (lists ++ [String.mk (lfname.data.drop 1)])
    else expand_lists readlistfile fuel (kept ++ [lfname]) rest lists

/-- What `parameter_proc` has done when it ends: the list files it has read,
in order, and either the way the process ended or the return value with the
global variables. -/
structure Started where
  listfiles : List String
  result : Except Halt (Int × Options)

/-- The function `parameter_proc`. `fuel` bounds the number of nodes visited
by the loop over the file list, which need not end when a list file names a
list file. -/
def parameter_proc (strtoul : String → Nat) (readlistfile : String → List String)
    (fuel : Nat) (argvec : List String) : Started :=
  match process_arguments strtoul argvec (argvec.length + 1) 1 Options.start with
  | .error h => { listfiles := [], result := .error h }
  | .ok o =>
    if o.filelist = [] then { listfiles := [], result := .error (.exit 1) }
    else if o.encoding ≠ 3 ∧ o.encoding ≠ 10 ∧ o.encoding ≠ 11 then
      { listfiles := [], result := .error (.exit 1) }
    else
      match expand_lists readlistfile fuel [] o.filelist [] with
      | .error h => { listfiles := [], result := .error h }
      | .ok (filelist, lists) =>
        { listfiles := lists, result := .ok (0, { o with filelist := filelist }) }

/-- The loop of `main` over the file list, lines 67-76: the calls of
`binconvert` with the values returned, in call order, and the final program
state. The value returned is not looked at. -/
def convert_files {σ : Type} (binconvert : σ → String → Int × σ) :
    List String → σ → List (String × Int) × σ
  | [], st => ([], st)
  | binfile :: rest, st =>
    ((binfile, (binconvert st binfile).1) :: (convert_files binconvert rest
        (binconvert st binfile).2).1,
      (convert_files binconvert rest (binconvert st binfile).2).2)

/-- What a run of the program has done when it ends: the list files read and
the calls of `binconvert` with their return values, in order, the final
program state, and either the way the process ended or the value returned by
`main`. -/
structure Run (σ : Type) where
  listfiles : List String
  binconverts : List (String × Int)
  state : σ
  result : Except Halt Int

/-- The function `main`. `binconvert` is the conversion of one file under the
given global variables, as a function of the program state. The message with
the totals and the closing of `outfp` before `return 0` are left out. -/
def main {σ : Type} (strtoul : String → Nat) (readlistfile : String → List String)
    (binconvert : Options → σ → String → Int × σ) (fuel : Nat) (argv : List String)
    (st : σ) : Run σ :=
  match (parameter_proc strtoul readlistfile fuel argv).result with
  | .error h =>
    { listfiles := (parameter_proc strtoul readlistfile fuel argv).listfiles,
      binconverts := [], state := st, result := .error h }
  | .ok (ret, o) =>
    if ret < 0 then
      { listfiles := (parameter_proc strtoul readlistfile fuel argv).listfiles,
        binconverts := [], state := st, result := .ok (-1) }
    else
      { listfiles := (parameter_proc strtoul readlistfile fuel argv).listfiles,
        binconverts := (convert_files (binconvert o) o.filelist st).1,
        state := (convert_files (binconvert o) o.filelist st).2,
        result := .ok 0 }

/-! ## Header fields that are read and not used -/

/-- Lines 104-127: the header length record after the byte-order check, with
`swapflag`. -/
def read_header_length : Reader (Int × Bool) := do
  let rl ← readWord .headerLengthRecord false
  swapCheck rl

/-- The byte offsets, in a file of header length `rl`, of the header fields
that `read_bin_file` reads and does not use: latitude, longitude and
declination (4-15), elevation (20-23), `clock_zero` (48-71), the gap type
(76-79), and the gap table with the padding (88 up to the trailing length
record at `4 + 4 * (rl / 4)`). -/
def unusedOffset (rl : Int) (i : Nat) : Bool :=
  decide ((4 ≤ i ∧ i < 16) ∨ (20 ≤ i ∧ i < 24) ∨ (48 ≤ i ∧ i < 72) ∨ (76 ≤ i ∧ i < 80) ∨
    (88 ≤ i ∧ (i : Int) < 4 + 4 * Int.tdiv rl 4))

/-- The header length of a stream: the header length record after the
byte-order check, or 0 when the stream has no acceptable one. -/
def headerLengthOf (f : List Byte) : Int :=
  match read_header_length f with
  | .ok ((rl, _), _) => rl
  | .error _ => 0

/-- Whether two streams differ only in unused header fields: they have the
same length, and their bytes agree at every offset that is not an unused one
under the header length of the first stream. -/
def differOnlyUnused (f f' : List Byte) : Bool :=
  f.length == f'.length &&
    (List.range f.length).all (fun i => unusedOffset (headerLengthOf f) i || f[i]? == f'[i]?)

/-- Two streams of the same length whose bytes agree at every offset outside
`D`. -/
def AgreeOff (D : Nat → Prop) (s s' : List Byte) : Prop :=
  s.length = s'.length ∧ ∀ i, ¬ D i → s[i]? = s'[i]?

/-- Two steps correspond on streams that agree outside `D`: they fail with the
same error, or both succeed, with results related by `R` and rests that agree
outside `D'`. -/
def SameOff {α : Type} (D D' : Nat → Prop) (R : α → α → Prop) (m m' : Reader α) : Prop :=
  ∀ s s', AgreeOff D s s' →
    (∀ e, m s = .error e → m' s' = .error e) ∧
    (∀ a r, m s = .ok (a, r) → ∃ a' r', m' s' = .ok (a', r') ∧ R a a' ∧ AgreeOff D' r r')

/-! ## Concrete inputs -/

/-- The bytes of a 32-bit pattern in host (little-endian) order. -/
def wordBytes (w : Nat) : List Byte :=
  [Fin.ofNat (w % 256), Fin.ofNat (w / 256 % 256), Fin.ofNat (w / 65536 % 256),
    Fin.ofNat (w / 16777216 % 256)]

/-- The stream made of the given 32-bit patterns. -/
def wordsBytes (ws : List Nat) : List Byte :=
  ws.flatMap wordBytes

/-- A small well-formed file, as 32-bit words: header length 84 (no gap, no
padding), `dt = 1.0f`, start time 2008-07-08 00:00:00, one scan, gap type
2005, missing-data flag 2147483647, and a data block of 20 bytes. -/
def sampleWords : List Nat :=
  [84, 0, 0, 0, 0x3F800000, 0, 2008, 7, 8, 0, 0, 0, 0, 0, 0, 0, 0, 0, 1, 2005,
    0x7FFFFFFF, 0, 84, 20, 1, 2, 3, 4, 5, 20]

/-- The sample file as bytes. -/
def sampleFile : List Byte := wordsBytes sampleWords

/-- What `read_bin_file` decodes from the sample file. -/
def sampleParse : BinFile :=
  { ret := 20, dt := 0x3F800000, s_rate := recipF32 0x3F800000, nscans := 1,
    start_time := [2008, 7, 8, 0, 0, 0], data := [1, 2, 3, 4, 5],
    missingdataflag := 2147483647 }

/-- The sample file with `dt = 2^-7` (0.0078125 s, a sample rate of 128 Hz). -/
def fastWords : List Nat :=
  [84, 0, 0, 0, 0x3C000000, 0, 2008, 7, 8, 0, 0, 0, 0, 0, 0, 0, 0, 0, 1, 2005,
    0x7FFFFFFF, 0, 84, 20, 1, 2, 3, 4, 5, 20]

/-- The 128 Hz file as bytes. -/
def fastFile : List Byte := wordsBytes fastWords

/-- What `read_bin_file` decodes from the 128 Hz file. -/
def fastParse : BinFile :=
  { ret := 20, dt := 0x3C000000, s_rate := recipF32 0x3C000000, nscans := 1,
    start_time := [2008, 7, 8, 0, 0, 0], data := [1, 2, 3, 4, 5],
    missingdataflag := 2147483647 }

/-- Collaborators that do not fail: `ms_md2doy` answers day 190 (8 July 2008)
and `msr_init` returns a record. -/
def sampleExt : Ext :=
  { ms_md2doy := fun _ _ _ => some 190, msr_init := true }

/-- A `packmsr` that only records what it is given and never fails. -/
def recordOnly (st : List Segment) (seg : Segment) : Int × List Segment :=
  (0, st ++ [seg])

/-- A `packmsr` on which every call fails. -/
def failingPack (st : Unit) (_ : Segment) : Int × Unit :=
  (-1, st)

/-- A `packmsr` over the counter `packedsamples` alone, whose encoder packs
every sample it is given and never fails. -/
def countingPack (packedsamples : Int) (seg : Segment) : Int × Int :=
  (0, packedsamples + seg.samples.length)

/-- Three scans of five channels: channel 0 holds 1, the flag 9, and 2. -/
def gapData : List Int :=
  [1, 0, 0, 0, 0, 9, 0, 0, 0, 0, 2, 0, 0, 0, 0]

/-- Four scans of five channels: channel 2 holds 5, the flag 9, 6 and 7. -/
def gapData4 : List Int :=
  [0, 0, 5, 0, 0, 0, 0, 9, 0, 0, 0, 0, 6, 0, 0, 0, 0, 7, 0, 0]

/-- The example of the specification: 100 scans of five channels, sample `i`
of the array holding `i`, except for the missing-data flag -999 at scan 10 of
channel 2. -/
def hundredScans : List Int :=
  (List.range 500).map (fun i => if i = 52 then -999 else (i : Int))

/-- A `packmsr` over the number of calls made so far, whose first call fails
and whose later calls succeed. -/
def failFirst (calls : Nat) (_ : Segment) : Int × Nat :=
  (if calls = 0 then -1 else 0, calls + 1)

/-- A stand-in for `strtoul` on strings of decimal digits. -/
def decimal (s : String) : Nat :=
  s.data.foldl (fun n c => 10 * n + (c.toNat - 48)) 0

/-- A file with one gap and one padding word (header length 100), at 1 Hz,
with one scan; `x` fills every field that is read and not used: latitude,
longitude, declination, elevation, `clock_zero`, the gap type, the gap table
and the padding. -/
def paddedWords (x : Nat) : List Nat :=
  [100, x, x, x, 0x3F800000, x, 2008, 7, 8, 0, 0, 0, x, x, x, x, x, x, 1, x,
    0x7FFFFFFF, 1, x, x, x, x, 100, 20, 1, 2, 3, 4, 5, 20]

/-- The file of `paddedWords` as bytes. -/
def paddedFile (x : Nat) : List Byte := wordsBytes (paddedWords x)

/-- Collaborators of `packmsr` that do not fail: every `fopen` returns a
stream, the encoder packs every sample into one record, and the time string is
the ISO time of 0 and of 11000000 ticks (the number of ticks in decimal for
another time). -/
def sampleEnv : PackEnv :=
  { fopen := fun _ _ => true,
    msr_pack := fun msr => (1, msr.datasamples.length),
    ms_hptime2isotimestr := fun t =>
      if t = 0 then "1970-01-01T00:00:00"
      else if t = 11000000 then "1970-01-01T00:00:11"
      else toString t }

/-- A record of network EM, with blank station, for channel LFN. -/
def sampleRecord (starttime : Int) (datasamples : List Int) : MSRecord :=
  { network := "EM", station := "", channel := "LFN", starttime := starttime,
    encoding := -1, datasamples := datasamples }

/-- The one-sample segments of the five channels of the sample file. -/
def sampleSegments : List Segment :=
  [{ channel := "LFN", startidx := 0, samples := [1] },
   { channel := "LFE", startidx := 0, samples := [2] },
   { channel := "LFZ", startidx := 0, samples := [3] },
   { channel := "LQN", startidx := 0, samples := [4] },
   { channel := "LQE", startidx := 0, samples := [5] }]

/-- A `binconvert` over the number of files handled so far that fails on the
file `a.bin` and succeeds on every other file. -/
def failOnA (_ : Options) (files : Nat) (binfile : String) : Int × Nat :=
  (if binfile = "a.bin" then -1 else 0, files + 1)

/-- Collaborators of `packmsr` whose first `fopen` fails and whose later ones
return a stream. -/
def flakyEnv : PackEnv :=
  { fopen := fun rank _ => decide (rank ≠ 0),
    msr_pack := fun msr => (1, msr.datasamples.length),
    ms_hptime2isotimestr := fun t => toString t }

/-- A well-formed file at 1 Hz with no scan: header length 84, `nscans = 0`,
and an empty data block between two length records 0. -/
def emptyWords : List Nat :=
  [84, 0, 0, 0, 0x3F800000, 0, 2008, 7, 8, 0, 0, 0, 0, 0, 0, 0, 0, 0, 0, 2005,
    0x7FFFFFFF, 0, 84, 0, 0]

/-- The file of `emptyWords` as bytes. -/
def emptyFile : List Byte := wordsBytes emptyWords

/-- The header that `read_header` decodes from `emptyFile`. -/
def emptyHeader : Header :=
  { swapflag := false, j1 := 84, lat := 0, lon := 0, decl := 0, dt := 0x3F800000, elev := 0,
    start_time := [2008, 7, 8, 0, 0, 0], clock_zero := [0, 0, 0, 0, 0, 0], nscans := 0,
    gaptyp := 2005, missingdataflag := 2147483647, ngaps := 0, gaps := [], itmp := [],
    j2 := 84 }

/-- The header that `read_header` decodes from the sample file. -/
def sampleHeader : Header :=
  { swapflag := false, j1 := 84, lat := 0, lon := 0, decl := 0, dt := 0x3F800000, elev := 0,
    start_time := [2008, 7, 8, 0, 0, 0], clock_zero := [0, 0, 0, 0, 0, 0], nscans := 1,
    gaptyp := 2005, missingdataflag := 2147483647, ngaps := 0, gaps := [], itmp := [],
    j2 := 84 }

/-- The sample file with `nscans = 858993460` and a data block of 16 bytes
(four samples): `nscans * 5` is `4294967300`, which is 4 modulo `2^32`. -/
def overflowWords : List Nat :=
  [84, 0, 0, 0, 0x3F800000, 0, 2008, 7, 8, 0, 0, 0, 0, 0, 0, 0, 0, 0, 858993460, 2005,
    0x7FFFFFFF, 0, 84, 16, 1, 2, 3, 4, 16]

/-- The file of `overflowWords` as bytes. -/
def overflowFile : List Byte := wordsBytes overflowWords

/-- What `read_bin_file` decodes from `overflowFile`. -/
def overflowParse : BinFile :=
  { ret := 16, dt := 0x3F800000, s_rate := recipF32 0x3F800000, nscans := 858993460,
    start_time := [2008, 7, 8, 0, 0, 0], data := [1, 2, 3, 4],
    missingdataflag := 2147483647 }

/-! ## Lemmas -/

theorem bandCode_of_row (freq : CFloat) (row : Option ℚ × ℚ × Char)
    (hrow : row ∈ specBandTable) (hin : inBandRow freq row = true) :
    bandCode freq = some row.2.2 ∧ row.2.2 ≠ 'T' := by
  cases freq with
  | nan =>
    simp [specBandTable] at hrow
    rcases hrow with rfl | rfl | rfl | rfl | rfl | rfl | rfl | rfl | rfl <;>
      simp [inBandRow, CFloat.geLit, CFloat.ltLit] at hin
  | posInf =>
    simp [specBandTable] at hrow
    rcases hrow with rfl | rfl | rfl | rfl | rfl | rfl | rfl | rfl | rfl <;>
      simp [inBandRow, CFloat.geLit, CFloat.ltLit] at hin
  | negInf =>
    simp [specBandTable] at hrow
    rcases hrow with rfl | rfl | rfl | rfl | rfl | rfl | rfl | rfl | rfl <;>
      simp [inBandRow, CFloat.geLit, CFloat.ltLit] at hin
    all_goals simp [bandCode, CFloat.geLit, CFloat.ltLit]
  | fin q =>
    simp only [specBandTable, List.mem_cons, List.mem_singleton, List.not_mem_nil,
      or_false] at hrow
    simp only [bandCode, CFloat.geLit, CFloat.ltLit, Bool.and_eq_true, decide_eq_true_eq]
    rcases hrow with rfl | rfl | rfl | rfl | rfl | rfl | rfl | rfl | rfl <;>
      simp only [inBandRow, CFloat.geLit, CFloat.ltLit, Bool.and_eq_true,
        decide_eq_true_eq, Bool.true_and] at hin
    · exact ⟨by rw [if_pos hin], by decide⟩
    · exact ⟨by rw [if_neg (fun h => by linarith [h.1, h.2, hin.1, hin.2]), if_pos hin], by decide⟩
    · exact ⟨by rw [if_neg (fun h => by linarith [h.1, h.2, hin.1, hin.2]), if_neg (fun h => by linarith [h.1, h.2, hin.1, hin.2]), if_pos hin], by decide⟩
    · exact ⟨by rw [if_neg (fun h => by linarith [h.1, h.2, hin.1, hin.2]), if_neg (fun h => by linarith [h.1, h.2, hin.1, hin.2]), if_neg (fun h => by linarith [h.1, h.2, hin.1, hin.2]), if_pos hin], by decide⟩
    · exact ⟨by rw [if_neg (fun h => by linarith [h.1, h.2, hin.1, hin.2]), if_neg (fun h => by linarith [h.1, h.2, hin.1, hin.2]), if_neg (fun h => by linarith [h.1, h.2, hin.1, hin.2]), if_neg (fun h => by linarith [h.1, h.2, hin.1, hin.2]), if_pos hin], by decide⟩
    · exact ⟨by rw [if_neg (fun h => by linarith [h.1, h.2, hin.1, hin.2]), if_neg (fun h => by linarith [h.1, h.2, hin.1, hin.2]), if_neg (fun h => by linarith [h.1, h.2, hin.1, hin.2]), if_neg (fun h => by linarith [h.1, h.2, hin.1, hin.2]), if_neg (fun h => by linarith [h.1, h.2, hin.1, hin.2]), if_pos hin], by decide⟩
    · exact ⟨by rw [if_neg (fun h => by linarith [h.1, h.2, hin.1, hin.2]), if_neg (fun h => by linarith [h.1, h.2, hin.1, hin.2]), if_neg (fun h => by linarith [h.1, h.2, hin.1, hin.2]), if_neg (fun h => by linarith [h.1, h.2, hin.1, hin.2]), if_neg (fun h => by linarith [h.1, h.2, hin.1, hin.2]), if_neg (fun h => by linarith [h.1, h.2, hin.1, hin.2]), if_pos hin], by decide⟩
    · exact absurd hin.2 (not_lt.mpr hin.1)
    · have hq : ∀ lo hi : ℚ, (1 : ℚ) / 1000000 ≤ lo → ¬(lo ≤ q ∧ q < hi) :=
        fun lo hi hlo h => by linarith [h.1]
      exact ⟨by
        rw [if_neg (hq _ _ (by norm_num)), if_neg (hq _ _ (by norm_num)),
          if_neg (hq _ _ (by norm_num)), if_neg (hq _ _ (by norm_num)),
          if_neg (hq _ _ (by norm_num)), if_neg (hq _ _ (by norm_num)),
          if_neg (hq _ _ (by norm_num)), if_neg (hq _ _ (by norm_num)), if_pos hin],
        by decide⟩

theorem row_of_bandCode (freq : CFloat) (b : Char) (hb : bandCode freq = some b) :
    ∃ row ∈ specBandTable, inBandRow freq row = true ∧ row.2.2 = b := by
  unfold bandCode at hb
  split_ifs at hb with h1 h2 h3 h4 h5 h6 h7 h8 h9 <;> cases hb
  · exact ⟨(some 10, 80, 'B'), by simp [specBandTable], h1, rfl⟩
  · exact ⟨(some 1.01, 10, 'M'), by simp [specBandTable], h2, rfl⟩
  · exact ⟨(some 0.5, 1.01, 'L'), by simp [specBandTable], h3, rfl⟩
  · exact ⟨(some 0.05, 0.5, 'V'), by simp [specBandTable], h4, rfl⟩
  · exact ⟨(some 0.001, 0.05, 'U'), by simp [specBandTable], h5, rfl⟩
  · exact ⟨(some (1 / 10000), 1 / 1000, 'R'), by simp [specBandTable], h6, rfl⟩
  · exact ⟨(some (1 / 100000), 1 / 10000, 'P'), by simp [specBandTable], h7, rfl⟩
  · exact ⟨(some (1 / 100000), 1 / 100000, 'T'), by simp [specBandTable], h8, rfl⟩
  · exact ⟨(none, 1 / 1000000, 'Q'), by simp [specBandTable], by simpa [inBandRow] using h9, rfl⟩

theorem get_chan_name_of_band (freq : CFloat) (b : Char) (i : Int)
    (hb : bandCode freq = some b) (hi : 1 ≤ i ∧ i ≤ 5) :
    get_chan_name freq i = .ok (String.mk (b :: specSuffix i)) := by
  obtain rfl | rfl | rfl | rfl | rfl : i = 1 ∨ i = 2 ∨ i = 3 ∨ i = 4 ∨ i = 5 := by omega
  all_goals simp [get_chan_name, hb, specSuffix]

theorem specSuffix_injOn (i j : Int) (hi : 1 ≤ i ∧ i ≤ 5) (hj : 1 ≤ j ∧ j ≤ 5)
    (h : specSuffix i = specSuffix j) : i = j := by
  obtain rfl | rfl | rfl | rfl | rfl : i = 1 ∨ i = 2 ∨ i = 3 ∨ i = 4 ∨ i = 5 := by omega
  all_goals
    obtain rfl | rfl | rfl | rfl | rfl : j = 1 ∨ j = 2 ∨ j = 3 ∨ j = 4 ∨ j = 5 := by omega
    all_goals first | rfl | (simp [specSuffix] at h)

theorem hostWord_lt (b0 b1 b2 b3 : Byte) : hostWord b0 b1 b2 b3 < 4294967296 := by
  unfold hostWord
  omega

theorem ms_gswap4a_hostWord (b0 b1 b2 b3 : Byte) :
    ms_gswap4a (hostWord b0 b1 b2 b3) = hostWord b3 b2 b1 b0 := by
  unfold ms_gswap4a hostWord
  omega

theorem ms_gswap4a_lt (w : Nat) : ms_gswap4a w < 4294967296 := by
  unfold ms_gswap4a
  omega

theorem ms_gswap4a_twice (w : Nat) (hw : w < 4294967296) :
    ms_gswap4a (ms_gswap4a w) = w := by
  have e : w = hostWord ⟨w % 256, by omega⟩ ⟨w / 256 % 256, by omega⟩
      ⟨w / 65536 % 256, by omega⟩ ⟨w / 16777216 % 256, by omega⟩ := by
    simp only [hostWord]
    omega
  rw [e, ms_gswap4a_hostWord, ms_gswap4a_hostWord]

theorem fread4_lt : ∀ (n : Nat) (s : List Byte) (ws : List Nat) (r : List Byte),
    fread4 n s = some (ws, r) → ∀ w ∈ ws, w < 4294967296
  | 0, s, ws, r, h => by
    simp only [fread4, Option.some.injEq, Prod.mk.injEq] at h
    obtain ⟨rfl, rfl⟩ := h
    simp
  | n + 1, [], ws, r, h => by simp [fread4] at h
  | n + 1, [_], ws, r, h => by simp [fread4] at h
  | n + 1, [_, _], ws, r, h => by simp [fread4] at h
  | n + 1, [_, _, _], ws, r, h => by simp [fread4] at h
  | n + 1, b0 :: b1 :: b2 :: b3 :: s, ws, r, h => by
    simp only [fread4] at h
    cases h1 : fread4 n s with
    | none => simp [h1] at h
    | some p =>
      obtain ⟨ws1, r1⟩ := p
      simp only [h1, Option.some.injEq, Prod.mk.injEq] at h
      obtain ⟨rfl, rfl⟩ := h
      intro w hw
      rcases List.mem_cons.mp hw with rfl | hw
      · exact hostWord_lt _ _ _ _
      · exact fread4_lt n s ws1 _ h1 w hw

theorem fread4_swapStream : ∀ (n : Nat) (s : List Byte),
    fread4 n (swapStream s) =
      (fread4 n s).map (fun p => (p.1.map ms_gswap4a, swapStream p.2))
  | 0, s => by simp [fread4]
  | n + 1, [] => by simp [fread4, swapStream]
  | n + 1, [_] => by simp [fread4, swapStream]
  | n + 1, [_, _] => by simp [fread4, swapStream]
  | n + 1, [_, _, _] => by simp [fread4, swapStream]
  | n + 1, b0 :: b1 :: b2 :: b3 :: s => by
    simp only [fread4, swapStream, fread4_swapStream n s]
    cases fread4 n s with
    | none => rfl
    | some p => simp [ms_gswap4a_hostWord]

theorem swapRel_bind {α β : Type} {R : α → α → Prop} {Q : β → β → Prop}
    {m m' : Reader α} {f f' : α → Reader β}
    (hm : SwapRel R m m') (hf : ∀ a a', R a a' → SwapRel Q (f a) (f' a')) :
    SwapRel Q (m >>= f) (m' >>= f') := by
  intro s
  obtain ⟨he, hok⟩ := hm s
  show (∀ e, Reader.bind m f s = .error e → Reader.bind m' f' (swapStream s) = .error e) ∧
    (∀ b r, Reader.bind m f s = .ok (b, r) →
      ∃ b', Q b b' ∧ Reader.bind m' f' (swapStream s) = .ok (b', swapStream r))
  unfold Reader.bind
  cases hms : m s with
  | error e =>
    rw [he e hms]
    exact ⟨fun e' h => h, fun b r h => by cases h⟩
  | ok p =>
    obtain ⟨a, r1⟩ := p
    obtain ⟨a', hR, hm'⟩ := hok a r1 hms
    rw [hm']
    exact hf a a' hR r1

theorem swapRel_pure {α : Type} {R : α → α → Prop} {a a' : α} (h : R a a') :
    SwapRel R (Pure.pure a : Reader α) (Pure.pure a') := by
  intro s
  refine ⟨fun e he => (by cases he), fun b r hb => ?_⟩
  have hb' : (Except.ok (a, s) : Except ReadError (α × List Byte)) = .ok (b, r) := hb
  cases hb'
  exact ⟨a', h, rfl⟩

theorem swapRel_fail {α : Type} {R : α → α → Prop} (e : ReadError) :
    SwapRel R (Reader.fail e : Reader α) (Reader.fail e) := by
  intro s
  refine ⟨fun e' he => he, fun b r hb => by cases hb⟩

theorem swapRel_readWords (e : ReadError) (swapflag : Bool) (n : Int) :
    SwapRel Eq (readWords e swapflag n) (readWords e (!swapflag) n) := by
  intro s
  unfold readWords
  by_cases hn : n < 0
  · simp [hn]
  · simp only [hn, if_false, fread4_swapStream]
    cases hf : fread4 n.toNat s with
    | none => simp
    | some p =>
      obtain ⟨ws, r⟩ := p
      have htw : (ws.map ms_gswap4a).map ms_gswap4a = ws := by
        rw [List.map_map]
        conv_rhs => rw [← List.map_id ws]
        apply List.map_congr_left
        intro w hw
        exact ms_gswap4a_twice w (fread4_lt _ _ _ _ hf w hw)
      cases swapflag <;> simp [htw]

theorem swapRel_readWords_raw (e : ReadError) (n : Int) :
    SwapRel (fun _ _ => True) (readWords e false n) (readWords e false n) := by
  intro s
  unfold readWords
  by_cases hn : n < 0
  · simp [hn]
  · simp only [hn, if_false, fread4_swapStream]
    cases hf : fread4 n.toNat s with
    | none => simp
    | some p =>
      obtain ⟨ws, r⟩ := p
      simp

theorem fread4_one (s : List Byte) :
    fread4 1 s = match s with
      | b0 :: b1 :: b2 :: b3 :: r => some ([hostWord b0 b1 b2 b3], r)
      | _ => none := by
  match s with
  | [] => rfl
  | [_] => rfl
  | [_, _] => rfl
  | [_, _, _] => rfl
  | b0 :: b1 :: b2 :: b3 :: r => rfl

theorem readWord_eq (e : ReadError) (swapflag : Bool) (s : List Byte) :
    readWord e swapflag s = match s with
      | b0 :: b1 :: b2 :: b3 :: r =>
        .ok (if swapflag then ms_gswap4a (hostWord b0 b1 b2 b3) else hostWord b0 b1 b2 b3, r)
      | _ => .error e := by
  unfold readWord
  rw [fread4_one]
  match s with
  | [] => rfl
  | [_] => rfl
  | [_, _] => rfl
  | [_, _, _] => rfl
  | b0 :: b1 :: b2 :: b3 :: r => rfl

theorem swapRel_readWord (e : ReadError) (swapflag : Bool) :
    SwapRel Eq (readWord e swapflag) (readWord e (!swapflag)) := by
  intro s
  rw [readWord_eq, readWord_eq]
  match s with
  | [] => simp [swapStream]
  | [_] => simp [swapStream]
  | [_, _] => simp [swapStream]
  | [_, _, _] => simp [swapStream]
  | b0 :: b1 :: b2 :: b3 :: r =>
    cases swapflag <;>
      simp [swapStream, ms_gswap4a_hostWord]

theorem swapRel_malloc (e : ReadError) (size : Int) :
    SwapRel Eq (malloc e size) (malloc e size) := by
  intro s
  unfold malloc
  by_cases h : size < 0 <;> simp [h]

theorem swapRel_checkMarker (e : ReadError) (j1 j2 : Int) :
    SwapRel Eq (checkMarker e j1 j2) (checkMarker e j1 j2) := by
  intro s
  unfold checkMarker
  by_cases h : j1 = j2 <;> simp [h]

theorem swapRel_read_header_fields (rl : Int) (swapflag : Bool) :
    SwapRel (fun h h' => ∃ pad, h' = { h with swapflag := !h.swapflag, itmp := pad })
      (read_header_fields rl swapflag) (read_header_fields rl (!swapflag)) := by
  unfold read_header_fields
  refine swapRel_bind (swapRel_readWord _ _) ?_; rintro lat _ rfl
  refine swapRel_bind (swapRel_readWord _ _) ?_; rintro lon _ rfl
  refine swapRel_bind (swapRel_readWord _ _) ?_; rintro decl _ rfl
  refine swapRel_bind (swapRel_readWord _ _) ?_; rintro dt _ rfl
  refine swapRel_bind (swapRel_readWord _ _) ?_; rintro elev _ rfl
  refine swapRel_bind (swapRel_readWords _ _ _) ?_; rintro start_time _ rfl
  refine swapRel_bind (swapRel_readWords _ _ _) ?_; rintro clock_zero _ rfl
  refine swapRel_bind (swapRel_readWord _ _) ?_; rintro nscans _ rfl
  refine swapRel_bind (swapRel_readWord _ _) ?_; rintro gaptyp _ rfl
  refine swapRel_bind (swapRel_readWord _ _) ?_; rintro flag _ rfl
  refine swapRel_bind (swapRel_readWord _ _) ?_; rintro ngaps _ rfl
  refine swapRel_bind (swapRel_malloc _ _) ?_; rintro _ _ rfl
  refine swapRel_bind (swapRel_readWords _ _ _) ?_; rintro gaps _ rfl
  refine swapRel_bind (swapRel_malloc _ _) ?_; rintro _ _ rfl
  refine swapRel_bind (swapRel_readWords_raw _ _) ?_; rintro itmp itmp' -
  refine swapRel_bind (swapRel_readWord _ _) ?_; rintro j2 _ rfl
  exact swapRel_pure ⟨itmp', by simp⟩

theorem swapRel_read_data_block (swapflag : Bool) :
    SwapRel Eq (read_data_block swapflag) (read_data_block (!swapflag)) := by
  unfold read_data_block
  refine swapRel_bind (swapRel_readWord _ _) ?_; rintro rl _ rfl
  refine swapRel_bind (swapRel_malloc _ _) ?_; rintro _ _ rfl
  refine swapRel_bind (swapRel_readWords _ _ _) ?_; rintro data _ rfl
  refine swapRel_bind (swapRel_readWord _ _) ?_; rintro j2 _ rfl
  exact swapRel_pure rfl

theorem tdiv_pos_lit (a b : Int) (hb : 0 < b) :
    Int.tdiv a b = if 0 ≤ a then a / b else -((-a) / b) := by
  split
  · rename_i h
    exact Int.tdiv_eq_ediv h (le_of_lt hb)
  · rename_i h
    have h1 : (0 : Int) ≤ -a := by omega
    have h2 := Int.tdiv_eq_ediv h1 (le_of_lt hb)
    have h3 := Int.neg_tdiv (-a) b
    rw [neg_neg] at h3
    rw [h3, h2]

theorem rlAccepted_iff (x : Int) :
    rlAccepted x = true ↔ (76 ≤ x ∧ x ≤ 1295) ∨ x = 5108 := by
  unfold rlAccepted
  simp only [tdiv_pos_lit _ 4 (by decide), tdiv_pos_lit _ 3 (by decide)]
  simp only [Bool.not_eq_true', Bool.and_eq_false_imp, Bool.or_eq_true, decide_eq_true_eq,
    bne_eq_false_iff_eq, gt_iff_lt]
  split_ifs <;> omega

theorem rlAccepted_gswap (w : Nat) (hw : w < 4294967296)
    (h : rlAccepted (toInt32 w) = true) : rlAccepted (toInt32 (ms_gswap4a w)) = false := by
  rw [Bool.eq_false_iff]
  intro h'
  rw [rlAccepted_iff] at h h'
  have hw1 : 76 ≤ w ∧ w ≤ 5108 := by
    unfold toInt32 at h
    split_ifs at h <;> omega
  have h1 : w / 65536 = 0 := by omega
  have h2 : w / 16777216 = 0 := by omega
  have h3 : w / 256 % 256 = w / 256 := by omega
  have h4 : ms_gswap4a w = 16777216 * (w % 256) + 65536 * (w / 256) := by
    unfold ms_gswap4a
    rw [h1, h2, h3]
    omega
  rw [h4] at h'
  unfold toInt32 at h'
  split_ifs at h' <;> omega

theorem swapRel_readWord_raw (e : ReadError) :
    SwapRel (fun w w' => w' = ms_gswap4a w ∧ w < 4294967296)
      (readWord e false) (readWord e false) := by
  intro s
  rw [readWord_eq, readWord_eq]
  match s with
  | [] => simp [swapStream]
  | [_] => simp [swapStream]
  | [_, _] => simp [swapStream]
  | [_, _, _] => simp [swapStream]
  | b0 :: b1 :: b2 :: b3 :: r =>
    simp [swapStream, ms_gswap4a_hostWord, hostWord_lt]

theorem swapRel_swapCheck (w : Nat) (hw : w < 4294967296) :
    SwapRel (fun p p' => p' = (p.1, !p.2)) (swapCheck w) (swapCheck (ms_gswap4a w)) := by
  unfold swapCheck
  rw [ms_gswap4a_twice w hw]
  by_cases h1 : rlAccepted (toInt32 w) = true
  · rw [if_pos h1, if_neg (by rw [rlAccepted_gswap w hw h1]; simp), if_pos h1]
    exact swapRel_pure rfl
  · rw [if_neg h1, if_neg h1]
    by_cases h2 : rlAccepted (toInt32 (ms_gswap4a w)) = true
    · rw [if_pos h2, if_pos h2]
      exact swapRel_pure rfl
    · rw [if_neg h2, if_neg h2]
      exact swapRel_fail _

theorem swapRel_read_header :
    SwapRel (fun h h' => ∃ pad, h' = { h with swapflag := !h.swapflag, itmp := pad })
      read_header read_header := by
  unfold read_header
  refine swapRel_bind (swapRel_readWord_raw _) ?_
  rintro w _ ⟨rfl, hw⟩
  refine swapRel_bind (swapRel_swapCheck w hw) ?_
  rintro ⟨rl, swapflag⟩ _ rfl
  exact swapRel_read_header_fields rl swapflag

theorem swapRel_read_bin_file_step : SwapRel Eq read_bin_file_step read_bin_file_step := by
  unfold read_bin_file_step
  refine swapRel_bind swapRel_read_header ?_
  rintro h _ ⟨pad, rfl⟩
  refine swapRel_bind (swapRel_checkMarker _ _ _) ?_; rintro _ _ rfl
  refine swapRel_bind (swapRel_read_data_block _) ?_; rintro d _ rfl
  refine swapRel_bind (swapRel_checkMarker _ _ _) ?_; rintro _ _ rfl
  exact swapRel_pure rfl

theorem fread4_append : ∀ (n : Nat) (s : List Byte) (ws : List Nat) (r : List Byte),
    fread4 n s = some (ws, r) →
      ∃ c, s = c ++ r ∧ c.length = 4 * n ∧ ∀ r', fread4 n (c ++ r') = some (ws, r')
  | 0, s, ws, r, h => by
    simp only [fread4, Option.some.injEq, Prod.mk.injEq] at h
    obtain ⟨rfl, rfl⟩ := h
    exact ⟨[], rfl, rfl, fun r' => rfl⟩
  | n + 1, [], ws, r, h => by simp [fread4] at h
  | n + 1, [_], ws, r, h => by simp [fread4] at h
  | n + 1, [_, _], ws, r, h => by simp [fread4] at h
  | n + 1, [_, _, _], ws, r, h => by simp [fread4] at h
  | n + 1, b0 :: b1 :: b2 :: b3 :: s, ws, r, h => by
    simp only [fread4] at h
    cases h1 : fread4 n s with
    | none => simp [h1] at h
    | some p =>
      obtain ⟨ws1, r1⟩ := p
      simp only [h1, Option.some.injEq, Prod.mk.injEq] at h
      obtain ⟨rfl, rfl⟩ := h
      obtain ⟨c, rfl, hc, hall⟩ := fread4_append n s ws1 r1 h1
      refine ⟨b0 :: b1 :: b2 :: b3 :: c, rfl, by simp [hc]; omega, fun r' => ?_⟩
      simp [fread4, hall r']

theorem fread4_short : ∀ (n : Nat) (t : List Byte), t.length < 4 * n → fread4 n t = none
  | 0, t, h => by omega
  | n + 1, [], _ => rfl
  | n + 1, [_], _ => rfl
  | n + 1, [_, _], _ => rfl
  | n + 1, [_, _, _], _ => rfl
  | n + 1, b0 :: b1 :: b2 :: b3 :: t, h => by
    have h1 : t.length < 4 * n := by simp at h; omega
    simp [fread4, fread4_short n t h1]

theorem proper_beginning_length {α : Type} {t c : List α} (h : t <+: c) (hne : t ≠ c) :
    t.length < c.length := by
  rcases Nat.lt_or_ge t.length c.length with h1 | h1
  · exact h1
  · exact absurd (h.eq_of_length_le h1) hne

theorem beginning_of_append {α : Type} {t c r : List α} (h : t <+: c ++ r) :
    t <+: c ∨ ∃ t', t = c ++ t' ∧ t' <+: r := by
  rcases List.prefix_or_prefix_of_prefix h (List.prefix_append c r) with h1 | h1
  · exact Or.inl h1
  · obtain ⟨t', rfl⟩ := h1
    exact Or.inr ⟨t', rfl, (List.prefix_append_right_inj c).mp h⟩

theorem prefixStrict_bind {α β : Type} {m : Reader α} {f : α → Reader β}
    (hm : PrefixStrict m) (hf : ∀ a, PrefixStrict (f a)) : PrefixStrict (m >>= f) := by
  intro s b r2 h
  have h0 : Reader.bind m f s = .ok (b, r2) := h
  unfold Reader.bind at h0
  cases hms : m s with
  | error e => simp [hms] at h0
  | ok p =>
    obtain ⟨a, r1⟩ := p
    simp only [hms] at h0
    obtain ⟨c1, rfl, hok1, hshort1⟩ := hm s a r1 hms
    obtain ⟨c2, rfl, hok2, hshort2⟩ := hf a r1 b r2 h0
    refine ⟨c1 ++ c2, by simp, fun r' => ?_, fun t ht hne => ?_⟩
    · show Reader.bind m f (c1 ++ c2 ++ r') = .ok (b, r')
      unfold Reader.bind
      rw [List.append_assoc, hok1 (c2 ++ r')]
      exact hok2 r'
    · show ∃ e, Reader.bind m f t = .error e ∧ e.isShortRead = true
      unfold Reader.bind
      rcases beginning_of_append ht with h1 | ⟨t', rfl, h1⟩
      · by_cases h2 : t = c1
        · subst h2
          have h3 := hok1 []
          rw [List.append_nil] at h3
          rw [h3]
          have h4 : ([] : List Byte) ≠ c2 := by
            intro h5
            apply hne
            simp [← h5]
          exact hshort2 [] (List.nil_prefix) h4
        · obtain ⟨e, he, hs⟩ := hshort1 t h1 h2
          exact ⟨e, by rw [he], hs⟩
      · rw [hok1 t']
        have h4 : t' ≠ c2 := by
          intro h5
          apply hne
          rw [h5]
        exact hshort2 t' h1 h4

theorem prefixStrict_pure {α : Type} (a : α) : PrefixStrict (Pure.pure a : Reader α) := by
  intro s b r h
  have h' : (Except.ok (a, s) : Except ReadError (α × List Byte)) = .ok (b, r) := h
  cases h'
  refine ⟨[], rfl, fun r' => rfl, fun t ht hne => ?_⟩
  exact absurd (List.prefix_nil.mp ht) hne

theorem prefixStrict_fail {α : Type} (e : ReadError) :
    PrefixStrict (Reader.fail e : Reader α) := by
  intro s b r h
  cases h

theorem prefixStrict_readWords (e : ReadError) (swapflag : Bool) (n : Int)
    (he : e.isShortRead = true) : PrefixStrict (readWords e swapflag n) := by
  intro s ws r h
  unfold readWords at h
  by_cases hn : n < 0
  · simp [hn] at h
  · simp only [hn, if_false] at h
    cases hf : fread4 n.toNat s with
    | none => simp [hf] at h
    | some p =>
      obtain ⟨ws1, r1⟩ := p
      simp only [hf, Except.ok.injEq, Prod.mk.injEq] at h
      obtain ⟨rfl, rfl⟩ := h
      obtain ⟨c, rfl, hc, hall⟩ := fread4_append _ _ _ _ hf
      refine ⟨c, rfl, fun r' => ?_, fun t ht hne => ?_⟩
      · unfold readWords
        simp [hn, hall r']
      · have hlen := proper_beginning_length ht hne
        have hshort := fread4_short n.toNat t (by rw [hc] at hlen; exact hlen)
        unfold readWords
        simp only [hn, if_false, hshort]
        exact ⟨e, rfl, he⟩

theorem prefixStrict_readWord (e : ReadError) (swapflag : Bool)
    (he : e.isShortRead = true) : PrefixStrict (readWord e swapflag) := by
  intro s w r h
  rw [readWord_eq] at h
  match s, h with
  | b0 :: b1 :: b2 :: b3 :: r1, h =>
    simp only [Except.ok.injEq, Prod.mk.injEq] at h
    obtain ⟨rfl, rfl⟩ := h
    refine ⟨[b0, b1, b2, b3], rfl, fun r' => ?_, fun t ht hne => ?_⟩
    · rw [readWord_eq]
      rfl
    · have hlen := proper_beginning_length ht hne
      rw [readWord_eq]
      rcases t with _ | ⟨a0, _ | ⟨a1, _ | ⟨a2, _ | ⟨a3, t⟩⟩⟩⟩
      · exact ⟨e, rfl, he⟩
      · exact ⟨e, rfl, he⟩
      · exact ⟨e, rfl, he⟩
      · exact ⟨e, rfl, he⟩
      · simp only [List.length_cons, List.length_nil] at hlen
        omega

theorem prefixStrict_malloc (e : ReadError) (size : Int) : PrefixStrict (malloc e size) := by
  intro s u r h
  unfold malloc at h
  by_cases hs : size < 0
  · simp [hs] at h
  · simp only [hs, if_false, Except.ok.injEq, Prod.mk.injEq] at h
    obtain ⟨-, rfl⟩ := h
    refine ⟨[], rfl, fun r' => by simp [malloc, hs], fun t ht hne => ?_⟩
    exact absurd (List.prefix_nil.mp ht) hne

theorem prefixStrict_checkMarker (e : ReadError) (j1 j2 : Int) :
    PrefixStrict (checkMarker e j1 j2) := by
  intro s u r h
  unfold checkMarker at h
  by_cases hs : j1 = j2
  · simp only [hs, ne_eq, not_true_eq_false, if_false, Except.ok.injEq, Prod.mk.injEq] at h
    obtain ⟨-, rfl⟩ := h
    refine ⟨[], rfl, fun r' => by simp [checkMarker, hs], fun t ht hne => ?_⟩
    exact absurd (List.prefix_nil.mp ht) hne
  · simp [hs] at h

theorem prefixStrict_swapCheck (w : Nat) : PrefixStrict (swapCheck w) := by
  unfold swapCheck
  split_ifs
  · exact prefixStrict_pure _
  · exact prefixStrict_pure _
  · exact prefixStrict_fail _

theorem prefixStrict_read_header_fields (rl : Int) (swapflag : Bool) :
    PrefixStrict (read_header_fields rl swapflag) := by
  unfold read_header_fields
  refine prefixStrict_bind (prefixStrict_readWord _ _ rfl) ?_; intro lat
  refine prefixStrict_bind (prefixStrict_readWord _ _ rfl) ?_; intro lon
  refine prefixStrict_bind (prefixStrict_readWord _ _ rfl) ?_; intro decl
  refine prefixStrict_bind (prefixStrict_readWord _ _ rfl) ?_; intro dt
  refine prefixStrict_bind (prefixStrict_readWord _ _ rfl) ?_; intro elev
  refine prefixStrict_bind (prefixStrict_readWords _ _ _ rfl) ?_; intro start_time
  refine prefixStrict_bind (prefixStrict_readWords _ _ _ rfl) ?_; intro clock_zero
  refine prefixStrict_bind (prefixStrict_readWord _ _ rfl) ?_; intro nscans
  refine prefixStrict_bind (prefixStrict_readWord _ _ rfl) ?_; intro gaptyp
  refine prefixStrict_bind (prefixStrict_readWord _ _ rfl) ?_; intro flag
  refine prefixStrict_bind (prefixStrict_readWord _ _ rfl) ?_; intro ngaps
  refine prefixStrict_bind (prefixStrict_malloc _ _) ?_; intro _
  refine prefixStrict_bind (prefixStrict_readWords _ _ _ rfl) ?_; intro gaps
  refine prefixStrict_bind (prefixStrict_malloc _ _) ?_; intro _
  refine prefixStrict_bind (prefixStrict_readWords _ _ _ rfl) ?_; intro itmp
  refine prefixStrict_bind (prefixStrict_readWord _ _ rfl) ?_; intro j2
  exact prefixStrict_pure _

theorem prefixStrict_read_header : PrefixStrict read_header := by
  unfold read_header
  refine prefixStrict_bind (prefixStrict_readWord _ _ rfl) ?_; intro w
  refine prefixStrict_bind (prefixStrict_swapCheck w) ?_
  rintro ⟨rl, swapflag⟩
  exact prefixStrict_read_header_fields rl swapflag

theorem prefixStrict_read_data_block (swapflag : Bool) :
    PrefixStrict (read_data_block swapflag) := by
  unfold read_data_block
  refine prefixStrict_bind (prefixStrict_readWord _ _ rfl) ?_; intro rl
  refine prefixStrict_bind (prefixStrict_malloc _ _) ?_; intro _
  refine prefixStrict_bind (prefixStrict_readWords _ _ _ rfl) ?_; intro data
  refine prefixStrict_bind (prefixStrict_readWord _ _ rfl) ?_; intro j2
  exact prefixStrict_pure _

theorem prefixStrict_read_bin_file_step : PrefixStrict read_bin_file_step := by
  unfold read_bin_file_step
  refine prefixStrict_bind prefixStrict_read_header ?_; intro h
  refine prefixStrict_bind (prefixStrict_checkMarker _ _ _) ?_; intro _
  refine prefixStrict_bind (prefixStrict_read_data_block _) ?_; intro d
  refine prefixStrict_bind (prefixStrict_checkMarker _ _ _) ?_; intro _
  exact prefixStrict_pure _

theorem errorsIn_bind {α β : Type} {P : ReadError → Prop} {m : Reader α} {f : α → Reader β}
    (hm : ErrorsIn P m) (hf : ∀ a, ErrorsIn P (f a)) : ErrorsIn P (m >>= f) := by
  intro s e h
  have h0 : Reader.bind m f s = .error e := h
  unfold Reader.bind at h0
  cases hms : m s with
  | error e1 =>
    simp only [hms, Except.error.injEq] at h0
    subst h0
    exact hm s e1 hms
  | ok p =>
    obtain ⟨a, r1⟩ := p
    simp only [hms] at h0
    exact hf a r1 e h0

theorem errorsIn_pure {α : Type} {P : ReadError → Prop} (a : α) :
    ErrorsIn P (Pure.pure a : Reader α) := by
  intro s e h
  cases h

theorem errorsIn_readWords {P : ReadError → Prop} (e : ReadError) (swapflag : Bool) (n : Int)
    (he : P e) : ErrorsIn P (readWords e swapflag n) := by
  intro s e1 h
  unfold readWords at h
  by_cases hn : n < 0
  · simp only [hn, if_true, Except.error.injEq] at h
    exact h ▸ he
  · simp only [hn, if_false] at h
    cases hf : fread4 n.toNat s with
    | none =>
      simp only [hf, Except.error.injEq] at h
      exact h ▸ he
    | some p => simp [hf] at h

theorem errorsIn_readWord {P : ReadError → Prop} (e : ReadError) (swapflag : Bool)
    (he : P e) : ErrorsIn P (readWord e swapflag) := by
  intro s e1 h
  unfold readWord at h
  split at h
  · cases h
  · cases h
    exact he

theorem errorsIn_malloc {P : ReadError → Prop} (e : ReadError) (size : Int)
    (he : P e) : ErrorsIn P (malloc e size) := by
  intro s e1 h
  unfold malloc at h
  split_ifs at h
  cases h
  exact he

theorem errorsIn_checkMarker {P : ReadError → Prop} (e : ReadError) (j1 j2 : Int)
    (he : P e) : ErrorsIn P (checkMarker e j1 j2) := by
  intro s e1 h
  unfold checkMarker at h
  split_ifs at h
  cases h
  exact he

theorem errorsIn_read_header_fields (rl : Int) (swapflag : Bool) :
    ErrorsIn (fun e => e ≠ .headerLengthInvalid ∧ e ≠ .headerLengthRecord)
      (read_header_fields rl swapflag) := by
  unfold read_header_fields
  refine errorsIn_bind (errorsIn_readWord _ _ (by decide)) ?_; intro lat
  refine errorsIn_bind (errorsIn_readWord _ _ (by decide)) ?_; intro lon
  refine errorsIn_bind (errorsIn_readWord _ _ (by decide)) ?_; intro decl
  refine errorsIn_bind (errorsIn_readWord _ _ (by decide)) ?_; intro dt
  refine errorsIn_bind (errorsIn_readWord _ _ (by decide)) ?_; intro elev
  refine errorsIn_bind (errorsIn_readWords _ _ _ (by decide)) ?_; intro start_time
  refine errorsIn_bind (errorsIn_readWords _ _ _ (by decide)) ?_; intro clock_zero
  refine errorsIn_bind (errorsIn_readWord _ _ (by decide)) ?_; intro nscans
  refine errorsIn_bind (errorsIn_readWord _ _ (by decide)) ?_; intro gaptyp
  refine errorsIn_bind (errorsIn_readWord _ _ (by decide)) ?_; intro flag
  refine errorsIn_bind (errorsIn_readWord _ _ (by decide)) ?_; intro ngaps
  refine errorsIn_bind (errorsIn_malloc _ _ (by decide)) ?_; intro _
  refine errorsIn_bind (errorsIn_readWords _ _ _ (by decide)) ?_; intro gaps
  refine errorsIn_bind (errorsIn_malloc _ _ (by decide)) ?_; intro _
  refine errorsIn_bind (errorsIn_readWords _ _ _ (by decide)) ?_; intro itmp
  refine errorsIn_bind (errorsIn_readWord _ _ (by decide)) ?_; intro j2
  exact errorsIn_pure _

theorem errorsIn_read_data_block (swapflag : Bool) :
    ErrorsIn (fun e => e ≠ .headerLengthInvalid ∧ e ≠ .headerLengthRecord)
      (read_data_block swapflag) := by
  unfold read_data_block
  refine errorsIn_bind (errorsIn_readWord _ _ (by decide)) ?_; intro rl
  refine errorsIn_bind (errorsIn_malloc _ _ (by decide)) ?_; intro _
  refine errorsIn_bind (errorsIn_readWords _ _ _ (by decide)) ?_; intro data
  refine errorsIn_bind (errorsIn_readWord _ _ (by decide)) ?_; intro j2
  exact errorsIn_pure _

theorem specValidLength_iff (x : Int) : specValidLength x ↔ rlAccepted x = true := by
  unfold specValidLength rlAccepted
  simp only [Bool.not_eq_true', Bool.and_eq_false_imp, Bool.or_eq_true, decide_eq_true_eq,
    bne_eq_false_iff_eq, gt_iff_lt]
  constructor
  · rintro (⟨h1, h2⟩ | h) h3
    · omega
    · exact h
  · intro h
    by_cases h3 : Int.tdiv (Int.tdiv x 4 - 21) 3 < 0 ∨ 100 < Int.tdiv (Int.tdiv x 4 - 21) 3
    · exact Or.inr (h h3)
    · exact Or.inl (by omega)

theorem read_header_cons (b0 b1 b2 b3 : Byte) (rest : List Byte) :
    read_header (b0 :: b1 :: b2 :: b3 :: rest) =
      match swapCheck (hostWord b0 b1 b2 b3) rest with
      | .error e => .error e
      | .ok (p, r) => read_header_fields p.1 p.2 r := by
  unfold read_header
  show Reader.bind (readWord .headerLengthRecord false) _ _ = _
  unfold Reader.bind
  rw [readWord_eq]
  show Reader.bind (swapCheck (hostWord b0 b1 b2 b3)) _ rest = _
  unfold Reader.bind
  cases swapCheck (hostWord b0 b1 b2 b3) rest with
  | error e => rfl
  | ok p => rfl

theorem read_bin_file_eq (f : List Byte) :
    read_bin_file f =
      match read_header f with
      | .error e => .error e
      | .ok (h, s1) =>
        if h.j1 ≠ h.j2 then .error .endOfHeaderMarker
        else
          match read_data_block h.swapflag s1 with
          | .error e => .error e
          | .ok (d, s2) =>
            if d.rl ≠ d.j2 then .error .endOfDataMarker
            else
              .ok ({ ret := d.rl, dt := h.dt, s_rate := recipF32 h.dt, nscans := h.nscans,
                     start_time := h.start_time, data := d.data,
                     missingdataflag := h.missingdataflag }, s2) := by
  show Reader.bind read_header _ f = _
  unfold Reader.bind
  cases read_header f with
  | error e => rfl
  | ok p =>
    obtain ⟨h, s1⟩ := p
    show Reader.bind (checkMarker .endOfHeaderMarker h.j1 h.j2) _ s1 = _
    unfold Reader.bind checkMarker
    by_cases hj : h.j1 = h.j2
    · simp only [hj, ne_eq, not_true_eq_false, if_false]
      show Reader.bind (read_data_block h.swapflag) _ s1 = _
      unfold Reader.bind
      cases read_data_block h.swapflag s1 with
      | error e => rfl
      | ok q =>
        obtain ⟨d, s2⟩ := q
        show Reader.bind (checkMarker .endOfDataMarker d.rl d.j2) _ s2 = _
        unfold Reader.bind checkMarker
        by_cases hd : d.rl = d.j2
        · simp only [hd, ne_eq, not_true_eq_false, if_false]
          rfl
        · simp only [hd, ne_eq, not_false_eq_true, if_true]
    · simp only [hj, ne_eq, not_false_eq_true, if_true]

theorem resultsIn_bind {α β : Type} {P : β → Prop} {m : Reader α} {f : α → Reader β}
    (hf : ∀ a, ResultsIn P (f a)) : ResultsIn P (m >>= f) := by
  intro s b r h
  have h0 : Reader.bind m f s = .ok (b, r) := h
  unfold Reader.bind at h0
  cases hms : m s with
  | error e1 => simp [hms] at h0
  | ok p =>
    obtain ⟨a, r1⟩ := p
    simp only [hms] at h0
    exact hf a r1 b r h0

theorem resultsIn_pure {α : Type} {P : α → Prop} (a : α) (h : P a) :
    ResultsIn P (Pure.pure a : Reader α) := by
  intro s b r hb
  have hb' : (Except.ok (a, s) : Except ReadError (α × List Byte)) = .ok (b, r) := hb
  cases hb'
  exact h

theorem resultsIn_read_header_fields (rl : Int) (swapflag : Bool) :
    ResultsIn (fun h => h.swapflag = swapflag ∧ h.j1 = rl) (read_header_fields rl swapflag) := by
  unfold read_header_fields
  refine resultsIn_bind ?_; intro lat
  refine resultsIn_bind ?_; intro lon
  refine resultsIn_bind ?_; intro decl
  refine resultsIn_bind ?_; intro dt
  refine resultsIn_bind ?_; intro elev
  refine resultsIn_bind ?_; intro start_time
  refine resultsIn_bind ?_; intro clock_zero
  refine resultsIn_bind ?_; intro nscans
  refine resultsIn_bind ?_; intro gaptyp
  refine resultsIn_bind ?_; intro flag
  refine resultsIn_bind ?_; intro ngaps
  refine resultsIn_bind ?_; intro _
  refine resultsIn_bind ?_; intro gaps
  refine resultsIn_bind ?_; intro _
  refine resultsIn_bind ?_; intro itmp
  refine resultsIn_bind ?_; intro j2
  exact resultsIn_pure _ ⟨rfl, rfl⟩

theorem swapCheck_cases (w : Nat) (rest : List Byte) :
    (specValidLength (toInt32 w) ∧
      swapCheck w rest = .ok ((toInt32 w, false), rest)) ∨
    (¬ specValidLength (toInt32 w) ∧ specValidLength (toInt32 (ms_gswap4a w)) ∧
      swapCheck w rest = .ok ((toInt32 (ms_gswap4a w), true), rest)) ∨
    (¬ specValidLength (toInt32 w) ∧ ¬ specValidLength (toInt32 (ms_gswap4a w)) ∧
      swapCheck w rest = .error .headerLengthInvalid) := by
  unfold swapCheck
  simp only [specValidLength_iff]
  by_cases h1 : rlAccepted (toInt32 w) = true
  · exact Or.inl ⟨h1, by rw [if_pos h1]; rfl⟩
  · by_cases h2 : rlAccepted (toInt32 (ms_gswap4a w)) = true
    · exact Or.inr (Or.inl ⟨h1, h2, by rw [if_neg h1, if_pos h2]; rfl⟩)
    · exact Or.inr (Or.inr ⟨h1, h2, by rw [if_neg h1, if_neg h2]; rfl⟩)

theorem takeWhile_facts (p : Int → Bool) : ∀ (l : List Int),
    (∀ j, j < (l.takeWhile p).length → (l.takeWhile p)[j]? = l[j]? ∧ p (l.getD j 0) = true) ∧
    (l.takeWhile p).length ≤ l.length ∧
    ((l.takeWhile p).length < l.length → p (l.getD (l.takeWhile p).length 0) = false)
  | [] => by simp
  | v :: l => by
    obtain ⟨h1, h2, h3⟩ := takeWhile_facts p l
    by_cases hv : p v = true
    · simp only [List.takeWhile_cons, hv, if_true, List.length_cons]
      refine ⟨?_, by omega, ?_⟩
      · intro j hj
        cases j with
        | zero => simp [hv]
        | succ j =>
          have := h1 j (by omega)
          simpa using this
      · intro hlt
        have := h3 (by omega)
        simpa using this
    · simp only [List.takeWhile_cons, hv]
      simp
      simpa using hv

theorem column_length (idata : List Int) (n c : Nat) : (column idata n c).length = n := by
  simp [column]

theorem column_getD (idata : List Int) (n c i : Nat) (hi : i < n) :
    (column idata n c).getD i 0 = idata.getD (5 * i + c) 0 := by
  simp [column, List.getD_eq_getElem?_getD, hi]

theorem column_drop (idata : List Int) (n c d : Nat) (hlen : idata.length = 5 * n)
    (hc : c < 5) (hd : d < n) :
    idata[5 * d + c]? = some ((column idata n c).getD d 0) ∧
    (column idata n c).drop d =
      (column idata n c).getD d 0 :: (column idata n c).drop (d + 1) := by
  have hlt : 5 * d + c < idata.length := by omega
  refine ⟨?_, ?_⟩
  · rw [column_getD idata n c d hd, List.getD_eq_getElem?_getD, List.getElem?_eq_getElem hlt]
    rfl
  · have h1 : d < (column idata n c).length := by rw [column_length]; exact hd
    rw [List.drop_eq_getElem_cons h1]
    congr 1
    rw [List.getD_eq_getElem?_getD, List.getElem?_eq_getElem h1]
    rfl

theorem extract_run_eq (idata : List Int) (n c : Nat) (flag : Int)
    (hlen : idata.length = 5 * n) (hc : c < 5) :
    ∀ (fuel d : Nat) (acc : List Int), d ≤ n → n - d < fuel → acc.length ≤ d →
      extract_run idata (n : Int) flag c fuel d acc =
        .ok (if d + (((column idata n c).drop d).takeWhile (validSample flag)).length < n
              then d + (((column idata n c).drop d).takeWhile (validSample flag)).length + 1
              else n,
             acc ++ ((column idata n c).drop d).takeWhile (validSample flag))
  | 0, d, acc, _, hf, _ => by omega
  | fuel + 1, d, acc, hd, hf, hacc => by
    unfold extract_run
    by_cases hdn : d < n
    · have hdn' : (d : Int) < (n : Int) := by exact_mod_cast hdn
      obtain ⟨hget, hdrop⟩ := column_drop idata n c d hlen hc hdn
      simp only [hdn', if_true, hget]
      rw [hdrop]
      by_cases hv : validSample flag ((column idata n c).getD d 0) = true
      · have hv' : ¬ ((column idata n c).getD d 0 = flag ∨
            (column idata n c).getD d 0 ≥ 2147483647) := by
          simp only [validSample, decide_eq_true_eq] at hv
          omega
        have hacc' : ((acc.length : Nat) : Int) < (n : Int) := by
          have : acc.length < n := by omega
          exact_mod_cast this
        simp only [hv', if_false, hacc', if_true, List.takeWhile_cons, hv, List.length_cons]
        rw [extract_run_eq idata n c flag hlen hc fuel (d + 1) _ (by omega) (by omega)
          (by simp; omega)]
        have e1 : d + 1 + (List.takeWhile (validSample flag)
            (List.drop (d + 1) (column idata n c))).length =
            d + ((List.takeWhile (validSample flag)
            (List.drop (d + 1) (column idata n c))).length + 1) := by omega
        simp only [e1, List.append_assoc, List.singleton_append]
      · have hv' : ((column idata n c).getD d 0 = flag ∨
            (column idata n c).getD d 0 ≥ 2147483647) := by
          simp only [validSample, decide_eq_true_eq] at hv
          omega
        simp only [hv', if_true, List.takeWhile_cons, hv, List.length_nil, List.append_nil,
          Nat.add_zero, hdn]
        simp [hdn]
    · have hdn' : ¬ (d : Int) < (n : Int) := by
        intro h
        exact hdn (by exact_mod_cast h)
      have hd' : d = n := by omega
      subst hd'
      have hnil : (column idata d c).drop d = [] := by
        apply List.drop_eq_nil_of_le
        rw [column_length]
      simp [hdn', hnil]

theorem getD_drop (col : List Int) (d j : Nat) :
    (col.drop d).getD j 0 = col.getD (d + j) 0 := by
  simp [List.getD_eq_getElem?_getD, List.getElem?_drop]

theorem filterMap_range'_none {β : Type} (f : Nat → Option β) :
    ∀ (k a : Nat), (∀ s, a ≤ s → s < a + k → f s = none) → (List.range' a k).filterMap f = []
  | 0, a, _ => by simp
  | k + 1, a, h => by
    rw [List.range'_succ, List.filterMap_cons, h a (le_refl _) (by omega)]
    exact filterMap_range'_none f k (a + 1) (fun s h1 h2 => h s (by omega) (by omega))

theorem runsFrom_ge (valid : Int → Bool) (col : List Int) (d : Nat) (h : col.length ≤ d) :
    runsFrom valid col d = [] := by
  unfold runsFrom
  have : col.length - d = 0 := by omega
  rw [this]
  rfl

theorem runsFrom_invalid (valid : Int → Bool) (col : List Int) (d : Nat)
    (h : d < col.length) (hv : valid (col.getD d 0) = false) :
    runsFrom valid col d = runsFrom valid col (d + 1) := by
  unfold runsFrom
  have e : col.length - d = (col.length - (d + 1)) + 1 := by omega
  have hr : runStartsAt valid col d = false := by
    unfold runStartsAt
    rw [hv]
    rfl
  rw [e, List.range'_succ, List.filterMap_cons]
  simp only [hr, Bool.false_eq_true, if_false]

theorem runsFrom_run (valid : Int → Bool) (col : List Int) (d : Nat)
    (h : d < col.length) (hstart : d = 0 ∨ valid (col.getD (d - 1) 0) = false)
    (hv : valid (col.getD d 0) = true) :
    runsFrom valid col d =
      (d, (col.drop d).takeWhile valid) ::
        runsFrom valid col
          (if d + ((col.drop d).takeWhile valid).length < col.length
            then d + ((col.drop d).takeWhile valid).length + 1 else col.length) := by
  obtain ⟨h1, h2, h3⟩ := takeWhile_facts valid (col.drop d)
  generalize hL : ((col.drop d).takeWhile valid).length = L at *
  simp only [List.length_drop] at h2 h3
  have hstartAt : runStartsAt valid col d = true := by
    unfold runStartsAt
    rcases hstart with rfl | h0
    · rw [hv]
      rfl
    · simp only [hv, h0, Bool.true_and, Bool.not_false, Bool.or_true]
  have hmid : ∀ s, d + 1 ≤ s → s < d + 1 + L → s < col.length →
      runStartsAt valid col s = false := by
    intro s hs1 hs2 hs3
    unfold runStartsAt
    by_cases hs : s < d + L
    · have := (h1 (s - 1 - d) (by omega)).2
      rw [getD_drop] at this
      have e : d + (s - 1 - d) = s - 1 := by omega
      rw [e] at this
      have hs0 : (s == 0) = false := by
        rw [beq_eq_false_iff_ne]
        omega
      rw [this, hs0]
      simp only [Bool.not_true, Bool.or_false, Bool.and_false]
    · have hsL : s = d + L := by omega
      have := h3 (by omega)
      rw [getD_drop] at this
      rw [hsL, this]
      rfl
  unfold runsFrom
  have e : col.length - d = (col.length - (d + 1)) + 1 := by omega
  rw [e, List.range'_succ, List.filterMap_cons]
  simp only [hstartAt, if_true]
  congr 1
  by_cases hlt : d + L < col.length
  · simp only [hlt, if_true]
    have e2 : col.length - (d + 1) = (col.length - (d + L + 1)) + L := by omega
    have e3 : d + L + 1 = d + 1 + L := by omega
    rw [e2, e3, ← List.range'_append_1, List.filterMap_append]
    rw [filterMap_range'_none _ L (d + 1)]
    · rfl
    · intro s hs1 hs2
      rw [hmid s hs1 (by omega) (by omega)]
      rfl
  · simp only [hlt, if_false, Nat.sub_self, List.range'_zero, List.filterMap_nil]
    apply filterMap_range'_none
    intro s hs1 hs2
    rw [hmid s hs1 (by omega) (by omega)]
    rfl

theorem extract_channel_eq {σ : Type} (packmsr : σ → Segment → Int × σ) (idata : List Int)
    (n c : Nat) (flag : Int) (chan : String) (hlen : idata.length = 5 * n) (hc : c < 5) :
    ∀ (fuel d : Nat) (st : σ), d ≤ n → n - d < fuel →
      (d = 0 ∨ d = n ∨ validSample flag ((column idata n c).getD (d - 1) 0) = false) →
      extract_channel packmsr idata (n : Int) flag c chan fuel d st =
        .ok (packRuns packmsr chan (runsFrom (validSample flag) (column idata n c) d) st)
  | 0, d, st, _, hf, _ => by omega
  | fuel + 1, d, st, hd, hf, hstart => by
    have hcl : (column idata n c).length = n := column_length idata n c
    unfold extract_channel
    by_cases hdn : d < n
    · have hdn' : (d : Int) < (n : Int) := by exact_mod_cast hdn
      simp only [hdn', if_true, Int.toNat_ofNat]
      rw [extract_run_eq idata n c flag hlen hc (n + 1) d [] hd (by omega) (by simp)]
      simp only [List.nil_append]
      obtain ⟨hget, hdrop⟩ := column_drop idata n c d hlen hc hdn
      obtain ⟨h1, h2, h3⟩ := takeWhile_facts (validSample flag) ((column idata n c).drop d)
      simp only [List.length_drop, hcl, getD_drop] at h2 h3
      by_cases hv : validSample flag ((column idata n c).getD d 0) = true
      · have hpos : 0 < (((column idata n c).drop d).takeWhile (validSample flag)).length := by
          rw [hdrop, List.takeWhile_cons, hv]
          simp
        have hstart' : d = 0 ∨ validSample flag ((column idata n c).getD (d - 1) 0) = false := by
          rcases hstart with h | h | h
          · exact Or.inl h
          · omega
          · exact Or.inr h
        have hruns := runsFrom_run (validSample flag) (column idata n c) d (by omega) hstart' hv
        rw [hcl] at hruns
        rw [hruns]
        generalize hL : (((column idata n c).drop d).takeWhile (validSample flag)).length = L at *
        generalize hnext : (if d + L < n then d + L + 1 else n) = next at *
        have hnext1 : next ≤ n := by rw [← hnext]; split_ifs <;> omega
        have hnext2 : d < next := by rw [← hnext]; split_ifs <;> omega
        have hnext3 : next = 0 ∨ next = n ∨
            validSample flag ((column idata n c).getD (next - 1) 0) = false := by
          by_cases hlt : d + L < n
          · right; right
            have hn : next = d + L + 1 := by rw [← hnext, if_pos hlt]
            rw [hn]
            exact h3 (by omega)
          · right; left
            rw [← hnext, if_neg hlt]
        have ih := extract_channel_eq packmsr idata n c flag chan hlen hc fuel next
        simp only [gt_iff_lt, hL, hpos, if_true]
        unfold packRuns
        split_ifs with hfail
        · rfl
        · rw [ih _ hnext1 (by omega) hnext3]
      · have hv' : validSample flag ((column idata n c).getD d 0) = false := by
          simpa using hv
        have hnil : ((column idata n c).drop d).takeWhile (validSample flag) = [] := by
          rw [hdrop, List.takeWhile_cons, hv']
          rfl
        rw [hnil]
        simp only [List.length_nil, Nat.add_zero, hdn, if_true, gt_iff_lt, lt_self_iff_false,
          if_false]
        rw [runsFrom_invalid (validSample flag) (column idata n c) d (by omega) hv']
        exact extract_channel_eq packmsr idata n c flag chan hlen hc fuel (d + 1) st
          (by omega) (by omega) (Or.inr (Or.inr (by simpa using hv')))
    · have hdn' : ¬ (d : Int) < (n : Int) := by
        intro h
        exact hdn (by exact_mod_cast h)
      simp only [hdn', if_false]
      rw [runsFrom_ge _ _ _ (by omega)]
      rfl

theorem takeWhile_all (p : Int → Bool) : ∀ (l : List Int), (∀ v ∈ l, p v = true) →
    l.takeWhile p = l
  | [], _ => rfl
  | v :: l, h => by
    rw [List.takeWhile_cons, h v (List.mem_cons_self _ _)]
    simp only [if_true]
    rw [takeWhile_all p l (fun w hw => h w (List.mem_cons_of_mem _ hw))]

theorem takeWhile_until (p : Int → Bool) (v : Int) (l2 : List Int) (hv : p v = false) :
    ∀ (l1 : List Int), (∀ w ∈ l1, p w = true) → (l1 ++ v :: l2).takeWhile p = l1
  | [], _ => by
    rw [List.nil_append, List.takeWhile_cons, hv]
    rfl
  | w :: l1, h => by
    rw [List.cons_append, List.takeWhile_cons, h w (List.mem_cons_self _ _)]
    simp only [if_true]
    rw [takeWhile_until p v l2 hv l1 (fun u hu => h u (List.mem_cons_of_mem _ hu))]

theorem getD_mem_bound (l : List Int) (P : Int → Prop) (a b : Nat)
    (h : ∀ i, a ≤ i → i < b → P (l.getD i 0)) (hb : b ≤ l.length) :
    ∀ w ∈ (l.take b).drop a, P w := by
  intro w hw
  obtain ⟨i, hi, rfl⟩ := List.getElem_of_mem hw
  simp only [List.length_drop, List.length_take] at hi
  have h1 := h (a + i) (by omega) (by omega)
  rw [List.getElem_drop, List.getElem_take]
  rw [List.getD_eq_getElem?_getD, List.getElem?_eq_getElem (by omega)] at h1
  exact h1

theorem single_gap_runs (valid : Int → Bool) (col : List Int) (k : Nat)
    (hk0 : 0 < k) (hk : k + 1 < col.length)
    (hgap : valid (col.getD k 0) = false)
    (hvalid : ∀ i, i < col.length → i ≠ k → valid (col.getD i 0) = true) :
    maximalRuns valid col = [(0, col.take k), (k + 1, col.drop (k + 1))] := by
  have hsplit : col = col.take k ++ col.getD k 0 :: col.drop (k + 1) := by
    conv_lhs => rw [← List.take_append_drop k col]
    congr 1
    rw [List.drop_eq_getElem_cons (by omega)]
    congr 1
    rw [List.getD_eq_getElem?_getD, List.getElem?_eq_getElem (by omega)]
    rfl
  have hA : ∀ w ∈ col.take k, valid w = true := by
    have := getD_mem_bound col (fun w => valid w = true) 0 k
      (fun i _ hi => hvalid i (by omega) (by omega)) (by omega)
    simpa using this
  have hB : ∀ w ∈ col.drop (k + 1), valid w = true := by
    have := getD_mem_bound col (fun w => valid w = true) (k + 1) col.length
      (fun i h1 hi => hvalid i hi (by omega)) (le_refl _)
    simpa using this
  have htw0 : (col.drop 0).takeWhile valid = col.take k := by
    rw [List.drop_zero]
    conv_lhs => rw [hsplit]
    exact takeWhile_until valid _ _ hgap _ hA
  have htw1 : (col.drop (k + 1)).takeWhile valid = col.drop (k + 1) := takeWhile_all valid _ hB
  have hruns : maximalRuns valid col = runsFrom valid col 0 := by
    unfold runsFrom maximalRuns
    rw [List.range_eq_range', Nat.sub_zero]
  rw [hruns, runsFrom_run valid col 0 (by omega) (Or.inl rfl) (hvalid 0 (by omega) (by omega))]
  rw [htw0]
  have hlk : (col.take k).length = k := by
    rw [List.length_take]
    omega
  rw [hlk]
  have e1 : (if 0 + k < col.length then 0 + k + 1 else col.length) = k + 1 := by
    rw [if_pos (by omega)]
    omega
  rw [e1, runsFrom_run valid col (k + 1) hk (Or.inr (by simpa using hgap))
    (hvalid (k + 1) hk (by omega))]
  rw [htw1]
  have e2 : (if k + 1 + (col.drop (k + 1)).length < col.length
      then k + 1 + (col.drop (k + 1)).length + 1 else col.length) = col.length := by
    rw [if_neg]
    rw [List.length_drop]
    omega
  rw [e2, runsFrom_ge valid col col.length (le_refl _)]

theorem column_take (idata : List Int) (n c k : Nat) (hk : k ≤ n) :
    (column idata n c).take k = (List.range k).map (fun j => idata.getD (5 * j + c) 0) := by
  unfold column
  rw [← List.map_take, List.take_range, Nat.min_eq_left hk]

theorem column_drop_eq (idata : List Int) (n c k : Nat) :
    (column idata n c).drop k =
      (List.range (n - k)).map (fun j => idata.getD (5 * (k + j) + c) 0) := by
  unfold column
  rw [← List.map_drop]
  have : List.drop k (List.range n) = (List.range (n - k)).map (fun j => k + j) := by
    apply List.ext_getElem
    · simp
    · intro i h1 h2
      simp
  rw [this, List.map_map]
  rfl

theorem extract_run_valid (idata : List Int) (nscans flag : Int) (c : Nat) :
    ∀ (fuel d : Nat) (acc : List Int) (d' : Nat) (cdata : List Int),
      extract_run idata nscans flag c fuel d acc = .ok (d', cdata) →
      (∀ v ∈ acc, v ≠ flag ∧ v < 2147483647) →
      ∀ v ∈ cdata, v ≠ flag ∧ v < 2147483647
  | 0, d, acc, d', cdata, h, _ => by
    unfold extract_run at h
    cases h
  | fuel + 1, d, acc, d', cdata, h, hacc => by
    unfold extract_run at h
    by_cases h1 : (d : Int) < nscans
    · rw [if_pos h1] at h
      cases hg : idata[5 * d + c]? with
      | none =>
        rw [hg] at h
        cases h
      | some v =>
        rw [hg] at h
        simp only at h
        by_cases h2 : v = flag ∨ v ≥ 2147483647
        · rw [if_pos h2] at h
          cases h
          exact hacc
        · rw [if_neg h2] at h
          by_cases h3 : (acc.length : Int) < nscans
          · rw [if_pos h3] at h
            refine extract_run_valid idata nscans flag c fuel (d + 1) (acc ++ [v]) d' cdata h ?_
            intro w hw
            rcases List.mem_append.mp hw with hw | hw
            · exact hacc w hw
            · rw [List.mem_singleton] at hw
              subst hw
              constructor
              · intro hf
                exact h2 (Or.inl hf)
              · by_contra hge
                exact h2 (Or.inr (by omega))
          · rw [if_neg h3] at h
            cases h
    · rw [if_neg h1] at h
      cases h
      exact hacc

theorem extract_channel_valid {σ : Type} (packmsr : σ → Segment → Int × σ) (idata : List Int)
    (nscans flag : Int) (c : Nat) (chan : String) :
    ∀ (fuel d : Nat) (st : σ) (segs : List Segment) (st' : σ),
      extract_channel packmsr idata nscans flag c chan fuel d st = .ok (segs, st') →
      ∀ seg ∈ segs, seg.samples ≠ [] ∧ ∀ v ∈ seg.samples, v ≠ flag ∧ v < 2147483647
  | 0, d, st, segs, st', h => by
    unfold extract_channel at h
    cases h
  | fuel + 1, d, st, segs, st', h => by
    unfold extract_channel at h
    by_cases h1 : (d : Int) < nscans
    · rw [if_pos h1] at h
      cases hrun : extract_run idata nscans flag c (nscans.toNat + 1) d [] with
      | error f =>
        rw [hrun] at h
        cases h
      | ok q =>
        obtain ⟨d1, cdata⟩ := q
        rw [hrun] at h
        simp only at h
        have hv := extract_run_valid idata nscans flag c _ _ _ _ _ hrun (by simp)
        by_cases h2 : cdata.length > 0
        · rw [if_pos h2] at h
          by_cases h3 : (packmsr st { channel := chan, startidx := d, samples := cdata }).1 ≠ 0
          · rw [if_pos h3] at h
            cases h
            intro seg hseg
            rw [List.mem_singleton] at hseg
            subst hseg
            exact ⟨List.ne_nil_of_length_pos h2, hv⟩
          · rw [if_neg h3] at h
            cases hrec : extract_channel packmsr idata nscans flag c chan fuel d1
                (packmsr st { channel := chan, startidx := d, samples := cdata }).2 with
            | error f =>
              rw [hrec] at h
              cases h
            | ok q2 =>
              obtain ⟨segs1, st2⟩ := q2
              rw [hrec] at h
              cases h
              intro seg hseg
              rcases List.mem_cons.mp hseg with rfl | hseg
              · exact ⟨List.ne_nil_of_length_pos h2, hv⟩
              · exact extract_channel_valid packmsr idata nscans flag c chan fuel _ _ _ _
                  hrec seg hseg
        · rw [if_neg h2] at h
          exact extract_channel_valid packmsr idata nscans flag c chan fuel _ _ _ _ h
    · rw [if_neg h1] at h
      cases h
      intro seg hseg
      cases hseg

theorem convert_channels_valid {σ : Type} (packmsr : σ → Segment → Int × σ)
    (samprate : CFloat) (idata : List Int) (nscans flag : Int) :
    ∀ (fuel channel : Nat) (st : σ) (segs : List Segment) (st' : σ),
      convert_channels packmsr samprate idata nscans flag fuel channel st = .ok (segs, st') →
      ∀ seg ∈ segs, seg.samples ≠ [] ∧ ∀ v ∈ seg.samples, v ≠ flag ∧ v < 2147483647
  | 0, channel, st, segs, st', h => by
    unfold convert_channels at h
    cases h
  | fuel + 1, channel, st, segs, st', h => by
    unfold convert_channels at h
    by_cases h1 : channel < 5
    · rw [if_pos h1] at h
      cases hname : get_chan_name samprate ((channel : Int) + 1) with
      | error e =>
        rw [hname] at h
        cases h
        intro seg hseg
        cases hseg
      | ok chan =>
        rw [hname] at h
        simp only at h
        cases hch : extract_channel packmsr idata nscans flag channel chan
            (nscans.toNat + 1) 0 st with
        | error f =>
          rw [hch] at h
          cases h
        | ok q =>
          obtain ⟨segs1, st1⟩ := q
          rw [hch] at h
          simp only at h
          cases hrec : convert_channels packmsr samprate idata nscans flag fuel
              (channel + 1) st1 with
          | error f =>
            rw [hrec] at h
            cases h
          | ok q2 =>
            obtain ⟨segs2, st2⟩ := q2
            rw [hrec] at h
            cases h
            intro seg hseg
            rcases List.mem_append.mp hseg with hseg | hseg
            · exact extract_channel_valid packmsr idata nscans flag channel _ _ _ _ _ _
                hch seg hseg
            · exact convert_channels_valid packmsr samprate idata nscans flag fuel _ _ _ _
                hrec seg hseg
    · rw [if_neg h1] at h
      cases h
      intro seg hseg
      cases hseg

theorem binconvert_checks_accepted (ext : Ext) (ifp : Option (List Byte)) (p : BinFile)
    (h : binconvert_checks ext ifp = .accepted p) :
    ∃ f r, ifp = some f ∧ read_bin_file f = .ok (p, r) ∧ p.ret ≠ 0 ∧
      p.s_rate.leLit 0 = false ∧ dataSizeMismatch p.ret p.nscans = false ∧
      (∃ yday, ext.ms_md2doy (p.start_time.getD 0 0) (p.start_time.getD 1 0)
        (p.start_time.getD 2 0) = some yday) ∧
      ext.msr_init = true ∧ 0 ≤ p.nscans := by
  unfold binconvert_checks at h
  cases ifp with
  | none => cases h
  | some f =>
    simp only at h
    cases hread : read_bin_file f with
    | error e =>
      rw [hread] at h
      cases h
    | ok q =>
      obtain ⟨q, r⟩ := q
      rw [hread] at h
      simp only at h
      by_cases h1 : q.ret = 0
      · rw [if_pos h1] at h
        cases h
      · rw [if_neg h1] at h
        by_cases h2 : q.s_rate.leLit 0 = true
        · rw [if_pos h2] at h
          cases h
        · rw [if_neg h2] at h
          by_cases h3 : dataSizeMismatch q.ret q.nscans = true
          · rw [if_pos h3] at h
            cases h
          · rw [if_neg h3] at h
            cases hy : ext.ms_md2doy (q.start_time.getD 0 0) (q.start_time.getD 1 0)
                (q.start_time.getD 2 0) with
            | none =>
              rw [hy] at h
              cases h
            | some yday =>
              rw [hy] at h
              simp only at h
              by_cases h4 : (!ext.msr_init) = true
              · rw [if_pos h4] at h
                cases h
              · rw [if_neg h4] at h
                by_cases h5 : q.nscans < 0
                · rw [if_pos h5] at h
                  cases h
                · rw [if_neg h5] at h
                  cases h
                  exact ⟨f, r, rfl, hread, h1, by simpa using h2, by simpa using h3,
                    ⟨yday, hy⟩, by simpa using h4, by omega⟩

theorem binconvert_of_read_error {σ : Type} (ext : Ext) (packmsr : σ → Segment → Int × σ)
    (f : List Byte) (st : σ) (h : returnValue (read_bin_file f) = 0) :
    binconvert ext packmsr (some f) st = .ok { ret := -1, segments := [], state := st } := by
  have hc : binconvert_checks ext (some f) = .rejected := by
    unfold binconvert_checks
    simp only
    cases hread : read_bin_file f with
    | error e => rfl
    | ok q =>
      obtain ⟨p, r⟩ := q
      rw [hread] at h
      simp only [returnValue] at h
      simp only [h, if_true]
  unfold binconvert
  rw [hc]

theorem fread4_length : ∀ (n : Nat) (s : List Byte) (ws : List Nat) (r : List Byte),
    fread4 n s = some (ws, r) → ws.length = n
  | 0, s, ws, r, h => by
    simp only [fread4, Option.some.injEq, Prod.mk.injEq] at h
    obtain ⟨rfl, rfl⟩ := h
    rfl
  | n + 1, [], ws, r, h => by simp [fread4] at h
  | n + 1, [_], ws, r, h => by simp [fread4] at h
  | n + 1, [_, _], ws, r, h => by simp [fread4] at h
  | n + 1, [_, _, _], ws, r, h => by simp [fread4] at h
  | n + 1, b0 :: b1 :: b2 :: b3 :: s, ws, r, h => by
    simp only [fread4] at h
    cases h1 : fread4 n s with
    | none => simp [h1] at h
    | some p =>
      obtain ⟨ws1, r1⟩ := p
      simp only [h1, Option.some.injEq, Prod.mk.injEq] at h
      obtain ⟨rfl, rfl⟩ := h
      simp [fread4_length n s ws1 r1 h1]

theorem resultsIn_bind_of {α β : Type} {Q : α → Prop} {P : β → Prop} {m : Reader α}
    {f : α → Reader β} (hm : ResultsIn Q m) (hf : ∀ a, Q a → ResultsIn P (f a)) :
    ResultsIn P (m >>= f) := by
  intro s b r h
  have h0 : Reader.bind m f s = .ok (b, r) := h
  unfold Reader.bind at h0
  cases hms : m s with
  | error e1 => simp [hms] at h0
  | ok p =>
    obtain ⟨a, r1⟩ := p
    simp only [hms] at h0
    exact hf a (hm s a r1 hms) r1 b r h0

theorem resultsIn_readWords (e : ReadError) (swapflag : Bool) (n : Int) :
    ResultsIn (fun ws => 0 ≤ n ∧ ws.length = n.toNat) (readWords e swapflag n) := by
  intro s ws r h
  unfold readWords at h
  by_cases hn : n < 0
  · simp [hn] at h
  · simp only [hn, if_false] at h
    cases hf : fread4 n.toNat s with
    | none => simp [hf] at h
    | some p =>
      obtain ⟨ws1, r1⟩ := p
      simp only [hf, Except.ok.injEq, Prod.mk.injEq] at h
      obtain ⟨rfl, rfl⟩ := h
      have := fread4_length _ _ _ _ hf
      refine ⟨by omega, ?_⟩
      split_ifs
      · simp [this]
      · exact this

theorem toInt32_range (w : Nat) (hw : w < 4294967296) :
    -2147483648 ≤ toInt32 w ∧ toInt32 w < 2147483648 := by
  unfold toInt32
  split_ifs <;> omega

theorem resultsIn_readWord (e : ReadError) (swapflag : Bool) :
    ResultsIn (fun w => w < 4294967296) (readWord e swapflag) := by
  intro s w r h
  rw [readWord_eq] at h
  match s, h with
  | b0 :: b1 :: b2 :: b3 :: r1, h =>
    simp only [Except.ok.injEq, Prod.mk.injEq] at h
    obtain ⟨rfl, rfl⟩ := h
    split_ifs
    · exact ms_gswap4a_lt _
    · exact hostWord_lt _ _ _ _

theorem resultsIn_read_data_block (swapflag : Bool) :
    ResultsIn (fun d => d.data.length = (Int.tdiv d.rl 4).toNat ∧ 0 ≤ d.rl ∧
      d.rl < 2147483648) (read_data_block swapflag) := by
  unfold read_data_block
  refine resultsIn_bind_of (resultsIn_readWord _ _) ?_; intro rl hrl
  refine resultsIn_bind_of (Q := fun _ => 0 ≤ toInt32 rl) ?_ ?_
  · intro s u r h
    unfold malloc at h
    by_cases hs : toInt32 rl < 0
    · simp [hs] at h
    · omega
  intro _ hpos
  refine resultsIn_bind_of (resultsIn_readWords _ _ _) ?_; intro data hdata
  refine resultsIn_bind ?_; intro j2
  refine resultsIn_pure _ ⟨?_, hpos, (toInt32_range rl hrl).2⟩
  simp [hdata.2]

theorem resultsIn_read_header_nscans (rl : Int) (swapflag : Bool) :
    ResultsIn (fun h => -2147483648 ≤ h.nscans ∧ h.nscans < 2147483648)
      (read_header_fields rl swapflag) := by
  unfold read_header_fields
  refine resultsIn_bind ?_; intro lat
  refine resultsIn_bind ?_; intro lon
  refine resultsIn_bind ?_; intro decl
  refine resultsIn_bind ?_; intro dt
  refine resultsIn_bind ?_; intro elev
  refine resultsIn_bind ?_; intro start_time
  refine resultsIn_bind ?_; intro clock_zero
  refine resultsIn_bind_of (resultsIn_readWord _ _) ?_; intro nscans hn
  refine resultsIn_bind ?_; intro gaptyp
  refine resultsIn_bind ?_; intro flag
  refine resultsIn_bind ?_; intro ngaps
  refine resultsIn_bind ?_; intro _
  refine resultsIn_bind ?_; intro gaps
  refine resultsIn_bind ?_; intro _
  refine resultsIn_bind ?_; intro itmp
  refine resultsIn_bind ?_; intro j2
  exact resultsIn_pure _ (toInt32_range nscans hn)

theorem read_bin_file_data_length (f : List Byte) (p : BinFile) (r : List Byte)
    (h : read_bin_file f = .ok (p, r)) :
    p.data.length = (Int.tdiv p.ret 4).toNat ∧ 0 ≤ p.ret ∧ p.ret < 2147483648 := by
  rw [read_bin_file_eq] at h
  cases hh : read_header f with
  | error e =>
    rw [hh] at h
    cases h
  | ok q =>
    obtain ⟨hd, s1⟩ := q
    rw [hh] at h
    simp only at h
    by_cases hj : hd.j1 = hd.j2
    · simp only [ne_eq, hj, not_true_eq_false, if_false] at h
      cases hdb : read_data_block hd.swapflag s1 with
      | error e =>
        rw [hdb] at h
        cases h
      | ok q2 =>
        obtain ⟨d, s2⟩ := q2
        rw [hdb] at h
        simp only at h
        have hres := resultsIn_read_data_block hd.swapflag s1 d s2 hdb
        by_cases hj2 : d.rl = d.j2
        · rw [if_neg (by simpa using hj2)] at h
          cases h
          exact hres
        · rw [if_pos (by simpa using hj2)] at h
          cases h
    · simp only [ne_eq, hj, not_false_eq_true, if_true] at h
      cases h

theorem accepted_data_length (ext : Ext) (ifp : Option (List Byte)) (p : BinFile)
    (h : binconvert_checks ext ifp = .accepted p) (hsz : p.nscans * 5 < 2147483648) :
    p.data.length = 5 * p.nscans.toNat ∧ p.nscans = (p.nscans.toNat : Int) := by
  obtain ⟨f, r, -, hread, -, -, hmis, -, -, hn⟩ := binconvert_checks_accepted ext ifp p h
  obtain ⟨hlen, h0, h1⟩ := read_bin_file_data_length f p r hread
  have hret : p.ret = 20 * p.nscans := by
    unfold dataSizeMismatch at hmis
    simp only [ne_eq, decide_not, Bool.not_eq_false', decide_eq_true_eq] at hmis
    unfold wrap32 at hmis
    omega
  refine ⟨?_, by omega⟩
  rw [hlen, hret, tdiv_pos_lit _ 4 (by decide)]
  split_ifs <;> omega

theorem drop_cons_getD (col : List Int) (d : Nat) (h : d < col.length) :
    col.drop d = col.getD d 0 :: col.drop (d + 1) := by
  rw [List.drop_eq_getElem_cons h]
  congr 1
  rw [List.getD_eq_getElem?_getD, List.getElem?_eq_getElem h]
  rfl

theorem takeWhile_append_drop (p : Int → Bool) (l : List Int) :
    l = l.takeWhile p ++ l.drop (l.takeWhile p).length := by
  have h := List.prefix_iff_eq_append.mp (List.takeWhile_prefix p (l := l))
  exact h.symm

theorem filter_takeWhile (p : Int → Bool) (l : List Int) :
    (l.takeWhile p).filter p = l.takeWhile p := by
  rw [List.filter_eq_self]
  intro a ha
  exact List.mem_takeWhile_imp ha

theorem runsFrom_length_sum (valid : Int → Bool) (col : List Int) :
    ∀ (k d : Nat), col.length - d < k →
      (d = 0 ∨ col.length ≤ d ∨ valid (col.getD (d - 1) 0) = false) →
      ((runsFrom valid col d).map (fun r => r.2.length)).sum =
        ((col.drop d).filter valid).length
  | 0, d, hk, _ => by omega
  | k + 1, d, hk, hb => by
    by_cases hd : d < col.length
    · by_cases hv : valid (col.getD d 0) = true
      · have hb' : d = 0 ∨ valid (col.getD (d - 1) 0) = false := by
          rcases hb with h | h | h
          · exact Or.inl h
          · omega
          · exact Or.inr h
        rw [runsFrom_run valid col d hd hb' hv]
        obtain ⟨-, h2, h3⟩ := takeWhile_facts valid (col.drop d)
        simp only [List.length_drop, getD_drop] at h2 h3
        have hsplit := takeWhile_append_drop valid (col.drop d)
        rw [List.drop_drop] at hsplit
        have hpos : 0 < ((col.drop d).takeWhile valid).length := by
          rw [drop_cons_getD col d hd, List.takeWhile_cons, hv]
          simp
        generalize hL : ((col.drop d).takeWhile valid).length = L at *
        have hcount : ((col.drop d).filter valid).length =
            L + ((col.drop (d + L)).filter valid).length := by
          conv_lhs => rw [hsplit]
          rw [List.filter_append, filter_takeWhile, List.length_append, hL]
        rw [hcount, List.map_cons, List.sum_cons, hL]
        congr 1
        by_cases hlt : d + L < col.length
        · rw [if_pos hlt]
          rw [runsFrom_length_sum valid col k (d + L + 1) (by omega)
            (Or.inr (Or.inr (by simpa using h3 (by omega))))]
          rw [drop_cons_getD col (d + L) hlt, List.filter_cons, h3 (by omega)]
          simp
        · rw [if_neg hlt]
          rw [runsFrom_ge valid col col.length (le_refl _)]
          rw [List.drop_eq_nil_of_le (by omega)]
          rfl
      · have hv' : valid (col.getD d 0) = false := by simpa using hv
        rw [runsFrom_invalid valid col d hd hv']
        rw [runsFrom_length_sum valid col k (d + 1) (by omega)
          (Or.inr (Or.inr (by simpa using hv')))]
        rw [drop_cons_getD col d hd, List.filter_cons, hv']
        simp
    · rw [runsFrom_ge valid col d (by omega), List.drop_eq_nil_of_le (by omega)]
      rfl

theorem packRuns_count {σ : Type} (packmsr : σ → Segment → Int × σ) (count : σ → Int)
    (chan : String)
    (hpack : ∀ st seg, (packmsr st seg).1 = 0 ∧
      count (packmsr st seg).2 = count st + seg.samples.length) :
    ∀ (runs : List (Nat × List Int)) (st : σ),
      count (packRuns packmsr chan runs st).2 =
        count st + ((runs.map (fun r => r.2.length)).sum : Nat)
  | [], st => by simp [packRuns]
  | (s, run) :: rest, st => by
    unfold packRuns
    have h0 := hpack st { channel := chan, startidx := s, samples := run }
    simp only [h0.1, ne_eq, not_true_eq_false, if_false]
    rw [packRuns_count packmsr count chan hpack rest, h0.2]
    simp only [List.map_cons, List.sum_cons]
    push_cast
    ring

theorem column_cons (a0 a1 a2 a3 a4 : Int) (rest : List Int) (n c : Nat) :
    column (a0 :: a1 :: a2 :: a3 :: a4 :: rest) (n + 1) c =
      (a0 :: a1 :: a2 :: a3 :: a4 :: rest).getD c 0 :: column rest n c := by
  unfold column
  rw [List.range_succ_eq_map, List.map_cons, List.map_map]
  congr 1
  · rw [Nat.mul_zero, Nat.zero_add]
  · apply List.map_congr_left
    intro i _
    have e : 5 * (i + 1) + c = (5 * i + c) + 1 + 1 + 1 + 1 + 1 := by omega
    simp only [Function.comp, e, List.getD_cons_succ]

theorem countP_columns (p : Int → Bool) : ∀ (n : Nat) (idata : List Int),
    idata.length = 5 * n →
    idata.countP p =
      (column idata n 0).countP p + (column idata n 1).countP p +
      (column idata n 2).countP p + (column idata n 3).countP p +
      (column idata n 4).countP p
  | 0, idata, h => by
    have : idata = [] := List.length_eq_zero.mp (by omega)
    subst this
    rfl
  | n + 1, idata, h => by
    match idata, h with
    | a0 :: a1 :: a2 :: a3 :: a4 :: rest, h =>
      have hr : rest.length = 5 * n := by
        simp only [List.length_cons] at h
        omega
      have ih := countP_columns p n rest hr
      simp only [column_cons, List.countP_cons, ih, List.getD_cons_zero, List.getD_cons_succ]
      omega

theorem convert_channels_count {σ : Type} (packmsr : σ → Segment → Int × σ)
    (count : σ → Int) (samprate : CFloat) (idata : List Int) (n : Nat) (flag : Int)
    (hlen : idata.length = 5 * n)
    (hname : ∀ c : Nat, c < 5 → ∃ chan, get_chan_name samprate ((c : Int) + 1) = .ok chan)
    (hpack : ∀ st seg, (packmsr st seg).1 = 0 ∧
      count (packmsr st seg).2 = count st + seg.samples.length) :
    ∀ (fuel ch : Nat) (st : σ), ch ≤ 5 → 5 - ch < fuel →
      ∃ segs st', convert_channels packmsr samprate idata (n : Int) flag fuel ch st =
          .ok (segs, st') ∧
        count st' = count st +
          (((List.range' ch (5 - ch)).map
            (fun c => (column idata n c).countP (validSample flag))).sum : Nat)
  | 0, ch, st, _, hf => by omega
  | fuel + 1, ch, st, hch, hf => by
    unfold convert_channels
    by_cases h5 : ch < 5
    · rw [if_pos h5]
      obtain ⟨chan, hchan⟩ := hname ch h5
      rw [hchan]
      simp only [Int.toNat_ofNat]
      have heq := extract_channel_eq packmsr idata n ch flag chan hlen h5 (n + 1) 0 st
        (Nat.zero_le _) (by omega) (Or.inl rfl)
      rw [heq]
      simp only
      obtain ⟨segs2, st2, hrec, hcount⟩ := convert_channels_count packmsr count samprate idata n
        flag hlen hname hpack fuel (ch + 1)
        (packRuns packmsr chan (runsFrom (validSample flag) (column idata n ch) 0) st).2
        (by omega) (by omega)
      rw [hrec]
      refine ⟨_, _, rfl, ?_⟩
      rw [hcount, packRuns_count packmsr count chan hpack]
      have hsum := runsFrom_length_sum (validSample flag) (column idata n ch)
        ((column idata n ch).length + 1) 0 (by omega) (Or.inl rfl)
      rw [List.drop_zero, ← List.countP_eq_length_filter] at hsum
      rw [hsum]
      have e : 5 - ch = (5 - (ch + 1)) + 1 := by omega
      rw [e, List.range'_succ, List.map_cons, List.sum_cons]
      have e2 : 5 - (ch + 1) + 1 - 1 = 5 - (ch + 1) := by omega
      push_cast
      ring
    · rw [if_neg h5]
      have e : 5 - ch = 0 := by omega
      rw [e]
      exact ⟨_, _, rfl, by simp⟩

theorem recipF32_one : recipF32 0x3F800000 = .fin 1 := by
  have h : recipBits 0x3F800000 = .fin false 8388608 (-23) := by decide
  rw [recipF32, h]
  norm_num [F32Value.toCFloat]

theorem recipF32_fast : recipF32 0x3C000000 = .fin 128 := by
  have h : recipBits 0x3C000000 = .fin false 8388608 (-16) := by decide
  rw [recipF32, h]
  norm_num [F32Value.toCFloat]

theorem fastFile_accepted : binconvert_checks sampleExt (some fastFile) = .accepted fastParse := by
  have hread : read_bin_file fastFile = .ok (fastParse, []) := rfl
  have hrate : fastParse.s_rate.leLit 0 = false := by
    show (recipF32 0x3C000000).leLit 0 = false
    rw [recipF32_fast]
    simp [CFloat.leLit]
  have hsize : dataSizeMismatch fastParse.ret fastParse.nscans = false := by decide
  unfold binconvert_checks
  simp only [hread, hrate, hsize]
  rfl

theorem sampleFile_accepted :
    binconvert_checks sampleExt (some sampleFile) = .accepted sampleParse := by
  have hread : read_bin_file sampleFile = .ok (sampleParse, []) := rfl
  have hrate : sampleParse.s_rate.leLit 0 = false := by
    show (recipF32 0x3F800000).leLit 0 = false
    rw [recipF32_one]
    simp [CFloat.leLit]
  have hsize : dataSizeMismatch sampleParse.ret sampleParse.nscans = false := by decide
  unfold binconvert_checks
  simp only [hread, hrate, hsize]
  rfl

theorem roundHalfEven_intCast (n : Int) : roundHalfEven (n : ℚ) = n := by
  unfold roundHalfEven
  simp

theorem roundHalfEven_of_near (x : ℚ) (n : Int) (h1 : (n : ℚ) - 1 / 2 < x)
    (h2 : x < n + 1 / 2) : roundHalfEven x = n := by
  unfold roundHalfEven
  by_cases hx : (n : ℚ) ≤ x
  · have hf : ⌊x⌋ = n := Int.floor_eq_iff.2 ⟨hx, by linarith⟩
    rw [hf, if_pos (by linarith)]
  · have hf : ⌊x⌋ = n - 1 := Int.floor_eq_iff.2 ⟨by push_cast; linarith, by push_cast; linarith⟩
    rw [hf]
    push_cast
    rw [if_neg (by linarith), if_neg (fun h => by linarith [h.1])]
    ring

theorem log_two_eq (x : ℚ) (k : Int) (h1 : (2 : ℚ) ^ k ≤ x) (h2 : x < 2 ^ (k + 1)) :
    Int.log 2 x = k := by
  have hpos : 0 < x := lt_of_lt_of_le (by positivity) h1
  have ha : k ≤ Int.log 2 x := (Int.zpow_le_iff_le_log (by norm_num) hpos).1 (by simpa using h1)
  have hb : Int.log 2 x < k + 1 := (Int.lt_zpow_iff_log_lt (by norm_num) hpos).1 (by simpa using h2)
  omega

theorem toDouble_of_log (x : ℚ) (k : Int) (h1 : (2 : ℚ) ^ k ≤ |x|) (h2 : |x| < 2 ^ (k + 1)) :
    toDouble x = (roundHalfEven (x / 2 ^ (k - 52)) : ℚ) * 2 ^ (k - 52) := by
  have hx : x ≠ 0 := by
    intro h
    rw [h, abs_zero] at h1
    exact absurd h1 (not_le.2 (by positivity))
  unfold toDouble
  rw [if_neg hx, log_two_eq |x| k h1 h2]

theorem toDouble_exact (m e : Int) (hm : |m| < 2 ^ 53) :
    toDouble ((m : ℚ) * 2 ^ e) = (m : ℚ) * 2 ^ e := by
  by_cases h0 : m = 0
  · simp [h0, toDouble]
  have hx : (m : ℚ) * 2 ^ e ≠ 0 := mul_ne_zero (by exact_mod_cast h0) (by positivity)
  have hpos : (0 : ℚ) < |(m : ℚ) * 2 ^ e| := abs_pos.2 hx
  have hk : ((2 : ℕ) : ℚ) ^ Int.log 2 |(m : ℚ) * 2 ^ e| ≤ |(m : ℚ) * 2 ^ e| :=
    Int.zpow_log_le_self (by norm_num) hpos
  have habs : |(m : ℚ) * 2 ^ e| = |(m : ℚ)| * 2 ^ e := by
    rw [abs_mul, abs_of_pos (by positivity : (0 : ℚ) < 2 ^ e)]
  have hmq : |(m : ℚ)| < 2 ^ 53 := by
    have : ((|m| : Int) : ℚ) < ((2 ^ 53 : Int) : ℚ) := by exact_mod_cast hm
    simpa using this
  have hlt : (2 : ℚ) ^ Int.log 2 |(m : ℚ) * 2 ^ e| < 2 ^ (53 + e) := by
    calc (2 : ℚ) ^ Int.log 2 |(m : ℚ) * 2 ^ e| ≤ |(m : ℚ)| * 2 ^ e := by
          rw [← habs]
          simpa using hk
      _ < 2 ^ 53 * 2 ^ e := by
          exact mul_lt_mul_of_pos_right hmq (by positivity)
      _ = 2 ^ (53 + e) := by
          rw [zpow_add₀ (by norm_num : (2 : ℚ) ≠ 0)]
          norm_num
  have hke : Int.log 2 |(m : ℚ) * 2 ^ e| < 53 + e :=
    (zpow_lt_zpow_iff_right₀ (by norm_num : (1 : ℚ) < 2)).1 hlt
  obtain ⟨d, hd⟩ : ∃ d : ℕ, e = (Int.log 2 |(m : ℚ) * 2 ^ e| - 52) + d :=
    ⟨(e - (Int.log 2 |(m : ℚ) * 2 ^ e| - 52)).toNat, by omega⟩
  unfold toDouble
  rw [if_neg hx]
  generalize Int.log 2 |(m : ℚ) * 2 ^ e| - 52 = u at hd
  have hdiv : (m : ℚ) * 2 ^ e / 2 ^ u = ((m * 2 ^ d : Int) : ℚ) := by
    rw [hd, zpow_add₀ (by norm_num : (2 : ℚ) ≠ 0)]
    have : (2 : ℚ) ^ u ≠ 0 := by positivity
    field_simp
    ring
  rw [hdiv, roundHalfEven_intCast, hd, zpow_add₀ (by norm_num : (2 : ℚ) ≠ 0), zpow_natCast]
  push_cast
  ring

theorem segment_starttime_of_int (starttime : Int) (startidx : Nat) (samprate : ℚ) (z : Int)
    (hz : |z| < 2 ^ 53)
    (h : toDouble (starttime : ℚ) +
      toDouble (toDouble ((startidx : ℚ) / samprate) * HPTMODULUS) = (z : ℚ)) :
    segment_starttime starttime startidx samprate = some z := by
  have he := toDouble_exact z 0 hz
  simp only [zpow_zero, mul_one] at he
  unfold segment_starttime
  have htr : truncate (z : ℚ) = z := by
    unfold truncate
    split_ifs <;> simp
  simp only [h, he, htr]
  rw [if_pos]
  rw [abs_lt] at hz
  constructor <;> omega

theorem segment_starttime_exact (starttime : Int) (startidx : Nat) (j : Int) (hj : j ≤ 6)
    (hs : startidx < 2147483648) (ht : |starttime| < 2 ^ 52)
    (hticks : (startidx : ℚ) / 2 ^ j * 1000000 < 2 ^ 52) :
    ∃ t : Int, segment_starttime starttime startidx (2 ^ j) = some t ∧
      (t : ℚ) = starttime + (startidx : ℚ) / 2 ^ j * 1000000 := by
  obtain ⟨d, hd⟩ : ∃ d : ℕ, -j = -6 + d := ⟨(6 - j).toNat, by omega⟩
  have h2 : (2 : ℚ) ^ j ≠ 0 := by positivity
  have hinv : ((2 : ℚ) ^ j)⁻¹ = 2 ^ d / 64 := by
    rw [← zpow_neg, hd, zpow_add₀ (by norm_num : (2 : ℚ) ≠ 0), zpow_natCast]
    norm_num
    ring
  have hq1 : (startidx : ℚ) / 2 ^ j = ((startidx : Int) : ℚ) * 2 ^ (-j) := by
    rw [zpow_neg]
    push_cast
    ring
  have hq2 : ((startidx : Int) : ℚ) * 2 ^ (-j) * HPTMODULUS =
      ((startidx * 1000000 : Int) : ℚ) * 2 ^ (-j) := by
    unfold HPTMODULUS
    push_cast
    ring
  have hval : (startidx : ℚ) / 2 ^ j * 1000000 = ((startidx * 15625 * 2 ^ d : Int) : ℚ) := by
    rw [div_eq_mul_inv, hinv]
    push_cast
    ring
  have e1 := toDouble_exact (startidx : Int) (-j) (by rw [abs_lt]; constructor <;> omega)
  have e2 := toDouble_exact (startidx * 1000000 : Int) (-j)
    (by rw [abs_lt]; constructor <;> omega)
  have e3 := toDouble_exact starttime 0 (lt_trans ht (by norm_num))
  simp only [zpow_zero, mul_one] at e3
  have hnonneg : (0 : Int) ≤ startidx * 15625 * 2 ^ d := by positivity
  have hlt : ((startidx * 15625 * 2 ^ d : Int)) < 2 ^ 52 := by
    have : ((startidx * 15625 * 2 ^ d : Int) : ℚ) < ((2 ^ 52 : Int) : ℚ) := by
      rw [← hval]
      push_cast
      exact hticks
    exact_mod_cast this
  rw [abs_lt] at ht
  refine ⟨starttime + startidx * 15625 * 2 ^ d, ?_, ?_⟩
  · apply segment_starttime_of_int
    · rw [abs_lt]
      constructor <;> omega
    · rw [hq1, e1, hq2, e2, e3]
      have : ((startidx * 1000000 : Int) : ℚ) * 2 ^ (-j) = (startidx : ℚ) / 2 ^ j * 1000000 := by
        rw [zpow_neg]
        push_cast
        ring
      rw [this, hval]
      push_cast
      ring
  · rw [hval]
    push_cast
    ring

theorem truncate_of (x : ℚ) (z : Int) (h0 : 0 ≤ x) (h1 : (z : ℚ) ≤ x) (h2 : x < z + 1) :
    truncate x = z := by
  unfold truncate
  rw [if_pos h0]
  exact Int.floor_eq_iff.2 ⟨h1, h2⟩

theorem segment_starttime_3Hz :
    segment_starttime 1215475200000000 11 3 = some 1215475203666666 := by
  have h1 : toDouble (((11 : ℕ) : ℚ) / 3) = 8256599316845909 * 2 ^ (-51 : Int) := by
    rw [toDouble_of_log _ 1 (by norm_num [abs_of_pos]) (by norm_num [abs_of_pos]),
      roundHalfEven_of_near _ 8256599316845909 (by norm_num) (by norm_num)]
    norm_num
  have h2 : toDouble (8256599316845909 * 2 ^ (-51 : Int) * HPTMODULUS) =
      7874106709333333 * 2 ^ (-31 : Int) := by
    unfold HPTMODULUS
    rw [toDouble_of_log _ 21 (by norm_num [abs_of_pos]) (by norm_num [abs_of_pos]),
      roundHalfEven_of_near _ 7874106709333333 (by norm_num) (by norm_num)]
    norm_num
  have h0 : toDouble ((1215475200000000 : Int) : ℚ) = 1215475200000000 := by
    have := toDouble_exact 1215475200000000 0 (by norm_num)
    simpa using this
  have h3 : toDouble (1215475200000000 + 7874106709333333 * 2 ^ (-31 : Int)) =
      4861900814666667 * 2 ^ (-2 : Int) := by
    rw [toDouble_of_log _ 50 (by norm_num [abs_of_pos]) (by norm_num [abs_of_pos]),
      roundHalfEven_of_near _ 4861900814666667 (by norm_num) (by norm_num)]
    norm_num
  have h4 : truncate (4861900814666667 * 2 ^ (-2 : Int)) = 1215475203666666 :=
    truncate_of _ _ (by norm_num) (by norm_num) (by norm_num)
  unfold segment_starttime
  simp only [h1, h2, h0, h3, h4]
  rfl
theorem segment_starttime_10Hz : segment_starttime 0 41 10 = some 4099999 := by
  have h1 : toDouble (((41 : ℕ) : ℚ) / 10) = 4616189618054758 * 2 ^ (-50 : Int) := by
    rw [toDouble_of_log _ 2 (by norm_num [abs_of_pos]) (by norm_num [abs_of_pos]),
      roundHalfEven_of_near _ 4616189618054758 (by norm_num) (by norm_num)]
    norm_num
  have h2 : toDouble (4616189618054758 * 2 ^ (-50 : Int) * HPTMODULUS) =
      8804682956799999 * 2 ^ (-31 : Int) := by
    unfold HPTMODULUS
    rw [toDouble_of_log _ 21 (by norm_num [abs_of_pos]) (by norm_num [abs_of_pos]),
      roundHalfEven_of_near _ 8804682956799999 (by norm_num) (by norm_num)]
    norm_num
  have h0 : toDouble ((0 : Int) : ℚ) = 0 := by simp [toDouble]
  have h3 : toDouble (0 + 8804682956799999 * 2 ^ (-31 : Int)) =
      8804682956799999 * 2 ^ (-31 : Int) := by
    rw [zero_add]
    have := toDouble_exact 8804682956799999 (-31) (by norm_num)
    simpa using this
  have h4 : truncate (8804682956799999 * 2 ^ (-31 : Int)) = 4099999 :=
    truncate_of _ _ (by norm_num) (by norm_num) (by norm_num)
  unfold segment_starttime
  simp only [h1, h2, h0, h3, h4]
  rfl

theorem segment_starttime_zero (starttime : Int) (samprate : ℚ) (ht : |starttime| < 2 ^ 53) :
    segment_starttime starttime 0 samprate = some starttime := by
  apply segment_starttime_of_int _ _ _ _ ht
  have e3 := toDouble_exact starttime 0 ht
  simp only [zpow_zero, mul_one] at e3
  have e0 : toDouble 0 = 0 := by simp [toDouble]
  rw [e3]
  simp [e0]

theorem recipF32_third : recipF32 0x3EAAAAAB = .fin 3 := by
  have h : recipBits 0x3EAAAAAB = .fin false 12582912 (-22) := by decide
  rw [recipF32, h]
  norm_num [F32Value.toCFloat]

theorem recipF32_tenth : recipF32 0x3DCCCCCD = .fin 10 := by
  have h : recipBits 0x3DCCCCCD = .fin false 10485760 (-20) := by decide
  rw [recipF32, h]
  norm_num [F32Value.toCFloat]

theorem named_rate_positive (freq : CFloat) (i : Int) (chan : String)
    (hle : freq.leLit 0 = false) (h : get_chan_name freq i = .ok chan) :
    ∃ q : ℚ, 0 < q ∧ freq = .fin q := by
  cases freq with
  | nan => simp [get_chan_name, bandCode, CFloat.geLit, CFloat.ltLit] at h
  | posInf => simp [get_chan_name, bandCode, CFloat.geLit, CFloat.ltLit] at h
  | negInf => simp [CFloat.leLit] at hle
  | fin q =>
    refine ⟨q, ?_, rfl⟩
    simpa [CFloat.leLit] using hle

theorem dataSizeMismatch_iff (datasize nscans : Int)
    (hd : 0 ≤ datasize ∧ datasize < 2147483648)
    (hn : -2147483648 ≤ nscans * 5 ∧ nscans * 5 < 2147483648) :
    dataSizeMismatch datasize nscans = true ↔ datasize ≠ 20 * nscans := by
  have hw : wrap32 (nscans * 5) = nscans * 5 := by
    unfold wrap32
    omega
  unfold dataSizeMismatch
  rw [hw]
  simp only [ne_eq, decide_not, Bool.not_eq_true', decide_eq_false_iff_not]
  constructor
  · intro h1 h2
    apply h1
    have h3 : nscans * 5 % 18446744073709551616 = nscans * 5 := by omega
    rw [h3]
    omega
  · intro h1 h2
    apply h1
    by_cases hneg : nscans < 0
    · have h3 : nscans * 5 % 18446744073709551616 = nscans * 5 + 18446744073709551616 := by
        omega
      rw [h3] at h2
      omega
    · have h3 : nscans * 5 % 18446744073709551616 = nscans * 5 := by omega
      rw [h3] at h2
      omega

theorem get_chan_name_inj (freq : CFloat) (i j : Int) (chan : String)
    (hi : get_chan_name freq i = .ok chan) (hj : get_chan_name freq j = .ok chan) : i = j := by
  unfold get_chan_name at hi hj
  cases hb : bandCode freq with
  | none =>
    rw [hb] at hi
    cases hi
  | some b =>
    rw [hb] at hi hj
    simp only at hi hj
    split_ifs at hi hj <;> first
      | omega
      | (cases hi; cases hj)

theorem extract_channel_logged {σ : Type} (packmsr : σ → Segment → Int × σ) (idata : List Int)
    (nscans missingdataflag : Int) (channel : Nat) (chan : String) :
    ∀ (fuel dataidx : Nat) (st : σ) (log0 : List (Segment × Int)) (segs : List Segment)
      (st1 : σ) (log : List (Segment × Int)),
      extract_channel (logged packmsr) idata nscans missingdataflag channel chan fuel dataidx
        (st, log0) = .ok (segs, (st1, log)) →
      ∃ L, log = log0 ++ L ∧ L.map Prod.fst = segs ∧ (∀ e ∈ L, e.1.channel = chan) ∧
        (∀ l1 e l2, L = l1 ++ e :: l2 → l2 ≠ [] → e.2 = 0)
  | 0, _, _, _, _, _, _, h => by
    simp [extract_channel] at h
  | fuel + 1, dataidx, st, log0, segs, st1, log, h => by
    unfold extract_channel at h
    by_cases hd : (dataidx : Int) < nscans
    · rw [if_pos hd] at h
      cases hrun : extract_run idata nscans missingdataflag channel (nscans.toNat + 1)
          dataidx [] with
      | error f =>
        rw [hrun] at h
        cases h
      | ok q =>
        obtain ⟨dataidx1, cdata⟩ := q
        rw [hrun] at h
        simp only at h
        by_cases hc : cdata.length > 0
        · rw [if_pos hc] at h
          by_cases hp : (logged packmsr (st, log0)
              { channel := chan, startidx := dataidx, samples := cdata }).1 ≠ 0
          · rw [if_pos hp] at h
            simp only [logged, Except.ok.injEq, Prod.mk.injEq] at h
            obtain ⟨rfl, rfl, rfl⟩ := h
            refine ⟨[(_, _)], rfl, rfl, ?_, ?_⟩
            · intro e he
              simp only [List.mem_singleton] at he
              rw [he]
            · intro l1 e l2 hl hne
              cases l1 with
              | nil =>
                simp only [List.nil_append, List.cons.injEq] at hl
                exact absurd hl.2.symm hne
              | cons x l1 =>
                simp only [List.cons_append, List.cons.injEq] at hl
                have := congrArg List.length hl.2
                simp only [List.length_nil, List.length_append, List.length_cons] at this
                omega
          · rw [if_neg hp] at h
            have hz : (packmsr st { channel := chan, startidx := dataidx, samples := cdata }).1
                = 0 := by
              simpa [logged] using hp
            cases hrec : extract_channel (logged packmsr) idata nscans missingdataflag channel
                chan fuel dataidx1 (logged packmsr (st, log0)
                  { channel := chan, startidx := dataidx, samples := cdata }).2 with
            | error f =>
              rw [hrec] at h
              cases h
            | ok q2 =>
              obtain ⟨segs2, st2, log2⟩ := q2
              rw [hrec] at h
              simp only [Except.ok.injEq, Prod.mk.injEq] at h
              obtain ⟨rfl, rfl, rfl⟩ := h
              obtain ⟨L, hL, hmap, hchan, hlast⟩ := extract_channel_logged packmsr idata nscans
                missingdataflag channel chan fuel dataidx1 _ _ _ _ _ hrec
              refine ⟨({ channel := chan, startidx := dataidx, samples := cdata },
                (packmsr st { channel := chan, startidx := dataidx, samples := cdata }).1) :: L,
                ?_, ?_, ?_, ?_⟩
              · rw [hL]
                simp
              · simp [hmap]
              · intro e he
                rcases List.mem_cons.1 he with rfl | he
                · rfl
                · exact hchan e he
              · intro l1 e l2 hl hne
                cases l1 with
                | nil =>
                  simp only [List.nil_append, List.cons.injEq] at hl
                  rw [← hl.1]
                  exact hz
                | cons x l1 =>
                  simp only [List.cons_append, List.cons.injEq] at hl
                  exact hlast l1 e l2 hl.2 hne
        · rw [if_neg hc] at h
          exact extract_channel_logged packmsr idata nscans missingdataflag channel chan fuel
            dataidx1 st log0 segs st1 log h
    · rw [if_neg hd] at h
      simp only [Except.ok.injEq, Prod.mk.injEq] at h
      obtain ⟨rfl, rfl, rfl⟩ := h
      exact ⟨[], by simp, rfl, by simp, by
        intro l1 e l2 hl
        simp at hl⟩

theorem convert_channels_logged {σ : Type} (packmsr : σ → Segment → Int × σ)
    (samprate : CFloat) (idata : List Int) (nscans missingdataflag : Int) :
    ∀ (fuel channel : Nat) (st : σ) (log0 : List (Segment × Int)) (segs : List Segment)
      (st1 : σ) (log : List (Segment × Int)),
      convert_channels (logged packmsr) samprate idata nscans missingdataflag fuel channel
        (st, log0) = .ok (segs, (st1, log)) →
      ∃ L, log = log0 ++ L ∧ L.map Prod.fst = segs ∧
        (∀ e ∈ L, ∃ k : Nat, channel ≤ k ∧
          get_chan_name samprate ((k : Int) + 1) = .ok e.1.channel) ∧
        (∀ l1 e l2, L = l1 ++ e :: l2 → ∀ e1 ∈ l2, e1.1.channel = e.1.channel → e.2 = 0)
  | 0, _, _, _, _, _, _, h => by
    simp [convert_channels] at h
  | fuel + 1, channel, st, log0, segs, st1, log, h => by
    unfold convert_channels at h
    by_cases hc : channel < 5
    · rw [if_pos hc] at h
      cases hname : get_chan_name samprate ((channel : Int) + 1) with
      | error e =>
        rw [hname] at h
        simp only [Except.ok.injEq, Prod.mk.injEq] at h
        obtain ⟨rfl, rfl, rfl⟩ := h
        exact ⟨[], by simp, rfl, by simp, by
          intro l1 e l2 hl
          simp at hl⟩
      | ok chan =>
        rw [hname] at h
        simp only at h
        cases hext : extract_channel (logged packmsr) idata nscans missingdataflag channel chan
            (nscans.toNat + 1) 0 (st, log0) with
        | error f =>
          rw [hext] at h
          cases h
        | ok q =>
          obtain ⟨segsA, stA, logA⟩ := q
          rw [hext] at h
          simp only at h
          cases hrec : convert_channels (logged packmsr) samprate idata nscans missingdataflag
              fuel (channel + 1) (stA, logA) with
          | error f =>
            rw [hrec] at h
            cases h
          | ok q2 =>
            obtain ⟨segsB, stB, logB⟩ := q2
            rw [hrec] at h
            simp only [Except.ok.injEq, Prod.mk.injEq] at h
            obtain ⟨rfl, rfl, rfl⟩ := h
            obtain ⟨LA, hLA, hmapA, hchanA, hlastA⟩ := extract_channel_logged packmsr idata
              nscans missingdataflag channel chan _ _ _ _ _ _ _ hext
            obtain ⟨LB, hLB, hmapB, hchanB, hlastB⟩ := convert_channels_logged packmsr samprate
              idata nscans missingdataflag fuel (channel + 1) _ _ _ _ _ hrec
            refine ⟨LA ++ LB, ?_, ?_, ?_, ?_⟩
            · rw [hLB, hLA, List.append_assoc]
            · rw [List.map_append, hmapA, hmapB]
            · intro e he
              rcases List.mem_append.1 he with he | he
              · exact ⟨channel, le_refl _, by rw [hchanA e he]; exact hname⟩
              · obtain ⟨k, hk, hkn⟩ := hchanB e he
                exact ⟨k, by omega, hkn⟩
            · intro l1 e l2 hl e1 he1 hsame
              rcases List.append_eq_append_iff.1 hl with ⟨a, ha, hb⟩ | ⟨c, hc1, hc2⟩
              · exact hlastB a e l2 hb e1 he1 hsame
              · cases c with
                | nil =>
                  simp only [List.nil_append] at hc2
                  exact hlastB [] e l2 hc2.symm e1 he1 hsame
                | cons x c =>
                  simp only [List.cons_append, List.cons.injEq] at hc2
                  obtain ⟨rfl, hl2⟩ := hc2
                  rw [hl2] at he1
                  rcases List.mem_append.1 he1 with h1 | h1
                  · exact hlastA l1 e c hc1 (List.ne_nil_of_mem h1)
                  · obtain ⟨k, hk, hkn⟩ := hchanB e1 h1
                    have hx : e.1.channel = chan := hchanA e (by rw [hc1]; simp)
                    rw [hsame, hx] at hkn
                    have := get_chan_name_inj samprate _ _ chan hkn hname
                    omega
    · rw [if_neg hc] at h
      simp only [Except.ok.injEq, Prod.mk.injEq] at h
      obtain ⟨rfl, rfl, rfl⟩ := h
      exact ⟨[], by simp, rfl, by simp, by
        intro l1 e l2 hl
        simp at hl⟩

theorem bandCode_1Hz : bandCode (.fin 1) = some 'L' := by
  simp [bandCode, CFloat.geLit, CFloat.ltLit]
  norm_num

theorem convert_channels_succ {σ : Type} (packmsr : σ → Segment → Int × σ) (samprate : CFloat)
    (idata : List Int) (nscans missingdataflag : Int) (b : Char)
    (hb : bandCode samprate = some b) (fuel channel : Nat) (hc : channel < 5) (st : σ) :
    convert_channels packmsr samprate idata nscans missingdataflag (fuel + 1) channel st =
      match extract_channel packmsr idata nscans missingdataflag channel
          (String.mk (b :: specSuffix ((channel : Int) + 1))) (nscans.toNat + 1) 0 st with
      | .error f => .error f
      | .ok (segs, st1) =>
        match convert_channels packmsr samprate idata nscans missingdataflag fuel
            (channel + 1) st1 with
        | .error f => .error f
        | .ok (segs2, st2) => .ok (segs ++ segs2, st2) := by
  rw [convert_channels, if_pos hc,
    get_chan_name_of_band samprate b _ hb ⟨by omega, by omega⟩]

theorem extract_channel_one_scan {σ : Type} (packmsr : σ → Segment → Int × σ) (channel : Nat)
    (chan : String) (v : Int) (st : σ)
    (hv : [1, 2, 3, 4, 5][5 * 0 + channel]? = some v) (hv5 : 1 ≤ v ∧ v ≤ 5) :
    extract_channel packmsr [1, 2, 3, 4, 5] 1 2147483647 channel chan 2 0 st =
      .ok ([{ channel := chan, startidx := 0, samples := [v] }],
        (packmsr st { channel := chan, startidx := 0, samples := [v] }).2) := by
  have hrun : extract_run [1, 2, 3, 4, 5] 1 2147483647 channel 2 0 [] = .ok (1, [v]) := by
    unfold extract_run
    rw [if_pos (by decide), hv]
    simp only
    rw [if_neg (by omega), if_pos (by decide)]
    unfold extract_run
    rw [if_neg (by decide)]
    rfl
  unfold extract_channel
  rw [if_pos (by decide)]
  have h2 : (1 : Int).toNat + 1 = 2 := rfl
  rw [h2, hrun]
  simp only [List.length_singleton, gt_iff_lt, Nat.lt_one_iff, List.length_nil,
    Nat.zero_lt_one, if_true]
  by_cases hp : (packmsr st { channel := chan, startidx := 0, samples := [v] }).1 ≠ 0
  · rw [if_pos hp]
  · rw [if_neg hp]
    unfold extract_channel
    rw [if_neg (by decide)]

theorem sampleFile_binconvert {σ : Type} (packmsr : σ → Segment → Int × σ) (st : σ) :
    binconvert sampleExt packmsr (some sampleFile) st =
      .ok { ret := 0, segments := sampleSegments,
            state := sampleSegments.foldl (fun s seg => (packmsr s seg).2) st } := by
  have hb : bandCode sampleParse.s_rate = some 'L' := by
    show bandCode (recipF32 0x3F800000) = _
    rw [recipF32_one]
    exact bandCode_1Hz
  have hex : ∀ (channel : Nat) (chan : String) (v : Int) (s : σ),
      [1, 2, 3, 4, 5][5 * 0 + channel]? = some v → 1 ≤ v ∧ v ≤ 5 →
      extract_channel packmsr sampleParse.data sampleParse.nscans sampleParse.missingdataflag
        channel chan (sampleParse.nscans.toNat + 1) 0 s =
      .ok ([{ channel := chan, startidx := 0, samples := [v] }],
        (packmsr s { channel := chan, startidx := 0, samples := [v] }).2) :=
    fun channel chan v s hv hv5 => extract_channel_one_scan packmsr channel chan v s hv hv5
  unfold binconvert
  rw [sampleFile_accepted]
  simp only
  rw [convert_channels_succ packmsr _ _ _ _ 'L' hb 5 0 (by omega), hex 0 _ 1 _ rfl (by omega)]
  simp only
  rw [convert_channels_succ packmsr _ _ _ _ 'L' hb 4 1 (by omega), hex 1 _ 2 _ rfl (by omega)]
  simp only
  rw [convert_channels_succ packmsr _ _ _ _ 'L' hb 3 2 (by omega), hex 2 _ 3 _ rfl (by omega)]
  simp only
  rw [convert_channels_succ packmsr _ _ _ _ 'L' hb 2 3 (by omega), hex 3 _ 4 _ rfl (by omega)]
  simp only
  rw [convert_channels_succ packmsr _ _ _ _ 'L' hb 1 4 (by omega), hex 4 _ 5 _ rfl (by omega)]
  simp only
  unfold convert_channels
  rw [if_neg (by omega)]
  rfl

theorem packmsr_shared_open (env : PackEnv) (outfile : Option String) (chanfiles : Bool)
    (encoding : Int) (hmode : outfile ≠ none ∨ chanfiles = false) (st : PackState)
    (s0 : OutStream) (h : st.outfp = some s0) (msr : MSRecord) :
    (packmsr env outfile chanfiles encoding st msr).2.outfp = some s0 ∧
    (packmsr env outfile chanfiles encoding st msr).2.opened = st.opened ∧
    (packmsr env outfile chanfiles encoding st msr).2.closed = st.closed ∧
    (packmsr env outfile chanfiles encoding st msr).2.fopens = st.fopens ∧
    (packmsr env outfile chanfiles encoding st msr).2.packed =
      st.packed ++ [(s0, { msr with encoding := encoding })] := by
  have hp : (pack_records env encoding s0 st msr).2.outfp = some s0 ∧
      (pack_records env encoding s0 st msr).2.opened = st.opened ∧
      (pack_records env encoding s0 st msr).2.closed = st.closed ∧
      (pack_records env encoding s0 st msr).2.fopens = st.fopens ∧
      (pack_records env encoding s0 st msr).2.packed =
        st.packed ++ [(s0, { msr with encoding := encoding })] := by
    unfold pack_records
    simp only [h, ne_eq, not_true_eq_false, if_false]
    split_ifs <;> exact ⟨rfl, rfl, rfl, rfl, rfl⟩
  unfold packmsr
  cases outfile with
  | some name =>
    simp only [h]
    exact hp
  | none =>
    have hc : chanfiles = false := by
      rcases hmode with h1 | h1
      · exact absurd rfl h1
      · exact h1
    simp only [hc, Bool.not_false, if_true, h]
    exact hp

theorem packmsr_shared_closed (env : PackEnv) (outfile : Option String) (chanfiles : Bool)
    (encoding : Int) (hmode : outfile ≠ none ∨ chanfiles = false) (st : PackState)
    (h : st.outfp = none) (msr : MSRecord) :
    (env.fopen st.fopens (sharedName env outfile msr) = false →
      (packmsr env outfile chanfiles encoding st msr).1 = -1 ∧
      (packmsr env outfile chanfiles encoding st msr).2.outfp = none ∧
      (packmsr env outfile chanfiles encoding st msr).2.opened = st.opened ∧
      (packmsr env outfile chanfiles encoding st msr).2.closed = st.closed ∧
      (packmsr env outfile chanfiles encoding st msr).2.fopens = st.fopens + 1 ∧
      (packmsr env outfile chanfiles encoding st msr).2.packed = st.packed) ∧
    (env.fopen st.fopens (sharedName env outfile msr) = true →
      (packmsr env outfile chanfiles encoding st msr).2.outfp =
        some { name := sharedName env outfile msr, rank := st.fopens } ∧
      (packmsr env outfile chanfiles encoding st msr).2.opened =
        st.opened ++ [{ name := sharedName env outfile msr, rank := st.fopens }] ∧
      (packmsr env outfile chanfiles encoding st msr).2.closed = st.closed ∧
      (packmsr env outfile chanfiles encoding st msr).2.fopens = st.fopens + 1 ∧
      (packmsr env outfile chanfiles encoding st msr).2.packed =
        st.packed ++ [({ name := sharedName env outfile msr, rank := st.fopens },
          { msr with encoding := encoding })]) := by
  have hp : ∀ (s0 : OutStream) (st1 : PackState), st1.outfp = some s0 →
      (pack_records env encoding s0 st1 msr).2.outfp = some s0 ∧
      (pack_records env encoding s0 st1 msr).2.opened = st1.opened ∧
      (pack_records env encoding s0 st1 msr).2.closed = st1.closed ∧
      (pack_records env encoding s0 st1 msr).2.fopens = st1.fopens ∧
      (pack_records env encoding s0 st1 msr).2.packed =
        st1.packed ++ [(s0, { msr with encoding := encoding })] := by
    intro s0 st1 h1
    unfold pack_records
    simp only [h1, ne_eq, not_true_eq_false, if_false]
    split_ifs <;> exact ⟨rfl, rfl, rfl, rfl, rfl⟩
  have hcore : ∀ name : String,
      (env.fopen st.fopens name = false →
        (match fopen_w env name st with
          | (none, st1) => ((-1 : Int), st1)
          | (some ofp, st1) =>
            pack_records env encoding ofp { st1 with outfp := some ofp } msr) =
          (-1, { st with fopens := st.fopens + 1 })) ∧
      (env.fopen st.fopens name = true →
        (match fopen_w env name st with
          | (none, st1) => ((-1 : Int), st1)
          | (some ofp, st1) =>
            pack_records env encoding ofp { st1 with outfp := some ofp } msr) =
          pack_records env encoding { name := name, rank := st.fopens }
            { st with fopens := st.fopens + 1,
                      opened := st.opened ++ [{ name := name, rank := st.fopens }],
                      outfp := some { name := name, rank := st.fopens } } msr) := by
    intro name
    constructor
    · intro hf
      unfold fopen_w
      simp [hf]
    · intro hf
      unfold fopen_w
      simp [hf]
  have hunf : packmsr env outfile chanfiles encoding st msr =
      (match fopen_w env (sharedName env outfile msr) st with
        | (none, st1) => ((-1 : Int), st1)
        | (some ofp, st1) =>
          pack_records env encoding ofp { st1 with outfp := some ofp } msr) := by
    unfold packmsr sharedName
    cases outfile with
    | some name =>
      simp only [h]
    | none =>
      have hc : chanfiles = false := by
        rcases hmode with h1 | h1
        · exact absurd rfl h1
        · exact h1
      simp only [hc, Bool.not_false, if_true, h]
  rw [hunf]
  constructor
  · intro hf
    rw [(hcore _).1 hf]
    exact ⟨rfl, h, rfl, rfl, rfl, rfl⟩
  · intro hf
    rw [(hcore _).2 hf]
    exact hp _ _ rfl

theorem packmsr_calls_shared_open (env : PackEnv) (outfile : Option String) (chanfiles : Bool)
    (encoding : Int) (hmode : outfile ≠ none ∨ chanfiles = false) :
    ∀ (msrs : List MSRecord) (st : PackState) (s0 : OutStream), st.outfp = some s0 →
      (packmsr_calls env outfile chanfiles encoding msrs st).2.outfp = some s0 ∧
      (packmsr_calls env outfile chanfiles encoding msrs st).2.opened = st.opened ∧
      (packmsr_calls env outfile chanfiles encoding msrs st).2.closed = st.closed ∧
      (packmsr_calls env outfile chanfiles encoding msrs st).2.fopens = st.fopens ∧
      (packmsr_calls env outfile chanfiles encoding msrs st).2.packed =
        st.packed ++ msrs.map (fun m => (s0, { m with encoding := encoding }))
  | [], st, s0, h => by
    simp [packmsr_calls, h]
  | msr :: rest, st, s0, h => by
    obtain ⟨h1, h2, h3, h4, h5⟩ :=
      packmsr_shared_open env outfile chanfiles encoding hmode st s0 h msr
    obtain ⟨k1, k2, k3, k4, k5⟩ := packmsr_calls_shared_open env outfile chanfiles encoding
      hmode rest (packmsr env outfile chanfiles encoding st msr).2 s0 h1
    unfold packmsr_calls
    simp only
    refine ⟨k1, by rw [k2, h2], by rw [k3, h3], by rw [k4, h4], ?_⟩
    rw [k5, h5]
    simp

theorem packmsr_calls_shared_closed (env : PackEnv) (outfile : Option String)
    (chanfiles : Bool) (encoding : Int) (hmode : outfile ≠ none ∨ chanfiles = false) :
    ∀ (msrs : List MSRecord) (st : PackState), st.outfp = none →
      (packmsr_calls env outfile chanfiles encoding msrs st).2.closed = st.closed ∧
      (((packmsr_calls env outfile chanfiles encoding msrs st).2.outfp = none ∧
        (packmsr_calls env outfile chanfiles encoding msrs st).2.opened = st.opened ∧
        (packmsr_calls env outfile chanfiles encoding msrs st).2.packed = st.packed ∧
        (packmsr_calls env outfile chanfiles encoding msrs st).2.fopens =
          st.fopens + msrs.length ∧
        (∀ i m, msrs[i]? = some m →
          env.fopen (st.fopens + i) (sharedName env outfile m) = false) ∧
        ∀ (i : Nat) (r : Int),
          (packmsr_calls env outfile chanfiles encoding msrs st).1[i]? = some r →
          r = -1) ∨
       ∃ pre m post, msrs = pre ++ m :: post ∧
        (∀ i x, pre[i]? = some x →
          env.fopen (st.fopens + i) (sharedName env outfile x) = false) ∧
        (∀ (i : Nat) (r : Int), i < pre.length →
          (packmsr_calls env outfile chanfiles encoding msrs st).1[i]? = some r → r = -1) ∧
        env.fopen (st.fopens + pre.length) (sharedName env outfile m) = true ∧
        (packmsr_calls env outfile chanfiles encoding msrs st).2.outfp =
          some { name := sharedName env outfile m, rank := st.fopens + pre.length } ∧
        (packmsr_calls env outfile chanfiles encoding msrs st).2.opened =
          st.opened ++ [{ name := sharedName env outfile m, rank := st.fopens + pre.length }] ∧
        (packmsr_calls env outfile chanfiles encoding msrs st).2.fopens =
          st.fopens + pre.length + 1 ∧
        (packmsr_calls env outfile chanfiles encoding msrs st).2.packed =
          st.packed ++ (m :: post).map (fun x =>
            ({ name := sharedName env outfile m, rank := st.fopens + pre.length },
              { x with encoding := encoding })))
  | [], st, h => by
    refine ⟨rfl, Or.inl ⟨h, rfl, rfl, rfl, ?_, ?_⟩⟩
    · intro i m hm
      simp at hm
    · intro i r hr
      simp [packmsr_calls] at hr
  | msr :: rest, st, h => by
    obtain ⟨hfail, hok⟩ := packmsr_shared_closed env outfile chanfiles encoding hmode st h msr
    cases hf : env.fopen st.fopens (sharedName env outfile msr) with
    | false =>
      obtain ⟨h0, h1, h2, h3, h4, h5⟩ := hfail hf
      obtain ⟨k1, k2⟩ := packmsr_calls_shared_closed env outfile chanfiles encoding hmode rest
        (packmsr env outfile chanfiles encoding st msr).2 h1
      unfold packmsr_calls
      simp only
      refine ⟨by rw [k1, h3], ?_⟩
      have hrets : ∀ (P : Nat → Prop), (∀ (i : Nat) (r : Int), P i →
          (packmsr_calls env outfile chanfiles encoding rest
            (packmsr env outfile chanfiles encoding st msr).2).1[i]? = some r → r = -1) →
          ∀ (i : Nat) (r : Int), (i = 0 ∨ ∃ j, i = j + 1 ∧ P j) →
          ((packmsr env outfile chanfiles encoding st msr).1 ::
            (packmsr_calls env outfile chanfiles encoding rest
              (packmsr env outfile chanfiles encoding st msr).2).1)[i]? = some r → r = -1 := by
        intro P hP i r hi hr
        rcases hi with rfl | ⟨j, rfl, hj⟩
        · simp only [List.getElem?_cons_zero, Option.some.injEq] at hr
          rw [← hr]
          exact h0
        · simp only [List.getElem?_cons_succ] at hr
          exact hP j r hj hr
      rcases k2 with ⟨a1, a2, a3, a4, a5, a6⟩ | ⟨pre, m, post, b1, b2, b8, b3, b4, b5, b6, b7⟩
      · refine Or.inl ⟨a1, by rw [a2, h2], by rw [a3, h5], ?_, ?_, ?_⟩
        · rw [a4, h4, List.length_cons]
          omega
        rotate_left
        · intro i r hr
          refine hrets (fun _ => True) (fun i r _ h => a6 i r h) i r ?_ hr
          cases i with
          | zero => exact Or.inl rfl
          | succ j => exact Or.inr ⟨j, rfl, trivial⟩
        · intro i m hm
          cases i with
          | zero =>
            simp only [List.getElem?_cons_zero, Option.some.injEq] at hm
            rw [← hm]
            exact hf
          | succ i =>
            simp only [List.getElem?_cons_succ] at hm
            have := a5 i m hm
            rw [h4] at this
            rw [← this]
            congr 1
            omega
      · refine Or.inr ⟨msr :: pre, m, post, by rw [b1]; rfl, ?_, ?_, ?_, ?_, ?_, ?_, ?_⟩
        rotate_left
        · intro i r hi hr
          refine hrets (fun j => j < pre.length) (fun i r hi h => b8 i r hi h) i r ?_ hr
          cases i with
          | zero => exact Or.inl rfl
          | succ j =>
            exact Or.inr ⟨j, rfl, by simpa using hi⟩
        rotate_right
        · intro i x hx
          cases i with
          | zero =>
            simp only [List.getElem?_cons_zero, Option.some.injEq] at hx
            rw [← hx]
            exact hf
          | succ i =>
            simp only [List.getElem?_cons_succ] at hx
            have := b2 i x hx
            rw [h4] at this
            rw [← this]
            congr 1
            omega
        · rw [h4] at b3
          rw [← b3, List.length_cons]
          congr 1
          omega
        · rw [b4, h4, List.length_cons]
          congr 2
          omega
        · rw [b5, h2, h4, List.length_cons]
          congr 3
          omega
        · rw [b6, h4, List.length_cons]
          omega
        · rw [b7, h5, h4, List.length_cons]
          have : st.fopens + 1 + pre.length = st.fopens + (pre.length + 1) := by omega
          rw [this]
    | true =>
      obtain ⟨h1, h2, h3, h4, h5⟩ := hok hf
      obtain ⟨k1, k2, k3, k4, k5⟩ := packmsr_calls_shared_open env outfile chanfiles encoding
        hmode rest (packmsr env outfile chanfiles encoding st msr).2 _ h1
      unfold packmsr_calls
      simp only
      refine ⟨by rw [k3, h3], Or.inr ⟨[], msr, rest, rfl, ?_, ?_, ?_, ?_, ?_, ?_, ?_⟩⟩
      · intro i x hx
        simp at hx
      · intro i r hi
        simp at hi
      · simpa using hf
      · simpa using k1
      · rw [k2, h2]
        simp
      · rw [k4, h4]
        simp
      · rw [k5, h5]
        simp

theorem process_arguments_fuel (strtoul : String → Nat) (argvec : List String) :
    ∀ (fuel optind : Nat) (o : Options), 0 < fuel → argvec.length < optind + fuel →
      process_arguments strtoul argvec fuel optind o ≠ .error .fuel := by
  intro fuel
  induction fuel with
  | zero =>
    intro optind o h
    omega
  | succ n ih =>
    intro optind o _ hlen hres
    rw [process_arguments] at hres
    cases harg : argvec[optind]? with
    | none =>
      rw [harg] at hres
      cases hres
    | some arg =>
      have hlt : optind < argvec.length := by
        by_contra hge
        rw [List.getElem?_eq_none (by omega)] at harg
        cases harg
      have ih1 := fun o1 => ih (optind + 1) o1 (by omega) (by omega)
      have ih2 := fun o1 => ih (optind + 2) o1 (by omega) (by omega)
      rw [harg] at hres
      simp only at hres
      have hget : getoptval argvec optind ≠ .error .fuel := by
        unfold getoptval
        intro hg
        split at hg
        · cases hg
        · split at hg
          · cases hg
          · split_ifs at hg
            all_goals cases hg
      by_cases c0 : arg = "-V"
      · rw [if_pos c0] at hres
        cases hres
      rw [if_neg c0] at hres
      by_cases c1 : arg = "-h"
      · rw [if_pos c1] at hres
        cases hres
      rw [if_neg c1] at hres
      by_cases c2 : List.take 2 arg.data = ['-', 'v']
      · rw [if_pos c2] at hres
        exact ih1 _ hres
      rw [if_neg c2] at hres
      by_cases c3 : arg = "-S"
      · rw [if_pos c3] at hres
        exact ih1 _ hres
      rw [if_neg c3] at hres
      by_cases c4 : arg = "-C"
      · rw [if_pos c4] at hres
        exact ih1 _ hres
      rw [if_neg c4] at hres
      by_cases c5 : arg = "-n"
      · rw [if_pos c5] at hres
        cases hg : getoptval argvec optind with
        | error e =>
          rw [hg] at hres
          simp only at hres
          cases hres
          exact hget hg
        | ok v =>
          rw [hg] at hres
          simp only at hres
          exact ih2 _ hres
      rw [if_neg c5] at hres
      by_cases c6 : arg = "-s"
      · rw [if_pos c6] at hres
        cases hg : getoptval argvec optind with
        | error e =>
          rw [hg] at hres
          simp only at hres
          cases hres
          exact hget hg
        | ok v =>
          rw [hg] at hres
          simp only at hres
          exact ih2 _ hres
      rw [if_neg c6] at hres
      by_cases c7 : arg = "-l"
      · rw [if_pos c7] at hres
        cases hg : getoptval argvec optind with
        | error e =>
          rw [hg] at hres
          simp only at hres
          cases hres
          exact hget hg
        | ok v =>
          rw [hg] at hres
          simp only at hres
          exact ih2 _ hres
      rw [if_neg c7] at hres
      by_cases c8 : arg = "-r"
      · rw [if_pos c8] at hres
        cases hg : getoptval argvec optind with
        | error e =>
          rw [hg] at hres
          simp only at hres
          cases hres
          exact hget hg
        | ok v =>
          rw [hg] at hres
          simp only at hres
          exact ih2 _ hres
      rw [if_neg c8] at hres
      by_cases c9 : arg = "-e"
      · rw [if_pos c9] at hres
        cases hg : getoptval argvec optind with
        | error e =>
          rw [hg] at hres
          simp only at hres
          cases hres
          exact hget hg
        | ok v =>
          rw [hg] at hres
          simp only at hres
          exact ih2 _ hres
      rw [if_neg c9] at hres
      by_cases c10 : arg = "-b"
      · rw [if_pos c10] at hres
        cases hg : getoptval argvec optind with
        | error e =>
          rw [hg] at hres
          simp only at hres
          cases hres
          exact hget hg
        | ok v =>
          rw [hg] at hres
          simp only at hres
          exact ih2 _ hres
      rw [if_neg c10] at hres
      by_cases c11 : arg = "-o"
      · rw [if_pos c11] at hres
        cases hg : getoptval argvec optind with
        | error e =>
          rw [hg] at hres
          simp only at hres
          cases hres
          exact hget hg
        | ok v =>
          rw [hg] at hres
          simp only at hres
          exact ih2 _ hres
      rw [if_neg c11] at hres
      by_cases c12 : arg.data.head? = some '-' ∧ arg.data.length > 1
      · rw [if_pos c12] at hres
        cases hres
      rw [if_neg c12] at hres
      exact ih1 _ hres

theorem process_arguments_encoding (strtoul : String → Nat) (argvec : List String)
    (hne : ∀ a ∈ argvec, a ≠ "-e") :
    ∀ (fuel optind : Nat) (o0 o : Options),
      process_arguments strtoul argvec fuel optind o0 = .ok o → o.encoding = o0.encoding := by
  intro fuel
  induction fuel with
  | zero =>
    intro optind o0 o h
    simp [process_arguments] at h
  | succ n ih =>
    intro optind o0 o h
    rw [process_arguments] at h
    cases harg : argvec[optind]? with
    | none =>
      rw [harg] at h
      cases h
      rfl
    | some arg =>
      have hmem : arg ∈ argvec := List.mem_iff_getElem?.2 ⟨optind, harg⟩
      rw [harg] at h
      simp only at h
      by_cases c0 : arg = "-V"
      · rw [if_pos c0] at h
        cases h
      rw [if_neg c0] at h
      by_cases c1 : arg = "-h"
      · rw [if_pos c1] at h
        cases h
      rw [if_neg c1] at h
      by_cases c2 : List.take 2 arg.data = ['-', 'v']
      · rw [if_pos c2] at h
        exact (ih _ _ _ h).trans rfl
      rw [if_neg c2] at h
      by_cases c3 : arg = "-S"
      · rw [if_pos c3] at h
        exact (ih _ _ _ h).trans rfl
      rw [if_neg c3] at h
      by_cases c4 : arg = "-C"
      · rw [if_pos c4] at h
        exact (ih _ _ _ h).trans rfl
      rw [if_neg c4] at h
      by_cases c5 : arg = "-n"
      · rw [if_pos c5] at h
        cases hg : getoptval argvec optind with
        | error e =>
          rw [hg] at h
          cases h
        | ok v =>
          rw [hg] at h
          simp only at h
          exact (ih _ _ _ h).trans rfl
      rw [if_neg c5] at h
      by_cases c6 : arg = "-s"
      · rw [if_pos c6] at h
        cases hg : getoptval argvec optind with
        | error e =>
          rw [hg] at h
          cases h
        | ok v =>
          rw [hg] at h
          simp only at h
          exact (ih _ _ _ h).trans rfl
      rw [if_neg c6] at h
      by_cases c7 : arg = "-l"
      · rw [if_pos c7] at h
        cases hg : getoptval argvec optind with
        | error e =>
          rw [hg] at h
          cases h
        | ok v =>
          rw [hg] at h
          simp only at h
          exact (ih _ _ _ h).trans rfl
      rw [if_neg c7] at h
      by_cases c8 : arg = "-r"
      · rw [if_pos c8] at h
        cases hg : getoptval argvec optind with
        | error e =>
          rw [hg] at h
          cases h
        | ok v =>
          rw [hg] at h
          simp only at h
          exact (ih _ _ _ h).trans rfl
      rw [if_neg c8] at h
      by_cases c9 : arg = "-e"
      · rw [if_pos c9] at h
        exact absurd c9 (hne arg hmem)
      rw [if_neg c9] at h
      by_cases c10 : arg = "-b"
      · rw [if_pos c10] at h
        cases hg : getoptval argvec optind with
        | error e =>
          rw [hg] at h
          cases h
        | ok v =>
          rw [hg] at h
          simp only at h
          exact (ih _ _ _ h).trans rfl
      rw [if_neg c10] at h
      by_cases c11 : arg = "-o"
      · rw [if_pos c11] at h
        cases hg : getoptval argvec optind with
        | error e =>
          rw [hg] at h
          cases h
        | ok v =>
          rw [hg] at h
          simp only at h
          exact (ih _ _ _ h).trans rfl
      rw [if_neg c11] at h
      by_cases c12 : arg.data.head? = some '-' ∧ arg.data.length > 1
      · rw [if_pos c12] at h
        cases h
      rw [if_neg c12] at h
      exact (ih _ _ _ h).trans rfl

theorem expand_lists_plain (readlistfile : String → List String) :
    ∀ (fuel : Nat) (kept rest lists : List String), rest.length < fuel →
      (∀ a ∈ rest, a.data.head? ≠ some '@') →
      expand_lists readlistfile fuel kept rest lists = .ok (kept ++ rest, lists) := by
  intro fuel
  induction fuel with
  | zero =>
    intro kept rest lists h
    omega
  | succ n ih =>
    intro kept rest lists hlen hplain
    cases rest with
    | nil => simp [expand_lists]
    | cons a rest =>
      rw [expand_lists, if_neg (hplain a (by simp)),
        ih _ _ _ (by simpa using hlen) (fun b hb => hplain b (by simp [hb]))]
      simp

theorem parameter_proc_returns_zero (strtoul : String → Nat)
    (readlistfile : String → List String) (fuel : Nat) (argvec : List String) (ret : Int)
    (o : Options) (h : (parameter_proc strtoul readlistfile fuel argvec).result = .ok (ret, o)) :
    ret = 0 := by
  unfold parameter_proc at h
  cases hargs : process_arguments strtoul argvec (argvec.length + 1) 1 Options.start with
  | error e =>
    rw [hargs] at h
    cases h
  | ok o1 =>
    rw [hargs] at h
    simp only at h
    by_cases c1 : o1.filelist = []
    · rw [if_pos c1] at h
      cases h
    rw [if_neg c1] at h
    by_cases c2 : o1.encoding ≠ 3 ∧ o1.encoding ≠ 10 ∧ o1.encoding ≠ 11
    · rw [if_pos c2] at h
      cases h
    rw [if_neg c2] at h
    cases hex : expand_lists readlistfile fuel [] o1.filelist [] with
    | error e =>
      rw [hex] at h
      cases h
    | ok q =>
      obtain ⟨filelist, lists⟩ := q
      rw [hex] at h
      simp only [Except.ok.injEq, Prod.mk.injEq] at h
      exact h.1.symm

theorem convert_files_calls {σ : Type} (binconvert : σ → String → Int × σ) :
    ∀ (files : List String) (st : σ),
      (convert_files binconvert files st).1.map Prod.fst = files
  | [], st => rfl
  | binfile :: rest, st => by
    unfold convert_files
    simp only [List.map_cons, List.cons.injEq, true_and]
    exact convert_files_calls binconvert rest _

theorem expand_lists_no_exit (readlistfile : String → List String) :
    ∀ (fuel : Nat) (kept rest lists : List String) (status : Int),
      expand_lists readlistfile fuel kept rest lists ≠ .error (.exit status) := by
  intro fuel
  induction fuel with
  | zero =>
    intro kept rest lists status h
    simp [expand_lists] at h
  | succ n ih =>
    intro kept rest lists status h
    cases rest with
    | nil => simp [expand_lists] at h
    | cons a rest =>
      rw [expand_lists] at h
      by_cases c1 : a.data.head? = some '@'
      · rw [if_pos c1] at h
        by_cases c2 : rest = []
        · rw [if_pos c2] at h
          cases h
        · rw [if_neg c2] at h
          exact ih _ _ _ _ h
      · rw [if_neg c1] at h
        exact ih _ _ _ _ h

theorem reader_bind_ok {α β : Type} (m : Reader α) (f : α → Reader β) (s : List Byte) (b : β)
    (r : List Byte) (h : (m >>= f) s = .ok (b, r)) :
    ∃ a r1, m s = .ok (a, r1) ∧ f a r1 = .ok (b, r) := by
  have h0 : Reader.bind m f s = .ok (b, r) := h
  unfold Reader.bind at h0
  cases hms : m s with
  | error e1 => simp [hms] at h0
  | ok p =>
    obtain ⟨a, r1⟩ := p
    simp only [hms] at h0
    exact ⟨a, r1, rfl, h0⟩

theorem readWords_length (e : ReadError) (swapflag : Bool) (n : Int) (s : List Byte)
    (ws : List Nat) (r : List Byte) (h : readWords e swapflag n s = .ok (ws, r)) :
    0 ≤ n ∧ (s.length : Int) = r.length + 4 * n ∧ (ws.length : Int) = n := by
  unfold readWords at h
  by_cases hn : n < 0
  · simp [hn] at h
  · simp only [hn, if_false] at h
    cases hf : fread4 n.toNat s with
    | none => simp [hf] at h
    | some p =>
      obtain ⟨ws1, r1⟩ := p
      simp only [hf, Except.ok.injEq, Prod.mk.injEq] at h
      obtain ⟨rfl, rfl⟩ := h
      obtain ⟨c, hc, hlen, -⟩ := fread4_append _ _ _ _ hf
      have hws := fread4_length _ _ _ _ hf
      refine ⟨by omega, ?_, ?_⟩
      · rw [hc, List.length_append]
        push_cast
        omega
      · split_ifs
        · simp only [List.length_map]
          omega
        · omega

theorem readWord_length (e : ReadError) (swapflag : Bool) (s : List Byte) (w : Nat)
    (r : List Byte) (h : readWord e swapflag s = .ok (w, r)) :
    (s.length : Int) = r.length + 4 ∧ w < 4294967296 := by
  refine ⟨?_, resultsIn_readWord e swapflag s w r h⟩
  rw [readWord_eq] at h
  match s, h with
  | b0 :: b1 :: b2 :: b3 :: r1, h =>
    simp only [Except.ok.injEq, Prod.mk.injEq] at h
    obtain ⟨-, rfl⟩ := h
    simp only [List.length_cons]
    push_cast
    omega

theorem malloc_ok (e : ReadError) (size : Int) (s : List Byte) (u : Unit) (r : List Byte)
    (h : malloc e size s = .ok (u, r)) : 0 ≤ size ∧ r = s := by
  unfold malloc at h
  by_cases hs : size < 0
  · simp [hs] at h
  · simp only [hs, if_false, Except.ok.injEq, Prod.mk.injEq] at h
    exact ⟨by omega, h.2.symm⟩

theorem reader_pure_ok {α : Type} (a b : α) (s r : List Byte)
    (h : (pure a : Reader α) s = .ok (b, r)) : b = a ∧ r = s := by
  have h0 : Reader.pure a s = .ok (b, r) := h
  unfold Reader.pure at h0
  simp only [Except.ok.injEq, Prod.mk.injEq] at h0
  exact ⟨h0.1.symm, h0.2.symm⟩

theorem read_header_fields_length (rl : Int) (swapflag : Bool) (s : List Byte) (hd : Header)
    (r : List Byte) (h : read_header_fields rl swapflag s = .ok (hd, r)) :
    hd.j1 = rl ∧ hd.swapflag = swapflag ∧
    -2147483648 ≤ hd.ngaps ∧ hd.ngaps < 2147483648 ∧
    0 ≤ wrap32 (wrap32 (3 * hd.ngaps) * 4) ∧
    (hd.gaps.length : Int) = wrap32 (3 * hd.ngaps) ∧
    (hd.itmp.length : Int) = wrap32 (1 + Int.tdiv rl 4 - 22 - wrap32 (3 * hd.ngaps)) ∧
    (s.length : Int) = r.length + 4 * (22 + (hd.gaps.length : Int) + hd.itmp.length) := by
  unfold read_header_fields at h
  obtain ⟨lat, r1, h1, h⟩ := reader_bind_ok _ _ _ _ _ h
  obtain ⟨lon, r2, h2, h⟩ := reader_bind_ok _ _ _ _ _ h
  obtain ⟨decl, r3, h3, h⟩ := reader_bind_ok _ _ _ _ _ h
  obtain ⟨dt, r4, h4, h⟩ := reader_bind_ok _ _ _ _ _ h
  obtain ⟨elev, r5, h5, h⟩ := reader_bind_ok _ _ _ _ _ h
  obtain ⟨start_time, r6, h6, h⟩ := reader_bind_ok _ _ _ _ _ h
  obtain ⟨clock_zero, r7, h7, h⟩ := reader_bind_ok _ _ _ _ _ h
  obtain ⟨nscans, r8, h8, h⟩ := reader_bind_ok _ _ _ _ _ h
  obtain ⟨gaptyp, r9, h9, h⟩ := reader_bind_ok _ _ _ _ _ h
  obtain ⟨flag, r10, h10, h⟩ := reader_bind_ok _ _ _ _ _ h
  obtain ⟨ngaps, r11, h11, h⟩ := reader_bind_ok _ _ _ _ _ h
  obtain ⟨u1, r12, h12, h⟩ := reader_bind_ok _ _ _ _ _ h
  obtain ⟨gaps, r13, h13, h⟩ := reader_bind_ok _ _ _ _ _ h
  obtain ⟨u2, r14, h14, h⟩ := reader_bind_ok _ _ _ _ _ h
  obtain ⟨itmp, r15, h15, h⟩ := reader_bind_ok _ _ _ _ _ h
  obtain ⟨j2, r16, h16, h⟩ := reader_bind_ok _ _ _ _ _ h
  obtain ⟨rfl, rfl⟩ := reader_pure_ok _ _ _ _ h
  have l1 := (readWord_length _ _ _ _ _ h1).1
  have l2 := (readWord_length _ _ _ _ _ h2).1
  have l3 := (readWord_length _ _ _ _ _ h3).1
  have l4 := (readWord_length _ _ _ _ _ h4).1
  have l5 := (readWord_length _ _ _ _ _ h5).1
  have l6 := (readWords_length _ _ _ _ _ _ h6).2.1
  have l7 := (readWords_length _ _ _ _ _ _ h7).2.1
  have l8 := (readWord_length _ _ _ _ _ h8).1
  have l9 := (readWord_length _ _ _ _ _ h9).1
  have l10 := (readWord_length _ _ _ _ _ h10).1
  have l11 := readWord_length _ _ _ _ _ h11
  have l12 := malloc_ok _ _ _ _ _ h12
  have l13 := readWords_length _ _ _ _ _ _ h13
  have l14 := malloc_ok _ _ _ _ _ h14
  have l15 := readWords_length _ _ _ _ _ _ h15
  have l16 := (readWord_length _ _ _ _ _ h16).1
  obtain ⟨k1, k2⟩ := toInt32_range ngaps l11.2
  rw [l12.2] at l13
  rw [l14.2] at l15
  refine ⟨rfl, rfl, k1, k2, l12.1, ?_, l15.2.2, ?_⟩
  · simp only [List.length_map]
    exact l13.2.2
  · simp only [List.length_map]
    omega

theorem read_header_length_ok (s : List Byte) (rl : Int) (swapflag : Bool) (r : List Byte)
    (h : read_header_length s = .ok ((rl, swapflag), r)) :
    (s.length : Int) = r.length + 4 ∧ ((76 ≤ rl ∧ rl ≤ 1295) ∨ rl = 5108) := by
  unfold read_header_length at h
  obtain ⟨w, r1, h1, h⟩ := reader_bind_ok _ _ _ _ _ h
  have l1 := (readWord_length _ _ _ _ _ h1).1
  rcases swapCheck_cases w r1 with ⟨hv, heq⟩ | ⟨-, hv, heq⟩ | ⟨-, -, heq⟩
  · rw [heq] at h
    simp only [Except.ok.injEq, Prod.mk.injEq] at h
    obtain ⟨⟨rfl, rfl⟩, rfl⟩ := h
    exact ⟨l1, (rlAccepted_iff _).1 ((specValidLength_iff _).1 hv)⟩
  · rw [heq] at h
    simp only [Except.ok.injEq, Prod.mk.injEq] at h
    obtain ⟨⟨rfl, rfl⟩, rfl⟩ := h
    exact ⟨l1, (rlAccepted_iff _).1 ((specValidLength_iff _).1 hv)⟩
  · rw [heq] at h
    cases h

theorem read_header_split (s : List Byte) :
    read_header s =
      match read_header_length s with
      | .error e => .error e
      | .ok ((rl, swapflag), r) => read_header_fields rl swapflag r := by
  have h0 : read_header s = Reader.bind (readWord .headerLengthRecord false)
      (fun rl => Reader.bind (swapCheck rl) (fun p => read_header_fields p.1 p.2)) s := rfl
  have h1 : read_header_length s = Reader.bind (readWord .headerLengthRecord false)
      (fun rl => swapCheck rl) s := rfl
  rw [h0, h1]
  unfold Reader.bind
  cases readWord .headerLengthRecord false s with
  | error e => rfl
  | ok p =>
    obtain ⟨w, r1⟩ := p
    simp only
    cases swapCheck w r1 with
    | error e => rfl
    | ok q =>
      obtain ⟨⟨rl, sw⟩, r2⟩ := q
      rfl

theorem read_header_framing (s : List Byte) (hd : Header) (r : List Byte)
    (h : read_header s = .ok (hd, r)) :
    ((76 ≤ hd.j1 ∧ hd.j1 ≤ 1295) ∨ hd.j1 = 5108) ∧
    -2147483648 ≤ hd.ngaps ∧ hd.ngaps < 2147483648 ∧
    (hd.gaps.length : Int) = wrap32 (3 * hd.ngaps) ∧
    (hd.itmp.length : Int) = wrap32 (1 + Int.tdiv hd.j1 4 - 22 - wrap32 (3 * hd.ngaps)) ∧
    (hd.gaps.length : Int) + hd.itmp.length + 21 = Int.tdiv hd.j1 4 ∧
    (s.length : Int) = r.length + 8 + 4 * Int.tdiv hd.j1 4 := by
  rw [read_header_split] at h
  cases hl : read_header_length s with
  | error e =>
    rw [hl] at h
    cases h
  | ok q =>
    obtain ⟨⟨rl, sw⟩, r1⟩ := q
    rw [hl] at h
    simp only at h
    obtain ⟨l0, hrl⟩ := read_header_length_ok s rl sw r1 hl
    obtain ⟨rfl, -, k1, k2, hm, hg, hi, hlen⟩ := read_header_fields_length rl sw r1 hd r h
    have hdiv : 19 ≤ Int.tdiv hd.j1 4 ∧ Int.tdiv hd.j1 4 ≤ 1277 := by
      rw [tdiv_pos_lit _ 4 (by decide)]
      split_ifs <;> omega
    have hsum : (hd.gaps.length : Int) + hd.itmp.length + 21 = Int.tdiv hd.j1 4 := by
      generalize Int.tdiv hd.j1 4 = q at hdiv hi
      have hg0 : (0 : Int) ≤ hd.gaps.length := Int.ofNat_nonneg _
      have hi0 : (0 : Int) ≤ hd.itmp.length := Int.ofNat_nonneg _
      have hgr : (hd.gaps.length : Int) < 2147483648 := by
        rw [hg]
        unfold wrap32
        omega
      rw [← hg] at hi hm
      unfold wrap32 at hi hm
      omega
    refine ⟨hrl, k1, k2, hg, hi, hsum, ?_⟩
    omega

theorem read_data_block_length (swapflag : Bool) (s : List Byte) (d : DataBlock)
    (r : List Byte) (h : read_data_block swapflag s = .ok (d, r)) :
    0 ≤ d.rl ∧ (s.length : Int) = r.length + 8 + 4 * Int.tdiv d.rl 4 := by
  unfold read_data_block at h
  obtain ⟨rl, r1, h1, h⟩ := reader_bind_ok _ _ _ _ _ h
  obtain ⟨u, r2, h2, h⟩ := reader_bind_ok _ _ _ _ _ h
  obtain ⟨data, r3, h3, h⟩ := reader_bind_ok _ _ _ _ _ h
  obtain ⟨j2, r4, h4, h⟩ := reader_bind_ok _ _ _ _ _ h
  obtain ⟨rfl, rfl⟩ := reader_pure_ok _ _ _ _ h
  have l1 := (readWord_length _ _ _ _ _ h1).1
  have l2 := malloc_ok _ _ _ _ _ h2
  have l3 := readWords_length _ _ _ _ _ _ h3
  have l4 := (readWord_length _ _ _ _ _ h4).1
  rw [l2.2] at l3
  refine ⟨l2.1, ?_⟩
  simp only
  omega

theorem agreeOff_mono {D D' : Nat → Prop} {s s' : List Byte} (hD : ∀ i, D i → D' i)
    (h : AgreeOff D s s') : AgreeOff D' s s' :=
  ⟨h.1, fun i hi => h.2 i (fun hd => hi (hD i hd))⟩

theorem agreeOff_refl (D : Nat → Prop) (s : List Byte) : AgreeOff D s s :=
  ⟨rfl, fun _ _ => rfl⟩

theorem agreeOff_eq {D : Nat → Prop} {s s' : List Byte} (hD : ∀ i, ¬ D i)
    (h : AgreeOff D s s') : s = s' :=
  List.ext_getElem? (fun i => h.2 i (hD i))

theorem agreeOff_cons {D : Nat → Prop} {b b' : Byte} {t t' : List Byte}
    (h : AgreeOff D (b :: t) (b' :: t')) :
    (¬ D 0 → b = b') ∧ AgreeOff (fun i => D (i + 1)) t t' := by
  refine ⟨fun h0 => ?_, ?_, fun i hi => ?_⟩
  · have := h.2 0 h0
    simpa using this
  · have := h.1
    simpa using this
  · have := h.2 (i + 1) hi
    simpa using this

theorem fread4_agree : ∀ (n : Nat) (D : Nat → Prop) (s s' : List Byte), AgreeOff D s s' →
    (fread4 n s = none → fread4 n s' = none) ∧
    (∀ ws r, fread4 n s = some (ws, r) →
      ∃ ws' r', fread4 n s' = some (ws', r') ∧ AgreeOff (fun i => D (i + 4 * n)) r r' ∧
        ((∀ i, i < 4 * n → ¬ D i) → ws' = ws))
  | 0, D, s, s', h => by
    refine ⟨fun h0 => by simp [fread4] at h0, fun ws r h0 => ?_⟩
    simp only [fread4, Option.some.injEq, Prod.mk.injEq] at h0
    obtain ⟨rfl, rfl⟩ := h0
    exact ⟨[], s', rfl, h, fun _ => rfl⟩
  | n + 1, D, s, s', h => by
    have hshort : s.length < 4 → fread4 (n + 1) s = none ∧ fread4 (n + 1) s' = none := by
      intro hl
      exact ⟨fread4_short _ _ (by omega), fread4_short _ _ (by rw [← h.1]; omega)⟩
    match s, s', h, hshort with
    | [], _, h, hshort =>
      obtain ⟨h1, h2⟩ := hshort (by simp)
      exact ⟨fun _ => h2, fun ws r h0 => by rw [h1] at h0; cases h0⟩
    | [_], _, h, hshort =>
      obtain ⟨h1, h2⟩ := hshort (by simp)
      exact ⟨fun _ => h2, fun ws r h0 => by rw [h1] at h0; cases h0⟩
    | [_, _], _, h, hshort =>
      obtain ⟨h1, h2⟩ := hshort (by simp)
      exact ⟨fun _ => h2, fun ws r h0 => by rw [h1] at h0; cases h0⟩
    | [_, _, _], _, h, hshort =>
      obtain ⟨h1, h2⟩ := hshort (by simp)
      exact ⟨fun _ => h2, fun ws r h0 => by rw [h1] at h0; cases h0⟩
    | b0 :: b1 :: b2 :: b3 :: t, [], h, _ =>
      have := h.1
      simp at this
    | b0 :: b1 :: b2 :: b3 :: t, [_], h, _ =>
      have := h.1
      simp at this
    | b0 :: b1 :: b2 :: b3 :: t, [_, _], h, _ =>
      have := h.1
      simp at this
    | b0 :: b1 :: b2 :: b3 :: t, [_, _, _], h, _ =>
      have := h.1
      simp at this
    | b0 :: b1 :: b2 :: b3 :: t, c0 :: c1 :: c2 :: c3 :: t', h, _ =>
      obtain ⟨e0, h⟩ := agreeOff_cons h
      obtain ⟨e1, h⟩ := agreeOff_cons h
      obtain ⟨e2, h⟩ := agreeOff_cons h
      obtain ⟨e3, h⟩ := agreeOff_cons h
      obtain ⟨ihn, ihs⟩ := fread4_agree n (fun i => D (i + 1 + 1 + 1 + 1)) t t' h
      constructor
      · intro h0
        cases hf : fread4 n t with
        | none => simp [fread4, ihn hf]
        | some p => simp [fread4, hf] at h0
      · intro ws r h0
        cases hf : fread4 n t with
        | none => simp [fread4, hf] at h0
        | some p =>
          obtain ⟨ws1, r1⟩ := p
          simp only [fread4, hf, Option.some.injEq, Prod.mk.injEq] at h0
          obtain ⟨rfl, rfl⟩ := h0
          obtain ⟨ws', r', hf', hag, hval⟩ := ihs ws1 r1 hf
          refine ⟨hostWord c0 c1 c2 c3 :: ws', r', by simp [fread4, hf'], ?_, ?_⟩
          · refine agreeOff_mono (fun i hi => ?_) hag
            have e : i + 4 * n + 1 + 1 + 1 + 1 = i + 4 * (n + 1) := by omega
            rw [← e]
            exact hi
          · intro hD
            rw [e0 (hD 0 (by omega)), e1 (hD 1 (by omega)), e2 (hD 2 (by omega)),
              e3 (hD 3 (by omega)), hval (fun i hi => hD (i + 1 + 1 + 1 + 1) (by omega))]

theorem sameOff_bind {α β : Type} {D D1 D2 : Nat → Prop} {R : α → α → Prop}
    {Q : β → β → Prop} {m m' : Reader α} {f f' : α → Reader β}
    (hm : SameOff D D1 R m m') (hf : ∀ a a', R a a' → SameOff D1 D2 Q (f a) (f' a')) :
    SameOff D D2 Q (m >>= f) (m' >>= f') := by
  intro s s' hs
  obtain ⟨he, hok⟩ := hm s s' hs
  show (∀ e, Reader.bind m f s = .error e → Reader.bind m' f' s' = .error e) ∧
    (∀ b r, Reader.bind m f s = .ok (b, r) →
      ∃ b' r', Reader.bind m' f' s' = .ok (b', r') ∧ Q b b' ∧ AgreeOff D2 r r')
  unfold Reader.bind
  cases hms : m s with
  | error e =>
    rw [he e hms]
    exact ⟨fun e' h => h, fun b r h => by cases h⟩
  | ok p =>
    obtain ⟨a, r1⟩ := p
    obtain ⟨a', r1', hm', hR, hag⟩ := hok a r1 hms
    rw [hm']
    exact hf a a' hR r1 r1' hag

theorem sameOff_pure {α : Type} {D : Nat → Prop} {R : α → α → Prop} {a a' : α}
    (h : R a a') : SameOff D D R (pure a) (pure a') := by
  intro s s' hs
  refine ⟨fun e he => (by cases he), fun b r hb => ?_⟩
  have h0 : Except.ok (a, s) = Except.ok (b, r) := hb
  simp only [Except.ok.injEq, Prod.mk.injEq] at h0
  obtain ⟨rfl, rfl⟩ := h0
  exact ⟨a', s', rfl, h, hs⟩

theorem sameOff_weaken {α : Type} {D0 D D' : Nat → Prop} {R : α → α → Prop}
    {m m' : Reader α} (hD : ∀ i, D0 i → D i) (h : SameOff D D' R m m') :
    SameOff D0 D' R m m' :=
  fun s s' hs => h s s' (agreeOff_mono hD hs)

theorem sameOff_same {α : Type} (m : Reader α) :
    SameOff (fun _ => False) (fun _ => False) (fun a a' => a = a') m m := by
  intro s s' hs
  have := agreeOff_eq (fun _ h => h) hs
  subst this
  exact ⟨fun e he => he, fun a r ha => ⟨a, r, ha, rfl, agreeOff_refl _ _⟩⟩

theorem sameOff_fails {α : Type} {D D' : Nat → Prop} {R : α → α → Prop} {m m' : Reader α}
    (e : ReadError) (h : ∀ s, m s = .error e) (h' : ∀ s, m' s = .error e) :
    SameOff D D' R m m' := by
  intro s s' _
  refine ⟨fun e1 he => ?_, fun a r ha => ?_⟩
  · rw [h s] at he
    rw [h' s', ← he]
  · rw [h s] at ha
    cases ha

theorem sameOff_readWords (e : ReadError) (swapflag : Bool) (n : Int) (D : Nat → Prop) :
    SameOff D (fun i => D (i + 4 * n.toNat))
      (fun ws ws' => (∀ i, i < 4 * n.toNat → ¬ D i) → ws' = ws)
      (readWords e swapflag n) (readWords e swapflag n) := by
  intro s s' hs
  obtain ⟨hnone, hsome⟩ := fread4_agree n.toNat D s s' hs
  unfold readWords
  by_cases hn : n < 0
  · simp [hn]
  · simp only [hn, if_false]
    cases hf : fread4 n.toNat s with
    | none =>
      rw [hnone hf]
      exact ⟨fun e1 he => he, fun a r ha => by cases ha⟩
    | some p =>
      obtain ⟨ws, r⟩ := p
      obtain ⟨ws', r', hf', hag, hval⟩ := hsome ws r hf
      rw [hf']
      refine ⟨fun e1 he => (by cases he), fun a r1 ha => ?_⟩
      simp only [Except.ok.injEq, Prod.mk.injEq] at ha
      obtain ⟨rfl, rfl⟩ := ha
      exact ⟨_, r', rfl, fun hD => by rw [hval hD], hag⟩

theorem sameOff_readWord (e : ReadError) (swapflag : Bool) (D : Nat → Prop) :
    SameOff D (fun i => D (i + 4)) (fun w w' => (∀ i, i < 4 → ¬ D i) → w' = w)
      (readWord e swapflag) (readWord e swapflag) := by
  intro s s' hs
  obtain ⟨hnone, hsome⟩ := fread4_agree 1 D s s' hs
  unfold readWord
  cases hf : fread4 1 s with
  | none =>
    rw [hnone hf]
    exact ⟨fun e1 he => he, fun a r ha => by cases ha⟩
  | some p =>
    obtain ⟨ws, r⟩ := p
    obtain ⟨ws', r', hf', hag, hval⟩ := hsome ws r hf
    rw [hf']
    have l1 := fread4_length _ _ _ _ hf
    have l2 := fread4_length _ _ _ _ hf'
    match ws, ws', l1, l2, hval with
    | [w], [w'], _, _, hval =>
      simp only
      refine ⟨fun e1 he => (by cases he), fun a r1 ha => ?_⟩
      simp only [Except.ok.injEq, Prod.mk.injEq] at ha
      obtain ⟨rfl, rfl⟩ := ha
      refine ⟨_, r', rfl, fun hD => ?_, hag⟩
      have := hval hD
      simp only [List.cons.injEq, and_true] at this
      rw [this]

theorem sameOff_malloc (e : ReadError) (size : Int) (D : Nat → Prop) :
    SameOff D D (fun _ _ => 0 ≤ size) (malloc e size) (malloc e size) := by
  intro s s' hs
  unfold malloc
  by_cases h : size < 0
  · simp [h]
  · simp only [h, if_false]
    refine ⟨fun e1 he => (by cases he), fun a r ha => ?_⟩
    simp only [Except.ok.injEq, Prod.mk.injEq] at ha
    obtain ⟨-, rfl⟩ := ha
    exact ⟨(), s', rfl, by omega, hs⟩

theorem readWords_neg_bind {β : Type} (e : ReadError) (swapflag : Bool) (n : Int) (hn : n < 0)
    (f : List Nat → Reader β) (s : List Byte) :
    (readWords e swapflag n >>= f) s = .error e := by
  show Reader.bind (readWords e swapflag n) f s = .error e
  unfold Reader.bind readWords
  simp [hn]

theorem sameOff_read_header_fields (rl : Int) (swapflag : Bool) (hrl : rl ≤ 5108) :
    SameOff (fun i => unusedOffset rl (i + 4) = true) (fun _ => False)
      (fun h h' => h'.swapflag = h.swapflag ∧ h'.j1 = h.j1 ∧ h'.dt = h.dt ∧
        h'.start_time = h.start_time ∧ h'.nscans = h.nscans ∧
        h'.missingdataflag = h.missingdataflag ∧ h'.ngaps = h.ngaps ∧ h'.j2 = h.j2)
      (read_header_fields rl swapflag) (read_header_fields rl swapflag) := by
  have hq : Int.tdiv rl 4 ≤ 1277 := by
    rw [tdiv_pos_lit _ 4 (by decide)]
    split_ifs <;> omega
  unfold read_header_fields
  refine sameOff_bind (sameOff_readWord _ _ _) ?_; intro lat lat' _
  refine sameOff_bind (sameOff_readWord _ _ _) ?_; intro lon lon' _
  refine sameOff_bind (sameOff_readWord _ _ _) ?_; intro decl decl' _
  refine sameOff_bind (sameOff_readWord _ _ _) ?_; intro dt dt' hdt
  obtain rfl := hdt (by
    intro i hi
    simp only [unusedOffset, decide_eq_true_eq]
    omega)
  refine sameOff_bind (sameOff_readWord _ _ _) ?_; intro elev elev' _
  refine sameOff_bind (sameOff_readWords _ _ _ _) ?_; intro start_time start_time' hst
  obtain rfl := hst (by
    intro i hi
    simp only [unusedOffset, decide_eq_true_eq]
    have : (6 : Int).toNat = 6 := rfl
    omega)
  refine sameOff_bind (sameOff_readWords _ _ _ _) ?_; intro clock_zero clock_zero' _
  refine sameOff_bind (sameOff_readWord _ _ _) ?_; intro nscans nscans' hns
  have h6 : (6 : Int).toNat = 6 := rfl
  obtain rfl := hns (by
    intro i hi
    simp only [unusedOffset, decide_eq_true_eq, h6]
    omega)
  refine sameOff_bind (sameOff_readWord _ _ _) ?_; intro gaptyp gaptyp' _
  refine sameOff_bind (sameOff_readWord _ _ _) ?_; intro flag flag' hflag
  obtain rfl := hflag (by
    intro i hi
    simp only [unusedOffset, decide_eq_true_eq, h6]
    omega)
  refine sameOff_bind (sameOff_readWord _ _ _) ?_; intro ngaps ngaps' hng
  obtain rfl := hng (by
    intro i hi
    simp only [unusedOffset, decide_eq_true_eq, h6]
    omega)
  refine sameOff_bind (sameOff_malloc _ _ _) ?_; intro _ _ _
  by_cases hg : wrap32 (3 * toInt32 ngaps') < 0
  · exact sameOff_fails .gapInformation (fun s => readWords_neg_bind _ _ _ hg _ s)
      (fun s => readWords_neg_bind _ _ _ hg _ s)
  refine sameOff_bind (sameOff_readWords _ _ _ _) ?_; intro gaps gaps' _
  refine sameOff_bind (sameOff_malloc _ _ _) ?_; intro _ _ _
  refine sameOff_bind (sameOff_readWords _ _ _ _) ?_; intro itmp itmp' _
  refine sameOff_weaken (D := fun _ => False) ?_ ?_
  · intro i hi
    simp only [unusedOffset, decide_eq_true_eq, h6] at hi
    generalize Int.tdiv rl 4 = q at hq hi
    generalize hg3 : wrap32 (3 * toInt32 ngaps') = g3 at hg hi
    have h1 : ((g3.toNat : Nat) : Int) = g3 := Int.toNat_of_nonneg (by omega)
    have h2 := Int.self_le_toNat (wrap32 (1 + q - 22 - g3))
    have h3 : 1 + q - 22 - g3 ≤ wrap32 (1 + q - 22 - g3) := by
      unfold wrap32
      omega
    omega
  refine sameOff_bind (sameOff_readWord _ _ _) ?_; intro j2 j2' hj2
  obtain rfl := hj2 (fun _ _ h => h)
  exact sameOff_pure ⟨rfl, rfl, rfl, rfl, rfl, rfl, rfl, rfl⟩

theorem sameOff_swapCheck (w : Nat) (D : Nat → Prop) :
    SameOff D D (fun a a' => a' = a) (swapCheck w) (swapCheck w) := by
  unfold swapCheck
  split_ifs
  · exact sameOff_pure rfl
  · exact sameOff_pure rfl
  · exact sameOff_fails .headerLengthInvalid (fun _ => rfl) (fun _ => rfl)

theorem sameOff_read_header_length (D : Nat → Prop) (hD : ∀ i, i < 4 → ¬ D i) :
    SameOff D (fun i => D (i + 4)) (fun a a' => a' = a) read_header_length
      read_header_length := by
  unfold read_header_length
  refine sameOff_bind (sameOff_readWord _ _ _) ?_; intro w w' hw
  obtain rfl := hw hD
  exact sameOff_swapCheck _ _

theorem differOnlyUnused_agree (f f' : List Byte) (h : differOnlyUnused f f' = true) :
    AgreeOff (fun i => unusedOffset (headerLengthOf f) i = true) f f' := by
  unfold differOnlyUnused at h
  simp only [Bool.and_eq_true, beq_iff_eq, List.all_eq_true, List.mem_range,
    Bool.or_eq_true] at h
  obtain ⟨hlen, h⟩ := h
  refine ⟨hlen, fun i hi => ?_⟩
  by_cases hlt : i < f.length
  · rcases h i hlt with h1 | h1
    · exact absurd h1 hi
    · exact h1
  · rw [List.getElem?_eq_none (by omega), List.getElem?_eq_none (by omega)]

theorem read_bin_file_unused (f f' : List Byte) (h : differOnlyUnused f f' = true) :
    read_bin_file f' = read_bin_file f := by
  have hag := differOnlyUnused_agree f f' h
  have hD4 : ∀ i, i < 4 → ¬ (unusedOffset (headerLengthOf f) i = true) := by
    intro i hi
    simp only [unusedOffset, decide_eq_true_eq]
    omega
  obtain ⟨herr0, hok⟩ := sameOff_read_header_length _ hD4 f f' hag
  rw [read_bin_file_eq, read_bin_file_eq, read_header_split f, read_header_split f']
  cases hl : read_header_length f with
  | error e =>
    rw [herr0 e hl]
  | ok q =>
    obtain ⟨⟨rl, sw⟩, r1⟩ := q
    obtain ⟨a', r1', hl', ha', hag1⟩ := hok _ _ hl
    subst ha'
    have hrl0 : headerLengthOf f = rl := by
      unfold headerLengthOf
      rw [hl]
    rw [hrl0] at hag1
    have hrl : rl ≤ 5108 := by
      have := (read_header_length_ok f rl sw r1 hl).2
      omega
    obtain ⟨herr, hfields⟩ := sameOff_read_header_fields rl sw hrl r1 r1' hag1
    rw [hl']
    simp only
    cases hh : read_header_fields rl sw r1 with
    | error e =>
      rw [herr e hh]
    | ok q =>
      obtain ⟨hd, s1⟩ := q
      obtain ⟨hd', s1', hh', ⟨e1, e2, e3, e4, e5, e6, -, e8⟩, hag2⟩ := hfields hd s1 hh
      have hs : s1 = s1' := agreeOff_eq (fun _ hf => hf) hag2
      subst hs
      rw [hh']
      simp only [e1, e2, e3, e4, e5, e6, e8]

theorem differOnlyUnused_of_agree (f f' : List Byte) (hlen : f.length = f'.length)
    (h : ∀ i, unusedOffset (headerLengthOf f) i = false → f[i]? = f'[i]?) :
    differOnlyUnused f f' = true := by
  unfold differOnlyUnused
  simp only [Bool.and_eq_true, beq_iff_eq, List.all_eq_true, List.mem_range,
    Bool.or_eq_true]
  refine ⟨hlen, fun i _ => ?_⟩
  cases hu : unusedOffset (headerLengthOf f) i with
  | true => exact Or.inl rfl
  | false => exact Or.inr (h i hu)

theorem packRuns_head {σ : Type} (packmsr : σ → Segment → Int × σ) (chan : String)
    (r : Nat × List Int) (rest : List (Nat × List Int)) (st : σ) :
    (packRuns packmsr chan (r :: rest) st).1.head? = some (runSegment chan r) := by
  obtain ⟨s, run⟩ := r
  unfold packRuns
  split_ifs <;> rfl

theorem convert_channels_first_run {σ : Type} (packmsr : σ → Segment → Int × σ)
    (samprate : CFloat) (idata : List Int) (n : Nat) (flag : Int) (b : Char)
    (hlen : idata.length = 5 * n) (hb : bandCode samprate = some b) :
    ∀ (fuel ch : Nat) (st : σ) (segs : List Segment) (st1 : σ),
      convert_channels packmsr samprate idata (n : Int) flag fuel ch st = .ok (segs, st1) →
      ∀ (c : Nat) (seg : Segment), ch ≤ c → c < 5 → c - ch < fuel →
        (referenceSegments idata n c flag
          (String.mk (b :: specSuffix ((c : Int) + 1)))).head? = some seg →
        seg ∈ segs
  | 0, ch, st, segs, st1, _, c, seg, _, _, hf, _ => by omega
  | fuel + 1, ch, st, segs, st1, h, c, seg, hle, hc, hf, hhead => by
    have hch : ch < 5 := by omega
    rw [convert_channels_succ packmsr samprate idata _ flag b hb fuel ch hch st] at h
    have heq := extract_channel_eq packmsr idata n ch flag
      (String.mk (b :: specSuffix ((ch : Int) + 1))) hlen hch (n + 1) 0 st
      (Nat.zero_le _) (by omega) (Or.inl rfl)
    have hn1 : ((n : Int)).toNat + 1 = n + 1 := by simp
    rw [hn1, heq] at h
    simp only at h
    cases hrec : convert_channels packmsr samprate idata (n : Int) flag fuel (ch + 1)
        (packRuns packmsr (String.mk (b :: specSuffix ((ch : Int) + 1)))
          (runsFrom (validSample flag) (column idata n ch) 0) st).2 with
    | error f =>
      rw [hrec] at h
      cases h
    | ok q =>
      obtain ⟨segs2, st2⟩ := q
      rw [hrec] at h
      simp only [Except.ok.injEq, Prod.mk.injEq] at h
      obtain ⟨rfl, rfl⟩ := h
      by_cases hcc : c = ch
      · subst hcc
        apply List.mem_append_left
        have hruns : runsFrom (validSample flag) (column idata n c) 0 =
            maximalRuns (validSample flag) (column idata n c) := by
          unfold runsFrom maximalRuns
          rw [List.range_eq_range', Nat.sub_zero]
        rw [hruns]
        unfold referenceSegments at hhead
        cases hm : maximalRuns (validSample flag) (column idata n c) with
        | nil =>
          rw [hm] at hhead
          simp at hhead
        | cons r rest =>
          rw [hm] at hhead
          simp only [List.map_cons, List.head?_cons, Option.some.injEq] at hhead
          have := packRuns_head packmsr (String.mk (b :: specSuffix ((c : Int) + 1))) r rest st
          rw [hhead] at this
          exact List.mem_of_mem_head? this
      · apply List.mem_append_right
        exact convert_channels_first_run packmsr samprate idata n flag b hlen hb fuel (ch + 1)
          _ _ _ hrec c seg (by omega) hc (by omega) hhead

theorem roundHalfEven_err (y : ℚ) : |(roundHalfEven y : ℚ) - y| ≤ 1 / 2 := by
  have h1 : ((⌊y⌋ : Int) : ℚ) ≤ y := Int.floor_le y
  have h2 : y < ((⌊y⌋ : Int) : ℚ) + 1 := Int.lt_floor_add_one y
  unfold roundHalfEven
  rw [abs_le]
  split_ifs with c1 c2
  · constructor <;> linarith
  · constructor <;> linarith [c2.1]
  · push_cast
    constructor <;> linarith

theorem toDouble_err (x : ℚ) : |toDouble x - x| ≤ |x| / 2 ^ 53 := by
  by_cases hx : x = 0
  · simp [hx, toDouble]
  have hpos : (0 : ℚ) < |x| := abs_pos.2 hx
  have hk : ((2 : ℕ) : ℚ) ^ Int.log 2 |x| ≤ |x| := Int.zpow_log_le_self (by norm_num) hpos
  unfold toDouble
  rw [if_neg hx]
  generalize Int.log 2 |x| = L at hk
  have hu : (0 : ℚ) < 2 ^ (L - 52) := by positivity
  have herr := roundHalfEven_err (x / 2 ^ (L - 52))
  have heq : (roundHalfEven (x / 2 ^ (L - 52)) : ℚ) * 2 ^ (L - 52) - x =
      ((roundHalfEven (x / 2 ^ (L - 52)) : ℚ) - x / 2 ^ (L - 52)) * 2 ^ (L - 52) := by
    field_simp
  rw [heq, abs_mul, abs_of_pos hu]
  have h53 : (2 : ℚ) ^ (L - 52) = 2 ^ L / 2 ^ 52 := by
    rw [zpow_sub₀ (by norm_num : (2 : ℚ) ≠ 0)]
    norm_num
  have hk2 : (2 : ℚ) ^ L ≤ |x| := by simpa using hk
  calc |(roundHalfEven (x / 2 ^ (L - 52)) : ℚ) - x / 2 ^ (L - 52)| * 2 ^ (L - 52)
      ≤ 1 / 2 * 2 ^ (L - 52) := mul_le_mul_of_nonneg_right herr hu.le
    _ = 2 ^ L / 2 ^ 53 := by
        rw [h53]
        norm_num
        ring
    _ ≤ |x| / 2 ^ 53 := by
        apply div_le_div_of_nonneg_right hk2
        positivity

theorem toDouble_err_half (x : ℚ) (hx : |x| < 2 ^ 53) : |toDouble x - x| ≤ 1 / 2 := by
  by_cases h0 : x = 0
  · simp [h0, toDouble]
  have hpos : (0 : ℚ) < |x| := abs_pos.2 h0
  have hk : ((2 : ℕ) : ℚ) ^ Int.log 2 |x| ≤ |x| := Int.zpow_log_le_self (by norm_num) hpos
  have hlt : (2 : ℚ) ^ Int.log 2 |x| < 2 ^ (53 : Int) := by
    have : (2 : ℚ) ^ Int.log 2 |x| ≤ |x| := by simpa using hk
    calc (2 : ℚ) ^ Int.log 2 |x| ≤ |x| := this
      _ < 2 ^ 53 := hx
      _ = 2 ^ (53 : Int) := by norm_num
  have hL : Int.log 2 |x| < 53 := (zpow_lt_zpow_iff_right₀ (by norm_num : (1 : ℚ) < 2)).1 hlt
  unfold toDouble
  rw [if_neg h0]
  generalize Int.log 2 |x| = L at hL
  have hu : (0 : ℚ) < 2 ^ (L - 52) := by positivity
  have hu1 : (2 : ℚ) ^ (L - 52) ≤ 1 := by
    have : (2 : ℚ) ^ (L - 52) ≤ 2 ^ (0 : Int) :=
      (zpow_le_zpow_iff_right₀ (by norm_num : (1 : ℚ) < 2)).2 (by omega)
    simpa using this
  have herr := roundHalfEven_err (x / 2 ^ (L - 52))
  have heq : (roundHalfEven (x / 2 ^ (L - 52)) : ℚ) * 2 ^ (L - 52) - x =
      ((roundHalfEven (x / 2 ^ (L - 52)) : ℚ) - x / 2 ^ (L - 52)) * 2 ^ (L - 52) := by
    field_simp
  rw [heq, abs_mul, abs_of_pos hu]
  calc |(roundHalfEven (x / 2 ^ (L - 52)) : ℚ) - x / 2 ^ (L - 52)| * 2 ^ (L - 52)
      ≤ 1 / 2 * 1 := mul_le_mul herr hu1 hu.le (by norm_num)
    _ = 1 / 2 := by norm_num

theorem truncate_err (x : ℚ) : |(truncate x : ℚ) - x| < 1 := by
  unfold truncate
  rw [abs_lt]
  split_ifs
  · have h1 : ((⌊x⌋ : Int) : ℚ) ≤ x := Int.floor_le x
    have h2 : x < ((⌊x⌋ : Int) : ℚ) + 1 := Int.lt_floor_add_one x
    constructor <;> linarith
  · have h1 : x ≤ ((⌈x⌉ : Int) : ℚ) := Int.le_ceil x
    have h2 : ((⌈x⌉ : Int) : ℚ) < x + 1 := Int.ceil_lt_add_one x
    constructor <;> linarith

theorem segment_starttime_near (starttime : Int) (startidx : Nat) (samprate : ℚ)
    (hr : 0 < samprate) (ht : |starttime| < 2 ^ 52)
    (hticks : (startidx : ℚ) / samprate * 1000000 < 2 ^ 50) :
    ∃ t : Int, segment_starttime starttime startidx samprate = some t ∧
      |(t : ℚ) - (starttime + (startidx : ℚ) / samprate * 1000000)| < 2 := by
  have hq0 : (0 : ℚ) ≤ (startidx : ℚ) / samprate := by positivity
  have e1 := toDouble_err ((startidx : ℚ) / samprate)
  rw [abs_of_nonneg hq0] at e1
  have e2 := toDouble_err (toDouble ((startidx : ℚ) / samprate) * HPTMODULUS)
  have e3 := toDouble_exact starttime 0 (lt_trans ht (by norm_num))
  simp only [zpow_zero, mul_one] at e3
  have htq : |(starttime : ℚ)| < 2 ^ 52 := by
    have : ((|starttime| : Int) : ℚ) < ((2 ^ 52 : Int) : ℚ) := by exact_mod_cast ht
    simpa using this
  unfold segment_starttime
  simp only [e3]
  unfold HPTMODULUS at e2 ⊢
  generalize (startidx : ℚ) / samprate = q at hq0 e1 e2 hticks ⊢
  generalize toDouble q = a at e1 e2 ⊢
  have hp : |a * 1000000| ≤ q * 1000000 + q * 1000000 / 2 ^ 53 := by
    rw [abs_le] at e1 ⊢
    constructor <;> nlinarith [e1.1, e1.2]
  generalize toDouble (a * 1000000) = b at e2 ⊢
  have e2' : |b - a * 1000000| ≤ (q * 1000000 + q * 1000000 / 2 ^ 53) / 2 ^ 53 :=
    le_trans e2 (div_le_div_of_nonneg_right hp (by positivity))
  have hbE : |b - q * 1000000| < 3 / 8 := by
    rw [abs_le] at e1 e2'
    rw [abs_lt]
    norm_num at e1 e2' hticks ⊢
    constructor <;> linarith [e1.1, e1.2, e2'.1, e2'.2]
  have hz : |(starttime : ℚ) + b| < 2 ^ 53 := by
    rw [abs_lt] at htq hbE ⊢
    norm_num at htq hbE hticks ⊢
    constructor <;> linarith [htq.1, htq.2, hbE.1, hbE.2]
  have e4 := toDouble_err_half ((starttime : ℚ) + b) hz
  generalize toDouble ((starttime : ℚ) + b) = w at e4 ⊢
  have e5 := truncate_err w
  have hfinal : |(truncate w : ℚ) - (starttime + q * 1000000)| < 2 := by
    rw [abs_le] at e4
    rw [abs_lt] at e5 hbE ⊢
    constructor <;> linarith [e4.1, e4.2, e5.1, e5.2, hbE.1, hbE.2]
  have hrange : |(truncate w : ℚ)| < 2 ^ 54 := by
    rw [abs_lt] at hfinal htq ⊢
    norm_num at hfinal htq hticks ⊢
    constructor <;> linarith [hfinal.1, hfinal.2, htq.1, htq.2]
  have hrz : |truncate w| < 2 ^ 54 := by
    have : ((|truncate w| : Int) : ℚ) < ((2 ^ 54 : Int) : ℚ) := by
      push_cast
      exact hrange
    exact_mod_cast this
  rw [abs_lt] at hrz
  refine ⟨truncate w, ?_, hfinal⟩
  rw [if_pos]
  constructor <;> omega

theorem bandCode_fin_none (q : ℚ) :
    bandCode (.fin q) = none ↔ (1 / 1000000 ≤ q ∧ q < 1 / 100000) ∨ 80 ≤ q := by
  unfold bandCode
  simp only [CFloat.geLit, CFloat.ltLit, Bool.and_eq_true, decide_eq_true_eq]
  split_ifs with h1 h2 h3 h4 h5 h6 h7 h8 h9
  all_goals simp only [reduceCtorEq, false_iff, true_iff, not_or, not_and, not_le, not_lt]
  · exact ⟨fun _ => by linarith [h1.1], h1.2⟩
  · exact ⟨fun _ => by linarith [h2.1], by linarith [h2.2]⟩
  · exact ⟨fun _ => by linarith [h3.1], by linarith [h3.2]⟩
  · exact ⟨fun _ => by linarith [h4.1], by linarith [h4.2]⟩
  · exact ⟨fun _ => by linarith [h5.1], by linarith [h5.2]⟩
  · exact ⟨fun _ => by linarith [h6.1], by linarith [h6.2]⟩
  · exact ⟨fun _ => h7.1, by linarith [h7.2]⟩
  · exact absurd h8.2 (not_lt.2 h8.1)
  · exact ⟨fun h => by linarith, by linarith⟩
  · rw [not_and, not_lt] at h1 h2 h3 h4 h5 h6 h7
    rw [not_lt] at h9
    by_cases c : q < 1 / 100000
    · exact Or.inl ⟨h9, c⟩
    · right
      rw [not_lt] at c
      by_contra hc
      rw [not_le] at hc
      have c6 : (1 : ℚ) / 1000 ≤ q := by
        by_contra hh
        rw [not_le] at hh
        by_cases c7 : q < 1 / 10000
        · exact absurd (h7 c) (not_le.2 c7)
        · exact absurd (h6 (not_lt.1 c7)) (not_le.2 hh)
      have c5 : (0.05 : ℚ) ≤ q := by
        by_contra hh
        exact absurd (h5 (by norm_num at c6 ⊢; linarith)) (not_le.2 (not_le.1 hh))
      have c4 : (0.5 : ℚ) ≤ q := by
        by_contra hh
        exact absurd (h4 c5) (not_le.2 (not_le.1 hh))
      have c3 : (1.01 : ℚ) ≤ q := by
        by_contra hh
        exact absurd (h3 c4) (not_le.2 (not_le.1 hh))
      have c2 : (10 : ℚ) ≤ q := by
        by_contra hh
        exact absurd (h2 c3) (not_le.2 (not_le.1 hh))
      exact absurd (h1 c2) (not_le.2 hc)

theorem bandCode_fin_Q (q : ℚ) (h : q < 1 / 1000000) : bandCode (.fin q) = some 'Q' := by
  unfold bandCode
  simp only [CFloat.geLit, CFloat.ltLit, Bool.and_eq_true, decide_eq_true_eq]
  rw [if_neg (fun c => by norm_num at c h; linarith [c.1]),
    if_neg (fun c => by norm_num at c h; linarith [c.1]),
    if_neg (fun c => by norm_num at c h; linarith [c.1]),
    if_neg (fun c => by norm_num at c h; linarith [c.1]),
    if_neg (fun c => by norm_num at c h; linarith [c.1]),
    if_neg (fun c => by norm_num at c h; linarith [c.1]),
    if_neg (fun c => by norm_num at c h; linarith [c.1]),
    if_neg (fun c => by norm_num at c h; linarith [c.1]),
    if_pos h]

theorem get_chan_name_no_band (freq : CFloat) (i : Int) (h : bandCode freq = none) :
    get_chan_name freq i = .error .bandCode := by
  unfold get_chan_name
  rw [h]

theorem extract_run_outcome (idata : List Int) (nscans flag : Int) (channel : Nat) :
    ∀ (fuel d : Nat) (acc : List Int), nscans.toNat - d < fuel → acc.length ≤ d →
      (∃ d1 cd, extract_run idata nscans flag channel fuel d acc = .ok (d1, cd) ∧
        d ≤ d1 ∧ ((d : Int) < nscans → d < d1 ∧ (d1 : Int) ≤ nscans) ∧
        (¬ (d : Int) < nscans → d1 = d ∧ cd = acc) ∧
        acc.length ≤ cd.length ∧ cd.length + d ≤ acc.length + d1 ∧
        (cd.length : Int) ≤ max nscans acc.length) ∨
      (extract_run idata nscans flag channel fuel d acc = .error .readBounds ∧
        ∃ i : Nat, d ≤ i ∧ (i : Int) < nscans ∧ idata.length ≤ 5 * i + channel)
  | 0, d, acc, hf, _ => by omega
  | fuel + 1, d, acc, hf, hacc => by
    unfold extract_run
    by_cases hdn : (d : Int) < nscans
    · rw [if_pos hdn]
      cases hv : idata[5 * d + channel]? with
      | none =>
        right
        refine ⟨rfl, d, le_refl _, hdn, ?_⟩
        exact List.getElem?_eq_none_iff.1 hv
      | some v =>
        simp only
        by_cases hinv : v = flag ∨ v ≥ 2147483647
        · rw [if_pos hinv]
          left
          refine ⟨d + 1, acc, rfl, by omega, fun _ => ⟨by omega, by omega⟩,
            fun h => absurd hdn h, le_refl _, by omega, ?_⟩
          exact le_max_right _ _
        · rw [if_neg hinv]
          have hw : (acc.length : Int) < nscans := by omega
          rw [if_pos hw]
          have hlen : (acc ++ [v]).length = acc.length + 1 := by simp
          rcases extract_run_outcome idata nscans flag channel fuel (d + 1) (acc ++ [v])
            (by omega) (by omega) with ⟨d1, cd, hr, h1, h2, h3, h4, h5, h6⟩ | ⟨hr, i, hi1, hi2, hi3⟩
          · left
            refine ⟨d1, cd, hr, by omega, fun _ => ⟨by omega, ?_⟩, fun h => absurd hdn h,
              by omega, by omega, ?_⟩
            · by_cases hd1 : ((d + 1 : Nat) : Int) < nscans
              · exact (h2 hd1).2
              · have := (h3 hd1).1
                omega
            · by_cases hd1 : ((d + 1 : Nat) : Int) < nscans
              · have := (h2 hd1).2
                rw [le_max_iff]
                left
                omega
              · have := (h3 hd1).2
                rw [this, hlen, le_max_iff]
                left
                omega
          · right
            exact ⟨hr, i, by omega, hi2, hi3⟩
    · rw [if_neg hdn]
      left
      exact ⟨d, acc, rfl, le_refl _, fun h => absurd h hdn, fun _ => ⟨rfl, rfl⟩, le_refl _,
        le_refl _, le_max_right _ _⟩

theorem extract_channel_outcome {σ : Type} (packmsr : σ → Segment → Int × σ)
    (idata : List Int) (nscans flag : Int) (channel : Nat) (chan : String) :
    ∀ (fuel d : Nat) (st : σ),
      (∀ segs st1, extract_channel packmsr idata nscans flag channel chan fuel d st =
          .ok (segs, st1) → segs.length ≤ nscans.toNat - d) ∧
      (extract_channel packmsr idata nscans flag channel chan fuel d st = .error .fuel →
        fuel ≤ nscans.toNat - d) ∧
      extract_channel packmsr idata nscans flag channel chan fuel d st ≠ .error .writeBounds ∧
      (extract_channel packmsr idata nscans flag channel chan fuel d st = .error .readBounds →
        ∃ i : Nat, d ≤ i ∧ (i : Int) < nscans ∧ idata.length ≤ 5 * i + channel)
  | 0, d, st => by
    unfold extract_channel
    refine ⟨fun _ _ h => ?_, fun _ => Nat.zero_le _, fun h => ?_, fun h => ?_⟩
    · cases h
    · cases h
    · cases h
  | fuel + 1, d, st => by
    unfold extract_channel
    by_cases hdn : (d : Int) < nscans
    · rw [if_pos hdn]
      rcases extract_run_outcome idata nscans flag channel (nscans.toNat + 1) d []
        (by omega) (Nat.zero_le _) with ⟨d1, cd, hr, -, h2, -, -, -, -⟩ | ⟨hr, i, hi1, hi2, hi3⟩
      · rw [hr]
        simp only
        obtain ⟨hd1, hd2⟩ := h2 hdn
        by_cases hcd : cd.length > 0
        · rw [if_pos hcd]
          by_cases hp : (packmsr st { channel := chan, startidx := d, samples := cd }).1 ≠ 0
          · rw [if_pos hp]
            refine ⟨fun segs st1 h => ?_, fun h => ?_, fun h => ?_, fun h => ?_⟩
            · cases h
              simp only [List.length_singleton]
              omega
            · cases h
            · cases h
            · cases h
          · rw [if_neg hp]
            obtain ⟨ih1, ih2, ih3, ih4⟩ := extract_channel_outcome packmsr idata nscans flag
              channel chan fuel d1 (packmsr st { channel := chan, startidx := d, samples := cd }).2
            cases hrec : extract_channel packmsr idata nscans flag channel chan fuel d1
                (packmsr st { channel := chan, startidx := d, samples := cd }).2 with
            | error f =>
              rw [hrec] at ih2 ih3 ih4
              simp only
              refine ⟨fun segs st1 h => ?_, fun h => ?_, fun h => ?_, fun h => ?_⟩
              · cases h
              · have := ih2 h
                omega
              · exact ih3 h
              · obtain ⟨i, hi1, hi2, hi3⟩ := ih4 h
                exact ⟨i, by omega, hi2, hi3⟩
            | ok q =>
              obtain ⟨segs2, st2⟩ := q
              rw [hrec] at ih1
              simp only
              refine ⟨fun segs st1 h => ?_, fun h => ?_, fun h => ?_, fun h => ?_⟩
              · cases h
                have := ih1 segs2 st2 rfl
                simp only [List.length_cons]
                omega
              · cases h
              · cases h
              · cases h
        · rw [if_neg hcd]
          obtain ⟨ih1, ih2, ih3, ih4⟩ := extract_channel_outcome packmsr idata nscans flag
            channel chan fuel d1 st
          refine ⟨fun segs st1 h => ?_, fun h => ?_, ih3, fun h => ?_⟩
          · have := ih1 segs st1 h
            omega
          · have := ih2 h
            omega
          · obtain ⟨i, hi1, hi2, hi3⟩ := ih4 h
            exact ⟨i, by omega, hi2, hi3⟩
      · rw [hr]
        simp only
        refine ⟨fun segs st1 h => ?_, fun h => ?_, fun h => ?_, fun _ => ⟨i, hi1, hi2, hi3⟩⟩
        · cases h
        · cases h
        · cases h
    · rw [if_neg hdn]
      refine ⟨fun segs st1 h => ?_, fun h => ?_, fun h => ?_, fun h => ?_⟩
      · cases h
        exact Nat.zero_le _
      · cases h
      · cases h
      · cases h

theorem extract_channel_returns {σ : Type} (packmsr : σ → Segment → Int × σ)
    (idata : List Int) (nscans flag : Int) (channel : Nat) (chan : String)
    (hlen : ∀ i : Nat, (i : Int) < nscans → 5 * i + channel < idata.length)
    (fuel d : Nat) (st : σ) (hf : nscans.toNat - d < fuel) :
    ∃ segs st1, extract_channel packmsr idata nscans flag channel chan fuel d st =
        .ok (segs, st1) ∧ segs.length ≤ nscans.toNat - d := by
  obtain ⟨h1, h2, h3, h4⟩ := extract_channel_outcome packmsr idata nscans flag channel chan
    fuel d st
  cases hr : extract_channel packmsr idata nscans flag channel chan fuel d st with
  | ok q =>
    obtain ⟨segs, st1⟩ := q
    exact ⟨segs, st1, rfl, h1 segs st1 hr⟩
  | error f =>
    exfalso
    cases f with
    | fuel =>
      have := h2 hr
      omega
    | readBounds =>
      obtain ⟨i, -, hi2, hi3⟩ := h4 hr
      have := hlen i hi2
      omega
    | writeBounds => exact h3 hr

theorem convert_channels_outcome {σ : Type} (packmsr : σ → Segment → Int × σ)
    (samprate : CFloat) (idata : List Int) (nscans flag : Int) :
    ∀ (fuel channel : Nat) (st : σ),
      (convert_channels packmsr samprate idata nscans flag fuel channel st = .error .fuel →
        fuel ≤ 5 - channel) ∧
      convert_channels packmsr samprate idata nscans flag fuel channel st ≠
        .error .writeBounds ∧
      (convert_channels packmsr samprate idata nscans flag fuel channel st =
          .error .readBounds →
        ∃ c i : Nat, c < 5 ∧ (i : Int) < nscans ∧ idata.length ≤ 5 * i + c)
  | 0, channel, st => by
    unfold convert_channels
    refine ⟨fun _ => Nat.zero_le _, fun h => ?_, fun h => ?_⟩
    · cases h
    · cases h
  | fuel + 1, channel, st => by
    unfold convert_channels
    by_cases hc : channel < 5
    · rw [if_pos hc]
      cases hname : get_chan_name samprate ((channel : Int) + 1) with
      | error e =>
        simp only
        refine ⟨fun h => ?_, fun h => ?_, fun h => ?_⟩
        · cases h
        · cases h
        · cases h
      | ok chan =>
        simp only
        obtain ⟨-, e2, e3, e4⟩ := extract_channel_outcome packmsr idata nscans flag channel chan
          (nscans.toNat + 1) 0 st
        cases hext : extract_channel packmsr idata nscans flag channel chan
            (nscans.toNat + 1) 0 st with
        | error f =>
          rw [hext] at e2 e3 e4
          simp only
          refine ⟨fun h => ?_, e3, fun h => ?_⟩
          · have := e2 h
            omega
          · obtain ⟨i, -, hi2, hi3⟩ := e4 h
            exact ⟨channel, i, hc, hi2, hi3⟩
        | ok q =>
          obtain ⟨segs, st1⟩ := q
          simp only
          obtain ⟨ih1, ih2, ih3⟩ := convert_channels_outcome packmsr samprate idata nscans flag
            fuel (channel + 1) st1
          cases hrec : convert_channels packmsr samprate idata nscans flag fuel
              (channel + 1) st1 with
          | error f =>
            rw [hrec] at ih1 ih2 ih3
            simp only
            refine ⟨fun h => ?_, ih2, ih3⟩
            have := ih1 h
            omega
          | ok q2 =>
            obtain ⟨segs2, st2⟩ := q2
            simp only
            refine ⟨fun h => ?_, fun h => ?_, fun h => ?_⟩
            · cases h
            · cases h
            · cases h
    · rw [if_neg hc]
      refine ⟨fun h => ?_, fun h => ?_, fun h => ?_⟩
      · cases h
      · cases h
      · cases h

theorem extract_run_in_bounds (idata : List Int) (nscans flag : Int) (channel : Nat)
    (hlen : ∀ i : Nat, (i : Int) < nscans → 5 * i + channel < idata.length) :
    ∀ (fuel d : Nat) (acc : List Int), acc.length ≤ d →
      extract_run idata nscans flag channel fuel d acc ≠ .error .readBounds ∧
      extract_run idata nscans flag channel fuel d acc ≠ .error .writeBounds ∧
      ∀ d1 cd, extract_run idata nscans flag channel fuel d acc = .ok (d1, cd) →
        (cd.length : Int) ≤ max nscans acc.length
  | 0, d, acc, _ => by
    unfold extract_run
    refine ⟨fun h => ?_, fun h => ?_, fun _ _ h => ?_⟩
    · cases h
    · cases h
    · cases h
  | fuel + 1, d, acc, hacc => by
    unfold extract_run
    by_cases hdn : (d : Int) < nscans
    · rw [if_pos hdn]
      have hi := hlen d hdn
      rw [List.getElem?_eq_getElem hi]
      simp only
      by_cases hinv : idata[5 * d + channel] = flag ∨ idata[5 * d + channel] ≥ 2147483647
      · rw [if_pos hinv]
        refine ⟨fun h => ?_, fun h => ?_, fun _ _ h => ?_⟩
        · cases h
        · cases h
        · cases h
          exact le_max_right _ _
      · rw [if_neg hinv]
        have hw : (acc.length : Int) < nscans := by omega
        rw [if_pos hw]
        obtain ⟨h1, h2, h3⟩ := extract_run_in_bounds idata nscans flag channel hlen fuel (d + 1)
          (acc ++ [idata[5 * d + channel]]) (by simp; omega)
        refine ⟨h1, h2, fun d1 cd h => ?_⟩
        have := h3 d1 cd h
        simp only [List.length_append, List.length_singleton, le_max_iff] at this ⊢
        omega
    · rw [if_neg hdn]
      refine ⟨fun h => ?_, fun h => ?_, fun _ _ h => ?_⟩
      · cases h
      · cases h
      · cases h
        exact le_max_right _ _

theorem extract_channel_fuel {σ : Type} (packmsr : σ → Segment → Int × σ)
    (idata : List Int) (nscans flag : Int) (channel : Nat) (chan : String) :
    ∀ (fuel1 fuel2 d : Nat) (st : σ), nscans.toNat - d < fuel1 → nscans.toNat - d < fuel2 →
      extract_channel packmsr idata nscans flag channel chan fuel1 d st =
        extract_channel packmsr idata nscans flag channel chan fuel2 d st
  | 0, _, d, st, h1, _ => by omega
  | _ + 1, 0, d, st, _, h2 => by omega
  | fuel1 + 1, fuel2 + 1, d, st, h1, h2 => by
    unfold extract_channel
    by_cases hdn : (d : Int) < nscans
    · rw [if_pos hdn, if_pos hdn]
      rcases extract_run_outcome idata nscans flag channel (nscans.toNat + 1) d []
        (by omega) (Nat.zero_le _) with ⟨d1, cd, hr, -, h3, -, -, -, -⟩ | ⟨hr, -⟩
      · rw [hr]
        simp only
        obtain ⟨hd1, hd2⟩ := h3 hdn
        rw [extract_channel_fuel packmsr idata nscans flag channel chan fuel1 fuel2 d1
            (packmsr st { channel := chan, startidx := d, samples := cd }).2
            (by omega) (by omega),
          extract_channel_fuel packmsr idata nscans flag channel chan fuel1 fuel2 d1 st
            (by omega) (by omega)]
      · rw [hr]
    · rw [if_neg hdn, if_neg hdn]

theorem convert_channels_returns {σ : Type} (packmsr : σ → Segment → Int × σ)
    (samprate : CFloat) (idata : List Int) (nscans flag : Int)
    (hlen : ∀ c i : Nat, c < 5 → (i : Int) < nscans → 5 * i + c < idata.length)
    (fuel channel : Nat) (st : σ) (hf : 5 - channel < fuel) :
    ∃ segs st1, convert_channels packmsr samprate idata nscans flag fuel channel st =
      .ok (segs, st1) := by
  obtain ⟨h1, h2, h3⟩ := convert_channels_outcome packmsr samprate idata nscans flag fuel
    channel st
  cases hr : convert_channels packmsr samprate idata nscans flag fuel channel st with
  | ok q => exact ⟨q.1, q.2, rfl⟩
  | error f =>
    exfalso
    cases f with
    | fuel =>
      have := h1 hr
      omega
    | readBounds =>
      obtain ⟨c, i, hc, hi2, hi3⟩ := h3 hr
      have := hlen c i hc hi2
      omega
    | writeBounds => exact h2 hr

theorem binconvert_error_none (ext : Ext) (ifp : Option (List Byte)) :
    (binconvert_error ext ifp = none ↔ ∃ p, binconvert_checks ext ifp = .accepted p) ∧
    (binconvert_error ext ifp ≠ none ↔ binconvert_checks ext ifp = .rejected) := by
  have key : binconvert_error ext ifp = none ↔ ∃ p, binconvert_checks ext ifp = .accepted p := by
    unfold binconvert_error binconvert_checks
    cases ifp with
    | none => simp
    | some f =>
      simp only
      cases hr : read_bin_file f with
      | error e => simp [returnValue]
      | ok q =>
        obtain ⟨p, r⟩ := q
        simp only [returnValue]
        by_cases h0 : p.ret = 0
        · simp [h0]
        · rw [if_neg h0, if_neg h0]
          by_cases h1 : p.s_rate.leLit 0 = true
          · simp [h1]
          · rw [if_neg h1, if_neg h1]
            by_cases h2 : dataSizeMismatch p.ret p.nscans = true
            · simp [h2]
            · rw [if_neg h2, if_neg h2]
              cases hd : ext.ms_md2doy (p.start_time.getD 0 0) (p.start_time.getD 1 0)
                  (p.start_time.getD 2 0) with
              | none => simp
              | some y =>
                simp only
                by_cases h3 : (!ext.msr_init) = true
                · simp [h3]
                · rw [if_neg h3, if_neg h3]
                  by_cases h4 : p.nscans < 0
                  · simp [h4]
                  · simp [h4]
  refine ⟨key, ?_⟩
  rw [Ne, key]
  cases binconvert_checks ext ifp with
  | rejected => simp
  | accepted p => simp

theorem read_data_block_empty (swapflag : Bool) (r : List Byte) :
    read_data_block swapflag (0 :: 0 :: 0 :: 0 :: 0 :: 0 :: 0 :: 0 :: r) =
      .ok ({ rl := 0, data := [], j2 := 0 }, r) := by
  cases swapflag <;> rfl

theorem markerValue_inj (swapflag : Bool) (b0 b1 b2 b3 c0 c1 c2 c3 : Byte)
    (h : markerValue swapflag b0 b1 b2 b3 = markerValue swapflag c0 c1 c2 c3) :
    b0 = c0 ∧ b1 = c1 ∧ b2 = c2 ∧ b3 = c3 := by
  have hinj : ∀ v w : Nat, v < 4294967296 → w < 4294967296 → toInt32 v = toInt32 w → v = w := by
    intro v w hv hw hvw
    unfold toInt32 at hvw
    split_ifs at hvw <;> omega
  have hhost : ∀ a0 a1 a2 a3 d0 d1 d2 d3 : Byte,
      hostWord a0 a1 a2 a3 = hostWord d0 d1 d2 d3 → a0 = d0 ∧ a1 = d1 ∧ a2 = d2 ∧ a3 = d3 := by
    intro a0 a1 a2 a3 d0 d1 d2 d3 hw
    unfold hostWord at hw
    have h0 := a0.isLt
    have h1 := a1.isLt
    have h2 := a2.isLt
    have h3 := a3.isLt
    have k0 := d0.isLt
    have k1 := d1.isLt
    have k2 := d2.isLt
    have k3 := d3.isLt
    refine ⟨Fin.ext ?_, Fin.ext ?_, Fin.ext ?_, Fin.ext ?_⟩ <;> omega
  unfold markerValue at h
  cases swapflag with
  | false =>
    simp only [Bool.false_eq_true, if_false] at h
    exact hhost _ _ _ _ _ _ _ _ (hinj _ _ (hostWord_lt _ _ _ _) (hostWord_lt _ _ _ _) h)
  | true =>
    simp only [if_true] at h
    have h2 := hinj _ _ (ms_gswap4a_lt _) (ms_gswap4a_lt _) h
    rw [ms_gswap4a_hostWord, ms_gswap4a_hostWord] at h2
    obtain ⟨e3, e2, e1, e0⟩ := hhost _ _ _ _ _ _ _ _ h2
    exact ⟨e0, e1, e2, e3⟩

theorem endsWithMarker_bind {α β : Type} {swapflag : Bool} {field : β → Int}
    {update : β → Int → β} {m : Reader α} {f : α → Reader β}
    (hm : PrefixStrict m) (hf : ∀ a, EndsWithMarker swapflag field update (f a)) :
    EndsWithMarker swapflag field update (m >>= f) := by
  intro s b r h
  obtain ⟨a, r1, hms, hfa⟩ := reader_bind_ok m f s b r h
  obtain ⟨c1, rfl, hok1, -⟩ := hm s a r1 hms
  obtain ⟨c, b0, b1, b2, b3, rfl, hfield, hrep⟩ := hf a r1 b r hfa
  refine ⟨c1 ++ c, b0, b1, b2, b3, by simp, hfield, fun c0 c1' c2 c3 r2 => ?_⟩
  show Reader.bind m f (c1 ++ c ++ c0 :: c1' :: c2 :: c3 :: r2) = _
  unfold Reader.bind
  rw [List.append_assoc, hok1]
  exact hrep c0 c1' c2 c3 r2

theorem endsWithMarker_readWord {β : Type} (e : ReadError) (swapflag : Bool)
    (field : β → Int) (update : β → Int → β) (k : Nat → β)
    (hfield : ∀ w, field (k w) = toInt32 w)
    (hupd : ∀ w v, update (k w) (toInt32 v) = k v) :
    EndsWithMarker swapflag field update (readWord e swapflag >>= fun w => pure (k w)) := by
  intro s b r h
  obtain ⟨w, r1, hw, hp⟩ := reader_bind_ok _ _ _ _ _ h
  obtain ⟨rfl, rfl⟩ := reader_pure_ok _ _ _ _ hp
  rw [readWord_eq] at hw
  match s, hw with
  | b0 :: b1 :: b2 :: b3 :: r2, hw =>
    simp only [Except.ok.injEq, Prod.mk.injEq] at hw
    obtain ⟨rfl, rfl⟩ := hw
    refine ⟨[], b0, b1, b2, b3, rfl, hfield _, fun c0 c1 c2 c3 r3 => ?_⟩
    show Reader.bind (readWord e swapflag) (fun w => pure (k w)) (c0 :: c1 :: c2 :: c3 :: r3) = _
    unfold Reader.bind
    rw [readWord_eq]
    simp only
    unfold markerValue
    rw [hupd]
    rfl

theorem endsWithMarker_read_header_fields (rl : Int) (swapflag : Bool) :
    EndsWithMarker swapflag (fun h => h.j2) (fun h v => { h with j2 := v })
      (read_header_fields rl swapflag) := by
  unfold read_header_fields
  refine endsWithMarker_bind (prefixStrict_readWord _ _ rfl) ?_; intro lat
  refine endsWithMarker_bind (prefixStrict_readWord _ _ rfl) ?_; intro lon
  refine endsWithMarker_bind (prefixStrict_readWord _ _ rfl) ?_; intro decl
  refine endsWithMarker_bind (prefixStrict_readWord _ _ rfl) ?_; intro dt
  refine endsWithMarker_bind (prefixStrict_readWord _ _ rfl) ?_; intro elev
  refine endsWithMarker_bind (prefixStrict_readWords _ _ _ rfl) ?_; intro start_time
  refine endsWithMarker_bind (prefixStrict_readWords _ _ _ rfl) ?_; intro clock_zero
  refine endsWithMarker_bind (prefixStrict_readWord _ _ rfl) ?_; intro nscans
  refine endsWithMarker_bind (prefixStrict_readWord _ _ rfl) ?_; intro gaptyp
  refine endsWithMarker_bind (prefixStrict_readWord _ _ rfl) ?_; intro flag
  refine endsWithMarker_bind (prefixStrict_readWord _ _ rfl) ?_; intro ngaps
  refine endsWithMarker_bind (prefixStrict_malloc _ _) ?_; intro _
  refine endsWithMarker_bind (prefixStrict_readWords _ _ _ rfl) ?_; intro gaps
  refine endsWithMarker_bind (prefixStrict_malloc _ _) ?_; intro _
  refine endsWithMarker_bind (prefixStrict_readWords _ _ _ rfl) ?_; intro itmp
  exact endsWithMarker_readWord _ _ _ _ _ (fun _ => rfl) (fun _ _ => rfl)

theorem endsWithMarker_read_data_block (swapflag : Bool) :
    EndsWithMarker swapflag (fun d => d.j2) (fun d v => { d with j2 := v })
      (read_data_block swapflag) := by
  unfold read_data_block
  refine endsWithMarker_bind (prefixStrict_readWord _ _ rfl) ?_; intro rl
  refine endsWithMarker_bind (prefixStrict_malloc _ _) ?_; intro _
  refine endsWithMarker_bind (prefixStrict_readWords _ _ _ rfl) ?_; intro data
  exact endsWithMarker_readWord _ _ _ _ _ (fun _ => rfl) (fun _ _ => rfl)

theorem swapCheck_rest (w : Nat) (s : List Byte) (p : Int × Bool) (r : List Byte)
    (h : swapCheck w s = .ok (p, r)) :
    r = s ∧ p.1 = toInt32 (if p.2 then ms_gswap4a w else w) ∧
      ∀ s1, swapCheck w s1 = .ok (p, s1) := by
  unfold swapCheck at h ⊢
  by_cases h1 : rlAccepted (toInt32 w) = true
  · simp only [h1, if_true] at h ⊢
    cases h
    exact ⟨rfl, rfl, fun _ => rfl⟩
  · simp only [h1, if_false] at h ⊢
    by_cases h2 : rlAccepted (toInt32 (ms_gswap4a w)) = true
    · simp only [h2, if_true] at h ⊢
      cases h
      exact ⟨rfl, rfl, fun _ => rfl⟩
    · simp only [h2, if_false] at h
      cases h

theorem read_header_marker (f : List Byte) (h : Header) (s1 : List Byte)
    (hh : read_header f = .ok (h, s1)) :
    ∃ a0 a1 a2 a3 c b0 b1 b2 b3, f = a0 :: a1 :: a2 :: a3 :: c ++ b0 :: b1 :: b2 :: b3 :: s1 ∧
      h.j1 = markerValue h.swapflag a0 a1 a2 a3 ∧
      (c.length : Int) = 4 * Int.tdiv h.j1 4 ∧
      h.j2 = markerValue h.swapflag b0 b1 b2 b3 ∧
      ∀ c0 c1 c2 c3 r, read_header (a0 :: a1 :: a2 :: a3 :: c ++ c0 :: c1 :: c2 :: c3 :: r) =
        .ok ({ h with j2 := markerValue h.swapflag c0 c1 c2 c3 }, r) := by
  have hframe := (read_header_framing f h s1 hh).2.2.2.2.2.2
  match f, hh, hframe with
  | [], hh, _ => cases hh
  | [_], hh, _ => cases hh
  | [_, _], hh, _ => cases hh
  | [_, _, _], hh, _ => cases hh
  | a0 :: a1 :: a2 :: a3 :: rest, hh, hframe =>
    rw [read_header_cons] at hh
    cases hs : swapCheck (hostWord a0 a1 a2 a3) rest with
    | error e =>
      rw [hs] at hh
      cases hh
    | ok q =>
      obtain ⟨p, r1⟩ := q
      rw [hs] at hh
      simp only at hh
      obtain ⟨rfl, hp1, hp2⟩ := swapCheck_rest _ _ _ _ hs
      obtain ⟨hj1, hsw, -⟩ := read_header_fields_length p.1 p.2 r1 h s1 hh
      obtain ⟨c, b0, b1, b2, b3, rfl, hj2, hrep⟩ :=
        endsWithMarker_read_header_fields p.1 p.2 r1 h s1 hh
      refine ⟨a0, a1, a2, a3, c, b0, b1, b2, b3, rfl, ?_, ?_, ?_, ?_⟩
      · rw [hj1, hsw, hp1]
        rfl
      · simp only [List.length_cons, List.length_append] at hframe
        push_cast at hframe
        omega
      · rw [hsw]
        exact hj2
      · intro c0 c1 c2 c3 r
        have e : a0 :: a1 :: a2 :: a3 :: c ++ c0 :: c1 :: c2 :: c3 :: r =
            a0 :: a1 :: a2 :: a3 :: (c ++ c0 :: c1 :: c2 :: c3 :: r) := rfl
        rw [e, read_header_cons, hp2]
        simp only
        rw [hrep, ← hsw]

theorem read_data_block_marker (swapflag : Bool) (s1 : List Byte) (d : DataBlock)
    (s2 : List Byte) (hd : read_data_block swapflag s1 = .ok (d, s2)) :
    ∃ a0 a1 a2 a3 c b0 b1 b2 b3, s1 = a0 :: a1 :: a2 :: a3 :: c ++ b0 :: b1 :: b2 :: b3 :: s2 ∧
      d.rl = markerValue swapflag a0 a1 a2 a3 ∧
      (c.length : Int) = 4 * Int.tdiv d.rl 4 ∧
      d.j2 = markerValue swapflag b0 b1 b2 b3 ∧
      ∀ c0 c1 c2 c3 r, read_data_block swapflag
          (a0 :: a1 :: a2 :: a3 :: c ++ c0 :: c1 :: c2 :: c3 :: r) =
        .ok ({ d with j2 := markerValue swapflag c0 c1 c2 c3 }, r) := by
  have hlen := (read_data_block_length swapflag s1 d s2 hd).2
  obtain ⟨c, b0, b1, b2, b3, rfl, hj2, hrep⟩ := endsWithMarker_read_data_block swapflag s1 d s2 hd
  have hd0 := hd
  unfold read_data_block at hd0
  obtain ⟨rl, r1, h1, hrest⟩ := reader_bind_ok _ _ _ _ _ hd0
  obtain ⟨u, r2, h2, hrest⟩ := reader_bind_ok _ _ _ _ _ hrest
  obtain ⟨data, r3, h3, hrest⟩ := reader_bind_ok _ _ _ _ _ hrest
  obtain ⟨j2, r4, h4, hrest⟩ := reader_bind_ok _ _ _ _ _ hrest
  obtain ⟨hdd, -⟩ := reader_pure_ok _ _ _ _ hrest
  rw [readWord_eq] at h1
  match c, hlen, hrep, h1 with
  | [], hlen, _, h1 =>
    exfalso
    have := (read_data_block_length swapflag _ d s2 hd).1
    have ht : 0 ≤ Int.tdiv d.rl 4 := Int.tdiv_nonneg this (by decide)
    simp only [List.nil_append, List.length_cons] at hlen
    push_cast at hlen
    omega
  | [_], hlen, _, h1 =>
    exfalso
    have := (read_data_block_length swapflag _ d s2 hd).1
    have ht : 0 ≤ Int.tdiv d.rl 4 := Int.tdiv_nonneg this (by decide)
    simp only [List.cons_append, List.nil_append, List.length_cons] at hlen
    push_cast at hlen
    omega
  | [_, _], hlen, _, h1 =>
    exfalso
    have := (read_data_block_length swapflag _ d s2 hd).1
    have ht : 0 ≤ Int.tdiv d.rl 4 := Int.tdiv_nonneg this (by decide)
    simp only [List.cons_append, List.nil_append, List.length_cons] at hlen
    push_cast at hlen
    omega
  | [_, _, _], hlen, _, h1 =>
    exfalso
    have := (read_data_block_length swapflag _ d s2 hd).1
    have ht : 0 ≤ Int.tdiv d.rl 4 := Int.tdiv_nonneg this (by decide)
    simp only [List.cons_append, List.nil_append, List.length_cons] at hlen
    push_cast at hlen
    omega
  | a0 :: a1 :: a2 :: a3 :: c1, hlen, hrep, h1 =>
    simp only [List.cons_append, Except.ok.injEq, Prod.mk.injEq] at h1
    refine ⟨a0, a1, a2, a3, c1, b0, b1, b2, b3, rfl, ?_, ?_, hj2, hrep⟩
    · rw [hdd, ← h1.1]
      rfl
    · simp only [List.cons_append, List.length_cons, List.length_append] at hlen
      push_cast at hlen
      omega

theorem read_header_trailing (f : List Byte) (h : Header) (s1 : List Byte)
    (hh : read_header f = .ok (h, s1)) :
    ∃ a0 a1 a2 a3 t b0 b1 b2 b3, f = a0 :: a1 :: a2 :: a3 :: t ∧
      f.drop (4 + 4 * Int.tdiv h.j1 4).toNat = b0 :: b1 :: b2 :: b3 :: s1 ∧
      h.j1 = markerValue h.swapflag a0 a1 a2 a3 ∧
      h.j2 = markerValue h.swapflag b0 b1 b2 b3 ∧
      ∀ c0 c1 c2 c3 r,
        read_header (f.take (4 + 4 * Int.tdiv h.j1 4).toNat ++ c0 :: c1 :: c2 :: c3 :: r) =
          .ok ({ h with j2 := markerValue h.swapflag c0 c1 c2 c3 }, r) := by
  obtain ⟨a0, a1, a2, a3, c, b0, b1, b2, b3, rfl, hj1, hlen, hj2, hrep⟩ :=
    read_header_marker f h s1 hh
  have hn : (4 + 4 * Int.tdiv h.j1 4).toNat = (a0 :: a1 :: a2 :: a3 :: c).length := by
    simp only [List.length_cons]
    omega
  refine ⟨a0, a1, a2, a3, c ++ b0 :: b1 :: b2 :: b3 :: s1, b0, b1, b2, b3, rfl, ?_, hj1, hj2,
    fun c0 c1 c2 c3 r => ?_⟩
  · rw [hn, List.drop_left]
  · rw [hn, List.take_left]
    exact hrep c0 c1 c2 c3 r

theorem read_data_block_trailing (f : List Byte) (h : Header) (s1 : List Byte) (d : DataBlock)
    (s2 : List Byte) (hh : read_header f = .ok (h, s1))
    (hd : read_data_block h.swapflag s1 = .ok (d, s2)) :
    ∃ a0 a1 a2 a3 t b0 b1 b2 b3, s1 = a0 :: a1 :: a2 :: a3 :: t ∧
      f.drop (12 + 4 * Int.tdiv h.j1 4 + 4 * Int.tdiv d.rl 4).toNat =
        b0 :: b1 :: b2 :: b3 :: s2 ∧
      d.rl = markerValue h.swapflag a0 a1 a2 a3 ∧
      d.j2 = markerValue h.swapflag b0 b1 b2 b3 ∧
      ∀ c0 c1 c2 c3 r,
        read_header (f.take (12 + 4 * Int.tdiv h.j1 4 + 4 * Int.tdiv d.rl 4).toNat ++
            c0 :: c1 :: c2 :: c3 :: r) =
          .ok (h, (s1.take (4 + 4 * Int.tdiv d.rl 4).toNat) ++ c0 :: c1 :: c2 :: c3 :: r) ∧
        read_data_block h.swapflag
            ((s1.take (4 + 4 * Int.tdiv d.rl 4).toNat) ++ c0 :: c1 :: c2 :: c3 :: r) =
          .ok ({ d with j2 := markerValue h.swapflag c0 c1 c2 c3 }, r) := by
  obtain ⟨e0, e1, e2, e3, c, g0, g1, g2, g3, rfl, -, hlen, hj2, hrep⟩ :=
    read_header_marker f h s1 hh
  obtain ⟨a0, a1, a2, a3, c2, b0, b1, b2, b3, rfl, hrl, hlen2, hdj2, hrep2⟩ :=
    read_data_block_marker h.swapflag s1 d s2 hd
  have hn2 : (4 + 4 * Int.tdiv d.rl 4).toNat = (a0 :: a1 :: a2 :: a3 :: c2).length := by
    simp only [List.length_cons]
    omega
  have hn : (12 + 4 * Int.tdiv h.j1 4 + 4 * Int.tdiv d.rl 4).toNat =
      ((e0 :: e1 :: e2 :: e3 :: c) ++ g0 :: g1 :: g2 :: g3 :: a0 :: a1 :: a2 :: a3 :: c2).length := by
    simp only [List.length_cons, List.length_append]
    omega
  have hf : e0 :: e1 :: e2 :: e3 :: c ++
      g0 :: g1 :: g2 :: g3 :: (a0 :: a1 :: a2 :: a3 :: c2 ++ b0 :: b1 :: b2 :: b3 :: s2) =
      ((e0 :: e1 :: e2 :: e3 :: c) ++ g0 :: g1 :: g2 :: g3 :: a0 :: a1 :: a2 :: a3 :: c2) ++
        b0 :: b1 :: b2 :: b3 :: s2 := by
    simp
  refine ⟨a0, a1, a2, a3, c2 ++ b0 :: b1 :: b2 :: b3 :: s2, b0, b1, b2, b3, rfl, ?_, hrl, hdj2,
    fun c0 c1 c2' c3 r => ⟨?_, ?_⟩⟩
  · rw [hf, hn, List.drop_left]
  · rw [hf, hn, List.take_left, hn2, List.take_left]
    have e : (e0 :: e1 :: e2 :: e3 :: c ++ g0 :: g1 :: g2 :: g3 :: a0 :: a1 :: a2 :: a3 :: c2) ++
        c0 :: c1 :: c2' :: c3 :: r =
        e0 :: e1 :: e2 :: e3 :: c ++
          g0 :: g1 :: g2 :: g3 :: ((a0 :: a1 :: a2 :: a3 :: c2) ++ c0 :: c1 :: c2' :: c3 :: r) := by
      simp
    rw [e, hrep, ← hj2]
  · rw [hn2, List.take_left]
    exact hrep2 c0 c1 c2' c3 r

theorem overflowFile_accepted :
    binconvert_checks sampleExt (some overflowFile) = .accepted overflowParse := by
  have hread : read_bin_file overflowFile = .ok (overflowParse, []) := rfl
  have hrate : overflowParse.s_rate.leLit 0 = false := by
    show (recipF32 0x3F800000).leLit 0 = false
    rw [recipF32_one]
    simp [CFloat.leLit]
  have hsize : dataSizeMismatch overflowParse.ret overflowParse.nscans = false := by decide
  unfold binconvert_checks
  simp only [hread, hrate, hsize]
  rfl

theorem overflowFile_binconvert {σ : Type} (packmsr : σ → Segment → Int × σ) (st : σ) :
    binconvert sampleExt packmsr (some overflowFile) st = .error .readBounds := by
  have hb : bandCode overflowParse.s_rate = some 'L' := by
    show bandCode (recipF32 0x3F800000) = _
    rw [recipF32_one]
    exact bandCode_1Hz
  have hrun : extract_run [1, 2, 3, 4] 858993460 2147483647 0 (858993460 + 1) 0 [] =
      .error .readBounds := by
    rw [extract_run, if_pos (by decide)]
    have h0 : ([1, 2, 3, 4] : List Int)[5 * 0 + 0]? = some 1 := rfl
    rw [h0]
    simp only
    rw [if_neg (by decide), if_pos (by decide)]
    have e : (858993460 : Nat) = 858993459 + 1 := rfl
    rw [e, extract_run, if_pos (by decide)]
    rfl
  unfold binconvert
  rw [overflowFile_accepted]
  simp only
  rw [convert_channels_succ packmsr _ _ _ _ 'L' hb 5 0 (by omega)]
  have hn : overflowParse.nscans.toNat + 1 = 858993460 + 1 := rfl
  rw [hn, extract_channel, if_pos (by decide)]
  have hd : overflowParse.data = [1, 2, 3, 4] := rfl
  have hnn : overflowParse.nscans = 858993460 := rfl
  have hf : overflowParse.missingdataflag = 2147483647 := rfl
  have hn2 : (858993460 : Int).toNat + 1 = 858993460 + 1 := rfl
  rw [hd, hnn, hf, hn2, hrun]

/-! ## The claims -/

/-! ### C1: byte-swapped twin -/

/-- C1. A stream on which `read_bin_file` succeeds and the stream with every
4-byte word byte-reversed are both parsed successfully, with identical decoded
values: return value, `dt` bit pattern and sample rate, `nscans`, `start_time`,
missing-data flag and data array; the rests of the two streams are each
other's byte-reversed twin. -/
theorem read_bin_file_swapStream (f : List Byte) (p : BinFile) (r : List Byte)
    (h : read_bin_file f = .ok (p, r)) :
    read_bin_file (swapStream f) = .ok (p, swapStream r) ∧
    returnValue (read_bin_file (swapStream f)) = returnValue (read_bin_file f) := by
  obtain ⟨p', rfl, h'⟩ := (swapRel_read_bin_file_step f).2 p r h
  refine ⟨h', ?_⟩
  unfold read_bin_file at h ⊢
  rw [h, h']
  rfl

/-- Witness of C1: the sample file and its byte-swapped twin decode alike. -/
theorem read_bin_file_swapStream_witness :
    read_bin_file (swapStream sampleFile) = .ok (sampleParse, swapStream []) ∧
    returnValue (read_bin_file (swapStream sampleFile)) =
      returnValue (read_bin_file sampleFile) :=
  read_bin_file_swapStream sampleFile sampleParse [] rfl

/-! ### C2: length markers -/

/-- C2. Length markers. If the trailing header length record differs from the
leading one (both after byte-order resolution), or, the header being accepted,
the trailing data-block record differs from the leading one, `read_bin_file`
fails with the marker error and returns 0, and `binconvert` returns -1 having
handed no segment to `packmsr`; conversely, on every successful parse both
pairs of records are equal. The records are those of the stream: the leading
header record is the value of its first four bytes and the trailing one the
value of the four bytes at offset `4 + 4 * (rl / 4)`; the leading data record
is the value of the next four bytes and the trailing one the value of the four
bytes at offset `12 + 4 * (rl / 4) + 4 * (rl2 / 4)`. Whatever four bytes stand
in the place of a trailing record, and whatever follows them, the stream is
rejected with the marker error when their value differs from the leading
record; in particular every change of the bytes of a trailing record that
matched is rejected. -/
theorem marker_mismatch_rejected (f : List Byte) :
    (∀ h s1, read_header f = .ok (h, s1) → h.j1 ≠ h.j2 →
      read_bin_file f = .error .endOfHeaderMarker ∧
      ReadError.isHeaderError .endOfHeaderMarker = true ∧
      returnValue (read_bin_file f) = 0 ∧
      ∀ (σ : Type) (ext : Ext) (packmsr : σ → Segment → Int × σ) (st : σ),
        binconvert ext packmsr (some f) st =
          .ok { ret := -1, segments := [], state := st }) ∧
    (∀ h s1 d s2, read_header f = .ok (h, s1) → h.j1 = h.j2 →
      read_data_block h.swapflag s1 = .ok (d, s2) → d.rl ≠ d.j2 →
      read_bin_file f = .error .endOfDataMarker ∧
      ReadError.isHeaderError .endOfDataMarker = true ∧
      returnValue (read_bin_file f) = 0 ∧
      ∀ (σ : Type) (ext : Ext) (packmsr : σ → Segment → Int × σ) (st : σ),
        binconvert ext packmsr (some f) st =
          .ok { ret := -1, segments := [], state := st }) ∧
    (∀ p r, read_bin_file f = .ok (p, r) →
      ∃ h s1 d, read_header f = .ok (h, s1) ∧ read_data_block h.swapflag s1 = .ok (d, r) ∧
        h.j1 = h.j2 ∧ d.rl = d.j2 ∧ p.ret = d.rl) ∧
    (∀ h s1, read_header f = .ok (h, s1) →
      ∃ a0 a1 a2 a3 t b0 b1 b2 b3, f = a0 :: a1 :: a2 :: a3 :: t ∧
        f.drop (4 + 4 * Int.tdiv h.j1 4).toNat = b0 :: b1 :: b2 :: b3 :: s1 ∧
        h.j1 = markerValue h.swapflag a0 a1 a2 a3 ∧
        h.j2 = markerValue h.swapflag b0 b1 b2 b3 ∧
        ∀ c0 c1 c2 c3 r,
          (markerValue h.swapflag c0 c1 c2 c3 ≠ h.j1 ∨
            (h.j1 = h.j2 ∧ (c0 ≠ b0 ∨ c1 ≠ b1 ∨ c2 ≠ b2 ∨ c3 ≠ b3))) →
          read_bin_file (f.take (4 + 4 * Int.tdiv h.j1 4).toNat ++
              c0 :: c1 :: c2 :: c3 :: r) = .error .endOfHeaderMarker ∧
          ∀ (σ : Type) (ext : Ext) (packmsr : σ → Segment → Int × σ) (st : σ),
            binconvert ext packmsr
                (some (f.take (4 + 4 * Int.tdiv h.j1 4).toNat ++ c0 :: c1 :: c2 :: c3 :: r)) st =
              .ok { ret := -1, segments := [], state := st }) ∧
    (∀ h s1 d s2, read_header f = .ok (h, s1) → h.j1 = h.j2 →
      read_data_block h.swapflag s1 = .ok (d, s2) →
      ∃ a0 a1 a2 a3 t b0 b1 b2 b3, s1 = a0 :: a1 :: a2 :: a3 :: t ∧
        f.drop (12 + 4 * Int.tdiv h.j1 4 + 4 * Int.tdiv d.rl 4).toNat =
          b0 :: b1 :: b2 :: b3 :: s2 ∧
        d.rl = markerValue h.swapflag a0 a1 a2 a3 ∧
        d.j2 = markerValue h.swapflag b0 b1 b2 b3 ∧
        ∀ c0 c1 c2 c3 r,
          (markerValue h.swapflag c0 c1 c2 c3 ≠ d.rl ∨
            (d.rl = d.j2 ∧ (c0 ≠ b0 ∨ c1 ≠ b1 ∨ c2 ≠ b2 ∨ c3 ≠ b3))) →
          read_bin_file (f.take (12 + 4 * Int.tdiv h.j1 4 + 4 * Int.tdiv d.rl 4).toNat ++
              c0 :: c1 :: c2 :: c3 :: r) = .error .endOfDataMarker ∧
          ∀ (σ : Type) (ext : Ext) (packmsr : σ → Segment → Int × σ) (st : σ),
            binconvert ext packmsr
                (some (f.take (12 + 4 * Int.tdiv h.j1 4 + 4 * Int.tdiv d.rl 4).toNat ++
                  c0 :: c1 :: c2 :: c3 :: r)) st =
              .ok { ret := -1, segments := [], state := st }) := by
  refine ⟨?_, ?_, ?_, ?_, ?_⟩
  · intro h s1 hh hne
    have hr : read_bin_file f = .error .endOfHeaderMarker := by
      rw [read_bin_file_eq, hh]
      simp only [ne_eq, hne, not_false_eq_true, if_true]
    refine ⟨hr, rfl, by rw [hr]; rfl, fun σ ext packmsr st => ?_⟩
    exact binconvert_of_read_error ext packmsr f st (by rw [hr]; rfl)
  · intro h s1 d s2 hh heq hd hne
    have hr : read_bin_file f = .error .endOfDataMarker := by
      rw [read_bin_file_eq, hh]
      simp only [ne_eq, heq, not_true_eq_false, if_false, hd, hne, not_false_eq_true, if_true]
    refine ⟨hr, rfl, by rw [hr]; rfl, fun σ ext packmsr st => ?_⟩
    exact binconvert_of_read_error ext packmsr f st (by rw [hr]; rfl)
  · intro p r hp
    rw [read_bin_file_eq] at hp
    cases hh : read_header f with
    | error e =>
      rw [hh] at hp
      cases hp
    | ok q =>
      obtain ⟨h, s1⟩ := q
      rw [hh] at hp
      simp only at hp
      by_cases hj : h.j1 = h.j2
      · simp only [ne_eq, hj, not_true_eq_false, if_false] at hp
        cases hd : read_data_block h.swapflag s1 with
        | error e =>
          rw [hd] at hp
          cases hp
        | ok q2 =>
          obtain ⟨d, s2⟩ := q2
          rw [hd] at hp
          simp only at hp
          by_cases hj2 : d.rl = d.j2
          · simp only [ne_eq, hj2, not_true_eq_false, if_false, Except.ok.injEq,
              Prod.mk.injEq] at hp
            obtain ⟨rfl, rfl⟩ := hp
            exact ⟨h, s1, d, rfl, hd, hj, hj2, hj2.symm⟩
          · simp only [ne_eq, hj2, not_false_eq_true, if_true] at hp
            cases hp
      · simp only [ne_eq, hj, not_false_eq_true, if_true] at hp
        cases hp
  · intro h s1 hh
    obtain ⟨a0, a1, a2, a3, t, b0, b1, b2, b3, hf, hdrop, hj1, hj2, hrep⟩ :=
      read_header_trailing f h s1 hh
    refine ⟨a0, a1, a2, a3, t, b0, b1, b2, b3, hf, hdrop, hj1, hj2, fun c0 c1 c2 c3 r hne => ?_⟩
    have hne2 : h.j1 ≠ markerValue h.swapflag c0 c1 c2 c3 := by
      rcases hne with hne | ⟨heq, hb⟩
      · exact fun e => hne e.symm
      · intro e
        rw [heq, hj2] at e
        obtain ⟨e0, e1, e2, e3⟩ := markerValue_inj _ _ _ _ _ _ _ _ _ e
        rcases hb with hb | hb | hb | hb
        · exact hb e0.symm
        · exact hb e1.symm
        · exact hb e2.symm
        · exact hb e3.symm
    have hr : read_bin_file (f.take (4 + 4 * Int.tdiv h.j1 4).toNat ++
        c0 :: c1 :: c2 :: c3 :: r) = .error .endOfHeaderMarker := by
      rw [read_bin_file_eq, hrep]
      simp only [ne_eq, hne2, not_false_eq_true, if_true]
    exact ⟨hr, fun σ ext packmsr st =>
      binconvert_of_read_error ext packmsr _ st (by rw [hr]; rfl)⟩
  · intro h s1 d s2 hh heq hd
    obtain ⟨a0, a1, a2, a3, t, b0, b1, b2, b3, hs1, hdrop, hrl, hj2, hrep⟩ :=
      read_data_block_trailing f h s1 d s2 hh hd
    refine ⟨a0, a1, a2, a3, t, b0, b1, b2, b3, hs1, hdrop, hrl, hj2, fun c0 c1 c2 c3 r hne => ?_⟩
    have hne2 : d.rl ≠ markerValue h.swapflag c0 c1 c2 c3 := by
      rcases hne with hne | ⟨heq2, hb⟩
      · exact fun e => hne e.symm
      · intro e
        rw [heq2, hj2] at e
        obtain ⟨e0, e1, e2, e3⟩ := markerValue_inj _ _ _ _ _ _ _ _ _ e
        rcases hb with hb | hb | hb | hb
        · exact hb e0.symm
        · exact hb e1.symm
        · exact hb e2.symm
        · exact hb e3.symm
    have hr : read_bin_file (f.take (12 + 4 * Int.tdiv h.j1 4 + 4 * Int.tdiv d.rl 4).toNat ++
        c0 :: c1 :: c2 :: c3 :: r) = .error .endOfDataMarker := by
      rw [read_bin_file_eq, (hrep c0 c1 c2 c3 r).1]
      simp only [ne_eq, heq, not_true_eq_false, if_false]
      rw [(hrep c0 c1 c2 c3 r).2]
      simp only [ne_eq, hne2, not_false_eq_true, if_true]
    exact ⟨hr, fun σ ext packmsr st =>
      binconvert_of_read_error ext packmsr _ st (by rw [hr]; rfl)⟩

/-- Witness of C2 on the sample file, whose header records are both 84 and
whose data records are both 20: with 85 in the place of the trailing header
record the file is rejected with the header marker error, and with 21 in the
place of the trailing data record it is rejected with the data marker
error. -/
theorem marker_mismatch_rejected_witness :
    read_bin_file (sampleFile.take 88 ++ 85 :: 0 :: 0 :: 0 :: sampleFile.drop 92) =
      .error .endOfHeaderMarker ∧
    read_bin_file (sampleFile.take 116 ++ 21 :: 0 :: 0 :: 0 :: []) = .error .endOfDataMarker := by
  obtain ⟨_, _, _, _, _, _, _, _, _, -, -, -, -, h1⟩ :=
    (marker_mismatch_rejected sampleFile).2.2.2.1 sampleHeader (sampleFile.drop 92) rfl
  obtain ⟨_, _, _, _, _, _, _, _, _, -, -, -, -, h2⟩ :=
    (marker_mismatch_rejected sampleFile).2.2.2.2 sampleHeader (sampleFile.drop 92)
      { rl := 20, data := [1, 2, 3, 4, 5], j2 := 20 } [] rfl rfl rfl
  exact ⟨(h1 85 0 0 0 (sampleFile.drop 92) (Or.inl (by decide))).1,
    (h2 21 0 0 0 [] (Or.inl (by decide))).1⟩

/-! ### C3: byte-order detection -/

/-- C3. Byte-order detection on the leading word `rl` of the stream, with
`rs` its byte-reversed value: the check proceeds without swapping iff `rl` is
valid, proceeds with `swapflag` set iff `rl` is not valid and `rs` is, and fails
with the header-length error iff neither is valid. In the first two cases the
rest of the header is read with that `swapflag` (which `read_bin_file` also uses
for the data block); `read_bin_file` ends with the header-length error
exactly in the third case. -/
theorem byte_order_detection (b0 b1 b2 b3 : Byte) (rest : List Byte) :
    (swapCheck (hostWord b0 b1 b2 b3) rest =
        .ok ((toInt32 (hostWord b0 b1 b2 b3), false), rest) ↔
      specValidLength (toInt32 (hostWord b0 b1 b2 b3))) ∧
    (swapCheck (hostWord b0 b1 b2 b3) rest =
        .ok ((toInt32 (ms_gswap4a (hostWord b0 b1 b2 b3)), true), rest) ↔
      ¬ specValidLength (toInt32 (hostWord b0 b1 b2 b3)) ∧
        specValidLength (toInt32 (ms_gswap4a (hostWord b0 b1 b2 b3)))) ∧
    (swapCheck (hostWord b0 b1 b2 b3) rest = .error .headerLengthInvalid ↔
      ¬ specValidLength (toInt32 (hostWord b0 b1 b2 b3)) ∧
        ¬ specValidLength (toInt32 (ms_gswap4a (hostWord b0 b1 b2 b3)))) ∧
    (specValidLength (toInt32 (hostWord b0 b1 b2 b3)) →
      read_header (b0 :: b1 :: b2 :: b3 :: rest) =
        read_header_fields (toInt32 (hostWord b0 b1 b2 b3)) false rest) ∧
    (¬ specValidLength (toInt32 (hostWord b0 b1 b2 b3)) →
      specValidLength (toInt32 (ms_gswap4a (hostWord b0 b1 b2 b3))) →
      read_header (b0 :: b1 :: b2 :: b3 :: rest) =
        read_header_fields (toInt32 (ms_gswap4a (hostWord b0 b1 b2 b3))) true rest) ∧
    (∀ h r, read_header (b0 :: b1 :: b2 :: b3 :: rest) = .ok (h, r) →
      (h.swapflag = false ↔ specValidLength (toInt32 (hostWord b0 b1 b2 b3))) ∧
      (h.swapflag = true ↔ ¬ specValidLength (toInt32 (hostWord b0 b1 b2 b3)) ∧
        specValidLength (toInt32 (ms_gswap4a (hostWord b0 b1 b2 b3))))) ∧
    (read_bin_file (b0 :: b1 :: b2 :: b3 :: rest) = .error .headerLengthInvalid ↔
      ¬ specValidLength (toInt32 (hostWord b0 b1 b2 b3)) ∧
        ¬ specValidLength (toInt32 (ms_gswap4a (hostWord b0 b1 b2 b3)))) := by
  have hne : ∀ (rl : Int) (sw : Bool) (s : List Byte),
      read_bin_file (b0 :: b1 :: b2 :: b3 :: rest) ≠ .error .headerLengthInvalid ∨
      read_header (b0 :: b1 :: b2 :: b3 :: rest) ≠ read_header_fields rl sw s := by
    intro rl sw s
    by_cases hh : read_header (b0 :: b1 :: b2 :: b3 :: rest) = read_header_fields rl sw s
    · left
      rw [read_bin_file_eq, hh]
      cases hf : read_header_fields rl sw s with
      | error e =>
        have := (errorsIn_read_header_fields rl sw s e hf).1
        simpa using this
      | ok p =>
        obtain ⟨h, s1⟩ := p
        simp only
        split_ifs
        · simp
        · cases hd : read_data_block h.swapflag s1 with
          | error e =>
            have := (errorsIn_read_data_block h.swapflag s1 e hd).1
            simpa using this
          | ok q =>
            obtain ⟨d, s2⟩ := q
            simp only
            split_ifs <;> simp
    · exact Or.inr hh
  have hcons := read_header_cons b0 b1 b2 b3 rest
  rcases swapCheck_cases (hostWord b0 b1 b2 b3) rest with
    ⟨hv, hs⟩ | ⟨hv, hv', hs⟩ | ⟨hv, hv', hs⟩
  · rw [hs] at hcons
    simp only at hcons
    refine ⟨?_, ?_, ?_, ?_, ?_, ?_, ?_⟩
    · simp [hs, hv]
    · simp [hs, hv]
    · simp [hs, hv]
    · exact fun _ => hcons
    · exact fun h => absurd hv h
    · intro h r hr
      rw [hcons] at hr
      have := (resultsIn_read_header_fields _ _ rest h r hr).1
      simp [this, hv]
    · have := hne (toInt32 (hostWord b0 b1 b2 b3)) false rest
      simp only [hcons, ne_eq, not_true_eq_false, or_false] at this
      simp [this, hv]
  · rw [hs] at hcons
    simp only at hcons
    refine ⟨?_, ?_, ?_, ?_, ?_, ?_, ?_⟩
    · simp [hs, hv]
    · simp [hs, hv, hv']
    · simp [hs, hv']
    · exact fun h => absurd h hv
    · exact fun _ _ => hcons
    · intro h r hr
      rw [hcons] at hr
      have := (resultsIn_read_header_fields _ _ rest h r hr).1
      simp [this, hv, hv']
    · have := hne (toInt32 (ms_gswap4a (hostWord b0 b1 b2 b3))) true rest
      simp only [hcons, ne_eq, not_true_eq_false, or_false] at this
      simp [this, hv']
  · rw [hs] at hcons
    simp only at hcons
    refine ⟨?_, ?_, ?_, ?_, ?_, ?_, ?_⟩
    · simp [hs, hv]
    · simp [hs, hv, hv']
    · simp [hs, hv, hv']
    · exact fun h => absurd h hv
    · exact fun _ h => absurd h hv'
    · intro h r hr
      rw [hcons] at hr
      cases hr
    · rw [read_bin_file_eq, hcons]
      simp [hv, hv']

/-- Witness of C3 on the sample file, whose leading word 84 is valid: the
header is read without swapping. -/
theorem byte_order_detection_witness :
    read_header ((84 : Byte) :: 0 :: 0 :: 0 :: sampleFile.drop 4) =
      read_header_fields (toInt32 (hostWord 84 0 0 0)) false (sampleFile.drop 4) :=
  (byte_order_detection 84 0 0 0 (sampleFile.drop 4)).2.2.2.1
    ((specValidLength_iff _).mpr (by decide))

/-! ### C4: short reads -/

/-- C4. When `read_bin_file` succeeds on a stream after consuming `N` bytes
(the stream's length less the rest's), it fails on every shorter beginning of
those `N` bytes: it returns 0, after the message of a short read. -/
theorem read_bin_file_short_read (f : List Byte) (p : BinFile) (r : List Byte)
    (h : read_bin_file f = .ok (p, r)) (t : List Byte) (ht : t <+: f)
    (hlen : t.length < f.length - r.length) :
    returnValue (read_bin_file t) = 0 ∧
    ∃ e, read_bin_file t = .error e ∧ e.isShortRead = true := by
  obtain ⟨c, rfl, -, hshort⟩ := prefixStrict_read_bin_file_step f p r h
  have hlen' : t.length < c.length := by simp at hlen; omega
  have htc : t <+: c := by
    rcases beginning_of_append ht with h1 | ⟨t', rfl, -⟩
    · exact h1
    · simp at hlen'
  have hne : t ≠ c := by
    intro h1
    rw [h1] at hlen'
    exact lt_irrefl _ hlen'
  obtain ⟨e, he, hs⟩ := hshort t htc hne
  have he' : read_bin_file t = .error e := he
  exact ⟨by rw [he']; rfl, e, he', hs⟩

/-- Witness of C4: the sample file is consumed whole (120 bytes), and its first
119 bytes are rejected. -/
theorem read_bin_file_short_read_witness :
    returnValue (read_bin_file (sampleFile.take 119)) = 0 ∧
    ∃ e, read_bin_file (sampleFile.take 119) = .error e ∧ e.isShortRead = true :=
  read_bin_file_short_read sampleFile sampleParse [] rfl (sampleFile.take 119)
    (List.take_prefix _ _) (by decide)

/-! ### C5: channel names -/

/-- C5. For a channel index in 1..5, `get_chan_name` succeeds exactly when the
frequency falls in a row of the band table; the name is then the letter of that
row followed by the suffix of the index, three characters long; the letter T is
never produced; the codes of two different indices differ; and
`name(1.0, 3) = "LFZ"`, `name(50.0, 1) = "BFN"`. -/
theorem get_chan_name_table (freq : CFloat) (i : Int) (hi : 1 ≤ i ∧ i ≤ 5) :
    ((∃ name, get_chan_name freq i = .ok name) ↔
      ∃ row ∈ specBandTable, inBandRow freq row = true) ∧
    (∀ row ∈ specBandTable, inBandRow freq row = true →
      row.2.2 ≠ 'T' ∧ row.2.2 ∈ ['B', 'M', 'L', 'V', 'U', 'R', 'P', 'Q'] ∧
      get_chan_name freq i = .ok (String.mk (row.2.2 :: specSuffix i))) ∧
    (∀ name, get_chan_name freq i = .ok name →
      name.length = 3 ∧ name.data.head? ≠ some 'T') ∧
    (∀ j name name', 1 ≤ j ∧ j ≤ 5 → j ≠ i → get_chan_name freq i = .ok name →
      get_chan_name freq j = .ok name' → name ≠ name') ∧
    get_chan_name (.fin 1.0) 3 = .ok "LFZ" ∧
    get_chan_name (.fin 50.0) 1 = .ok "BFN" := by
  have key : ∀ name, get_chan_name freq i = .ok name →
      ∃ row ∈ specBandTable, inBandRow freq row = true ∧
        name = String.mk (row.2.2 :: specSuffix i) := by
    intro name hname
    cases hb : bandCode freq with
    | none => simp [get_chan_name, hb] at hname
    | some b =>
      obtain ⟨row, hrow, hin, rfl⟩ := row_of_bandCode freq b hb
      rw [get_chan_name_of_band freq _ i hb hi] at hname
      exact ⟨row, hrow, hin, (Except.ok.inj hname).symm⟩
  refine ⟨⟨?_, ?_⟩, ?_, ?_, ?_, ?_, ?_⟩
  · rintro ⟨name, hname⟩
    obtain ⟨row, hrow, hin, -⟩ := key name hname
    exact ⟨row, hrow, hin⟩
  · rintro ⟨row, hrow, hin⟩
    exact ⟨_, get_chan_name_of_band freq _ i (bandCode_of_row freq row hrow hin).1 hi⟩
  · intro row hrow hin
    have h := bandCode_of_row freq row hrow hin
    refine ⟨h.2, ?_, get_chan_name_of_band freq _ i h.1 hi⟩
    have h2 := h.2
    simp only [specBandTable, List.mem_cons, List.mem_singleton, List.not_mem_nil,
      or_false] at hrow
    rcases hrow with rfl | rfl | rfl | rfl | rfl | rfl | rfl | rfl | rfl <;> simp at h2 ⊢
  · intro name hname
    obtain ⟨row, hrow, hin, rfl⟩ := key name hname
    have h := bandCode_of_row freq row hrow hin
    refine ⟨?_, ?_⟩
    · obtain rfl | rfl | rfl | rfl | rfl : i = 1 ∨ i = 2 ∨ i = 3 ∨ i = 4 ∨ i = 5 := by omega
      all_goals simp [specSuffix, String.length]
    · simpa using h.2
  · intro j name name' hj hji hname hname' heq
    obtain ⟨row, hrow, hin, rfl⟩ := key name hname
    have h := bandCode_of_row freq row hrow hin
    rw [get_chan_name_of_band freq _ j h.1 hj] at hname'
    have h3 := Except.ok.inj hname'
    rw [← heq] at h3
    have h4 : specSuffix j = specSuffix i := by
      have := congrArg String.data h3
      simpa using this
    exact hji (specSuffix_injOn j i hj hi h4)
  · simp [get_chan_name, bandCode, CFloat.geLit, CFloat.ltLit]
    norm_num
  · simp [get_chan_name, bandCode, CFloat.geLit, CFloat.ltLit]
    norm_num

/-- Witness of C5 at frequency 1.0 and channel index 3. -/
theorem get_chan_name_table_witness :
    get_chan_name (.fin 1) 3 = .ok (String.mk ('L' :: specSuffix 3)) :=
  ((get_chan_name_table (.fin 1) 3 (by decide)).2.1 (some 0.5, 1.01, 'L')
    (by simp [specBandTable])
    (by simp [inBandRow, CFloat.geLit, CFloat.ltLit]; norm_num)).2.2

/-! ### C6: channel index out of range -/

/-- C6, counterexample. At 100 Hz, which has no band code, channel index 6 is
rejected with the band-code message, not with the channel-index message. -/
theorem get_chan_name_index_six_at_100Hz :
    get_chan_name (.fin 100) 6 = .error .bandCode ∧
    get_chan_name (.fin 100) 6 ≠ .error .channelIndex := by
  have h : get_chan_name (.fin 100) 6 = .error .bandCode := by
    simp [get_chan_name, bandCode, CFloat.geLit, CFloat.ltLit]
    norm_num
  exact ⟨h, by rw [h]; simp⟩

/-- C6, amended. For a channel index outside 1..5 `get_chan_name` always fails;
the failure is the unsupported-channel-index error when the frequency falls in
a row of the band table, and the band-code error when it does not. -/
theorem get_chan_name_bad_index (freq : CFloat) (i : Int) (hi : i < 1 ∨ 5 < i) :
    (∃ e, get_chan_name freq i = .error e) ∧
    ((∃ row ∈ specBandTable, inBandRow freq row = true) →
      get_chan_name freq i = .error .channelIndex) ∧
    ((¬ ∃ row ∈ specBandTable, inBandRow freq row = true) →
      get_chan_name freq i = .error .bandCode) := by
  have hidx : ∀ b, bandCode freq = some b → get_chan_name freq i = .error .channelIndex := by
    intro b hb
    have h1 : i ≠ 1 := by omega
    have h2 : i ≠ 2 := by omega
    have h3 : i ≠ 3 := by omega
    have h4 : i ≠ 4 := by omega
    have h5 : i ≠ 5 := by omega
    simp [get_chan_name, hb, h1, h2, h3, h4, h5]
  refine ⟨?_, ?_, ?_⟩
  · cases hb : bandCode freq with
    | none => exact ⟨.bandCode, by simp [get_chan_name, hb]⟩
    | some b => exact ⟨.channelIndex, hidx b hb⟩
  · rintro ⟨row, hrow, hin⟩
    exact hidx _ (bandCode_of_row freq row hrow hin).1
  · intro hno
    cases hb : bandCode freq with
    | none => simp [get_chan_name, hb]
    | some b =>
      obtain ⟨row, hrow, hin, -⟩ := row_of_bandCode freq b hb
      exact absurd ⟨row, hrow, hin⟩ hno

/-- Witness of the amended C6 at frequency 1.0 and channel index 6. -/
theorem get_chan_name_bad_index_witness :
    get_chan_name (.fin 1) 6 = .error .channelIndex :=
  (get_chan_name_bad_index (.fin 1) 6 (by decide)).2.1
    ⟨(some 0.5, 1.01, 'L'), by simp [specBandTable],
      by simp [inBandRow, CFloat.geLit, CFloat.ltLit]; norm_num⟩

/-! ### C7: segmentation against the reference -/

/-- C8, counterexample. Four scans whose channel 2 holds the flag at scan 1 and
valid samples elsewhere: when `packmsr` fails, one segment is produced, not
two. -/
theorem extract_channel_single_gap_failing_pack :
    extract_channel failingPack gapData4 4 9 2 "LFZ" 5 0 () =
      .ok ([{ channel := "LFZ", startidx := 0, samples := [5] }], ()) := by
  rfl

/-- C8, amended. For `0 < k < n - 1` and a channel whose column of `n` scans
holds the missing-data flag at scan `k` and valid samples everywhere else, the
extraction loop produces exactly two segments, provided `packmsr` does not fail
on the first: the samples of scans `[0, k)` with start scan 0, and the samples
of scans `[k + 1, n)` with start scan `k + 1`. -/
theorem extract_channel_single_gap {σ : Type} (packmsr : σ → Segment → Int × σ)
    (idata : List Int) (n k c : Nat) (flag : Int) (chan : String) (st : σ)
    (hlen : idata.length = 5 * n) (hc : c < 5) (hk0 : 0 < k) (hk : k + 1 < n)
    (hgap : idata.getD (5 * k + c) 0 = flag)
    (hvalid : ∀ i, i < n → i ≠ k → validSample flag (idata.getD (5 * i + c) 0) = true)
    (hpack : (packmsr st
      (Segment.mk chan 0 ((List.range k).map (fun j => idata.getD (5 * j + c) 0)))).1 = 0) :
    ∃ st', extract_channel packmsr idata (n : Int) flag c chan (n + 1) 0 st =
      .ok ([Segment.mk chan 0 ((List.range k).map (fun j => idata.getD (5 * j + c) 0)),
            Segment.mk chan (k + 1) ((List.range (n - (k + 1))).map
              (fun j => idata.getD (5 * (k + 1 + j) + c) 0))], st') := by
  have heq := extract_channel_eq packmsr idata n c flag chan hlen hc (n + 1) 0 st
    (Nat.zero_le _) (by omega) (Or.inl rfl)
  have hruns : runsFrom (validSample flag) (column idata n c) 0 =
      maximalRuns (validSample flag) (column idata n c) := by
    unfold runsFrom maximalRuns
    rw [List.range_eq_range', Nat.sub_zero]
  have hcl := column_length idata n c
  have hgap' : validSample flag ((column idata n c).getD k 0) = false := by
    rw [column_getD idata n c k (by omega), hgap]
    simp [validSample]
  have hvalid' : ∀ i, i < (column idata n c).length → i ≠ k →
      validSample flag ((column idata n c).getD i 0) = true := by
    intro i hi hik
    rw [hcl] at hi
    rw [column_getD idata n c i hi]
    exact hvalid i hi hik
  rw [hruns, single_gap_runs _ _ k hk0 (by rw [hcl]; exact hk) hgap' hvalid',
    column_take idata n c k (by omega), column_drop_eq] at heq
  rw [heq]
  unfold packRuns
  rw [if_neg (by rw [hpack]; simp)]
  unfold packRuns
  split_ifs
  · exact ⟨_, rfl⟩
  · unfold packRuns
    exact ⟨_, rfl⟩

set_option maxRecDepth 100000 in
/-- Witness of the amended C8, the example of the specification: 100 scans,
the flag at scan 10 of channel 2, a `packmsr` that never fails; the two segments
are scans `[0, 10)` and `[11, 100)`. -/
theorem extract_channel_single_gap_witness :
    ∃ st', extract_channel recordOnly hundredScans 100 (-999) 2 "LFZ" 101 0 [] =
      .ok ([Segment.mk "LFZ" 0
              ((List.range 10).map (fun j => hundredScans.getD (5 * j + 2) 0)),
            Segment.mk "LFZ" 11
              ((List.range 89).map (fun j => hundredScans.getD (5 * (11 + j) + 2) 0))], st') :=
  extract_channel_single_gap recordOnly hundredScans 100 10 2 (-999) "LFZ" [] (by decide)
    (by decide) (by decide) (by decide) (by decide) (by decide) rfl

/-! ### C9: segments hold valid samples only -/

/-- C9. Every segment handed to `packmsr` is non-empty and holds no sample equal
to the missing-data flag or at or above 2147483647: for every array, scan
count, flag, channel, `packmsr`, loop entry and fuel on which the loop of one
channel returns; for the segments of a whole `binconvert`; and the loop does
return on every parsed array of `5 * n` samples. -/
theorem segments_hold_valid_samples :
    (∀ (σ : Type) (packmsr : σ → Segment → Int × σ) (idata : List Int) (nscans flag : Int)
        (c : Nat) (chan : String) (fuel d : Nat) (st : σ) (segs : List Segment) (st' : σ),
      extract_channel packmsr idata nscans flag c chan fuel d st = .ok (segs, st') →
      ∀ seg ∈ segs, seg.samples ≠ [] ∧ ∀ v ∈ seg.samples, v ≠ flag ∧ v < 2147483647) ∧
    (∀ (σ : Type) (ext : Ext) (packmsr : σ → Segment → Int × σ) (ifp : Option (List Byte))
        (st : σ) (out : Converted σ) (p : BinFile),
      binconvert ext packmsr ifp st = .ok out → binconvert_checks ext ifp = .accepted p →
      ∀ seg ∈ out.segments,
        seg.samples ≠ [] ∧ ∀ v ∈ seg.samples, v ≠ p.missingdataflag ∧ v < 2147483647) ∧
    (∀ (σ : Type) (ext : Ext) (packmsr : σ → Segment → Int × σ) (ifp : Option (List Byte))
        (st : σ) (out : Converted σ),
      binconvert ext packmsr ifp st = .ok out → binconvert_checks ext ifp = .rejected →
      out.segments = []) ∧
    (∀ (σ : Type) (packmsr : σ → Segment → Int × σ) (idata : List Int) (n c : Nat)
        (flag : Int) (chan : String) (st : σ), idata.length = 5 * n → c < 5 →
      ∃ segs st', extract_channel packmsr idata (n : Int) flag c chan (n + 1) 0 st =
        .ok (segs, st')) := by
  refine ⟨?_, ?_, ?_, ?_⟩
  · intro σ packmsr idata nscans flag c chan fuel d st segs st' h
    exact extract_channel_valid packmsr idata nscans flag c chan fuel d st segs st' h
  · intro σ ext packmsr ifp st out p h hp
    unfold binconvert at h
    rw [hp] at h
    simp only at h
    split at h
    · cases h
    · rename_i segs st1 hconv
      cases h
      exact convert_channels_valid packmsr _ _ _ _ _ _ _ _ _ hconv
  · intro σ ext packmsr ifp st out h hp
    unfold binconvert at h
    rw [hp] at h
    cases h
    rfl
  · intro σ packmsr idata n c flag chan st hlen hc
    exact ⟨_, _, extract_channel_eq packmsr idata n c flag chan hlen hc (n + 1) 0 st
      (Nat.zero_le _) (by omega) (Or.inl rfl)⟩

/-- Witness of C9 on the three-scan example: both segments handed over are
non-empty and free of the flag 9. -/
theorem segments_hold_valid_samples_witness :
    ∀ seg ∈ [Segment.mk "LFN" 0 [1], Segment.mk "LFN" 2 [2]],
      seg.samples ≠ [] ∧ ∀ v ∈ seg.samples, v ≠ 9 ∧ v < 2147483647 :=
  segments_hold_valid_samples.1 (List Segment) recordOnly gapData 3 9 0 "LFN" 4 0 []
    [Segment.mk "LFN" 0 [1], Segment.mk "LFN" 2 [2]]
    [Segment.mk "LFN" 0 [1], Segment.mk "LFN" 2 [2]] rfl

/-! ### C10: conservation of samples -/

/-- C10, counterexample. The 128 Hz file passes `read_bin_file` and every check
of `binconvert`, all five of its samples are valid, and the encoder never
fails; yet no sample is packed, because 128 Hz has no band code and the loop
over the channels is left at the first channel. -/
theorem binconvert_128Hz_packs_nothing :
    binconvert_checks sampleExt (some fastFile) = .accepted fastParse ∧
    fastParse.data.countP (validSample fastParse.missingdataflag) = 5 ∧
    ∃ out, binconvert sampleExt countingPack (some fastFile) 0 = .ok out ∧
      out.ret = 0 ∧ out.segments = [] ∧ out.state = 0 := by
  refine ⟨fastFile_accepted, by decide, ?_⟩
  have hname : get_chan_name fastParse.s_rate ((0 : Nat) + 1 : Int) = .error .bandCode := by
    show get_chan_name (recipF32 0x3C000000) _ = _
    rw [recipF32_fast]
    simp [get_chan_name, bandCode, CFloat.geLit, CFloat.ltLit]
    norm_num
  unfold binconvert
  rw [fastFile_accepted]
  simp only
  unfold convert_channels
  simp only [Nat.ofNat_pos, if_true]
  rw [hname]
  exact ⟨_, rfl, rfl, rfl, rfl⟩

/-- C10, amended. For a file accepted by `read_bin_file` and by every check of
`binconvert` (non-zero data length, positive sample rate, data size, start
date, allocations), whose `nscans * 5` does not overflow and whose sample rate
falls in a row of the band table, and a `packmsr` that never fails and adds the
length of each segment to `packedsamples`: `binconvert` returns 0, the parsed
array has `5 * nscans` entries, and `packedsamples` grows by the number of
entries that are neither the missing-data flag nor at or above 2147483647. -/
theorem binconvert_conservation {σ : Type} (ext : Ext) (packmsr : σ → Segment → Int × σ)
    (packedsamples : σ → Int) (ifp : Option (List Byte)) (st : σ) (p : BinFile)
    (hacc : binconvert_checks ext ifp = .accepted p)
    (hsz : p.nscans * 5 < 2147483648)
    (hband : ∃ row ∈ specBandTable, inBandRow p.s_rate row = true)
    (hpack : ∀ st seg, (packmsr st seg).1 = 0 ∧
      packedsamples (packmsr st seg).2 = packedsamples st + seg.samples.length) :
    ∃ out, binconvert ext packmsr ifp st = .ok out ∧ out.ret = 0 ∧
      p.data.length = 5 * p.nscans.toNat ∧
      packedsamples out.state - packedsamples st =
        p.data.countP (validSample p.missingdataflag) := by
  obtain ⟨hlen, hn⟩ := accepted_data_length ext ifp p hacc hsz
  obtain ⟨row, hrow, hin⟩ := hband
  have hb := (bandCode_of_row p.s_rate row hrow hin).1
  have hname : ∀ c : Nat, c < 5 →
      ∃ chan, get_chan_name p.s_rate ((c : Int) + 1) = .ok chan := by
    intro c hc
    exact ⟨_, get_chan_name_of_band p.s_rate _ _ hb ⟨by omega, by omega⟩⟩
  obtain ⟨segs, st', hconv, hcount⟩ := convert_channels_count packmsr packedsamples p.s_rate
    p.data p.nscans.toNat p.missingdataflag hlen hname hpack 6 0 st (by omega) (by omega)
  rw [← hn] at hconv
  unfold binconvert
  rw [hacc]
  simp only
  rw [hconv]
  refine ⟨_, rfl, rfl, hlen, ?_⟩
  simp only
  rw [hcount, countP_columns (validSample p.missingdataflag) p.nscans.toNat p.data hlen]
  simp [List.range'_succ]
  ring

/-- Witness of the amended C10 on the 1 Hz sample file: its five valid samples
are all packed. -/
theorem binconvert_conservation_witness :
    ∃ out, binconvert sampleExt countingPack (some sampleFile) 0 = .ok out ∧ out.ret = 0 ∧
      sampleParse.data.length = 5 * sampleParse.nscans.toNat ∧
      out.state - 0 = sampleParse.data.countP (validSample sampleParse.missingdataflag) :=
  binconvert_conservation sampleExt countingPack (fun n => n) (some sampleFile) 0 sampleParse
    sampleFile_accepted (by decide)
    ⟨(some 0.5, 1.01, 'L'), by simp [specBandTable], by
      show inBandRow (recipF32 0x3F800000) _ = true
      rw [recipF32_one]
      simp [inBandRow, CFloat.geLit, CFloat.ltLit]
      norm_num⟩
    (fun _ _ => ⟨rfl, rfl⟩)

/-! ### C11: the start time of a segment -/

/-- C11, counterexample. At 3 Hz (the sample rate `1/dt` of the sampling
interval with bit pattern 0x3EAAAAAB) and a header start time of 2008-07-08
00:00:00, the segment of start scan 0 gets the header start time and the
segment of start scan 11 gets 3666666 ticks more, which is not 11/3 seconds
(no whole number of ticks is). At 10 Hz (bit pattern 0x3DCCCCCD) and a header
start time of 0 ticks, start scan 41 gets 4099999 ticks, one tick short of 4.1
seconds. -/
theorem segment_starttime_not_exact :
    recipF32 0x3EAAAAAB = .fin 3 ∧
    segment_starttime 1215475200000000 0 3 = some 1215475200000000 ∧
    segment_starttime 1215475200000000 11 3 = some 1215475203666666 ∧
    ((1215475203666666 : ℚ) ≠ 1215475200000000 + (11 : ℚ) / 3 * HPTMODULUS) ∧
    recipF32 0x3DCCCCCD = .fin 10 ∧
    segment_starttime 0 41 10 = some 4099999 ∧
    ((4099999 : ℚ) ≠ 0 + (41 : ℚ) / 10 * HPTMODULUS) := by
  refine ⟨recipF32_third, segment_starttime_zero _ _ (by norm_num), segment_starttime_3Hz, ?_,
    recipF32_tenth, segment_starttime_10Hz, ?_⟩
  · norm_num [HPTMODULUS]
  · norm_num [HPTMODULUS]

/-- C11, amended. The start time assigned to a segment of start scan `s` is
the header start time plus `s / r` seconds evaluated in `double` arithmetic
and cut to a whole tick. For a positive sample rate `r`, a start scan below
`2 ^ 31`, a header start time below `2 ^ 52` ticks in size and an offset below
`2 ^ 50` ticks, the assignment is defined and the start time is less than 2
ticks away from the header start time plus `s / r` seconds; it is the header
start time plus exactly `s / r` seconds when `r = 2 ^ j` with `j ≤ 6` (64 Hz,
..., 1 Hz, 0.5 Hz, ...), and in the 100-scan example (segments of start scans
0 and 11) the second start time then exceeds the first by exactly `11 / r`
seconds. -/
theorem segment_starttime_within_two_ticks (starttime : Int) (startidx : Nat)
    (samprate : ℚ) (hr : 0 < samprate) (hs : startidx < 2147483648)
    (ht : |starttime| < 2 ^ 52)
    (hticks : (startidx : ℚ) / samprate * 1000000 < 2 ^ 50) :
    ∃ t : Int, segment_starttime starttime startidx samprate = some t ∧
      |(t : ℚ) - (starttime + (startidx : ℚ) / samprate * HPTMODULUS)| < 2 ∧
      ∀ j : Int, j ≤ 6 → samprate = 2 ^ j →
        (t : ℚ) = starttime + (startidx : ℚ) / samprate * HPTMODULUS ∧
        ((11 : ℚ) / samprate * 1000000 < 2 ^ 50 →
          ∃ t0 t11 : Int, segment_starttime starttime 0 samprate = some t0 ∧
            segment_starttime starttime 11 samprate = some t11 ∧
            (t11 : ℚ) - t0 = (11 : ℚ) / samprate * HPTMODULUS) := by
  obtain ⟨t, h1, h2⟩ := segment_starttime_near starttime startidx samprate hr ht hticks
  refine ⟨t, h1, h2, ?_⟩
  intro j hj hpow
  subst hpow
  constructor
  · obtain ⟨t1, k1, k2⟩ := segment_starttime_exact starttime startidx j hj hs ht
      (lt_trans hticks (by norm_num))
    rw [h1] at k1
    cases k1
    rw [k2]
    rfl
  · intro h11
    obtain ⟨t11, k1, k2⟩ := segment_starttime_exact starttime 11 j hj (by norm_num) ht
      (lt_trans (by simpa using h11) (by norm_num))
    refine ⟨starttime, t11, segment_starttime_zero _ _ (lt_trans ht (by norm_num)), k1, ?_⟩
    rw [k2]
    simp [HPTMODULUS]

/-- Witness of the amended C11 at 3 Hz: start scan 11 after 2008-07-08 00:00:00
gets a start time less than 2 ticks away from 11/3 seconds after the header
start time. -/
theorem segment_starttime_within_two_ticks_witness :
    ∃ t : Int, segment_starttime 1215475200000000 11 3 = some t ∧
      |(t : ℚ) - ((1215475200000000 : Int) + ((11 : Nat) : ℚ) / 3 * HPTMODULUS)| < 2 := by
  obtain ⟨t, h1, h2, -⟩ := segment_starttime_within_two_ticks 1215475200000000 11 3
    (by norm_num) (by norm_num) (by norm_num) (by norm_num)
  exact ⟨t, h1, h2⟩

/-! ### C12: validation precedes segmentation -/

/-- C12, the code at the failing input. The file with the header of the sample
file, `nscans = 858993460` and a data block of 16 bytes is parsed; the `int`
product `nscans * 5` of line 239 is `4294967300`, which wraps to 4, so that the
comparison of line 239 finds the 16 bytes equal to `nscans * 5 * 4` although
they are not `20 * nscans`; the checks accept the file, channel 1 is named
LFN, and the extraction loop reads `idata[5]`, outside the four parsed
samples. For every file that is parsed: a sample rate `<= 0` or a data length
that the comparison finds different makes `binconvert` return -1 with no
segment handed to `packmsr` and the program state untouched; the comparison is
the inequality `datasize ≠ 20 * nscans` whenever `nscans * 5` does not
overflow; and the loop over the channels is entered only at a sample rate not
`<= 0`, with a data length of `20 * nscans` when `nscans * 5` does not
overflow, a channel being named only at a finite sample rate `> 0`. -/
theorem size_check_passes_after_overflow :
    read_bin_file overflowFile = .ok (overflowParse, []) ∧
    overflowParse.nscans = 858993460 ∧ overflowParse.ret = 16 ∧
    overflowParse.data.length = 4 ∧
    overflowParse.ret ≠ 20 * overflowParse.nscans ∧
    overflowParse.nscans * 5 = 4294967300 ∧ wrap32 (overflowParse.nscans * 5) = 4 ∧
    dataSizeMismatch overflowParse.ret overflowParse.nscans = false ∧
    binconvert_checks sampleExt (some overflowFile) = .accepted overflowParse ∧
    get_chan_name overflowParse.s_rate 1 = .ok "LFN" ∧
    overflowParse.data[5 * 1 + 0]? = none ∧
    (∀ (σ : Type) (packmsr : σ → Segment → Int × σ) (st : σ),
      binconvert sampleExt packmsr (some overflowFile) st = .error .readBounds) ∧
    ∀ (σ : Type) (ext : Ext) (packmsr : σ → Segment → Int × σ) (f r : List Byte)
      (p : BinFile) (st : σ), read_bin_file f = .ok (p, r) →
        ((p.s_rate.leLit 0 = true ∨ dataSizeMismatch p.ret p.nscans = true) →
          binconvert_checks ext (some f) = .rejected ∧
          binconvert ext packmsr (some f) st = .ok { ret := -1, segments := [], state := st }) ∧
        ((-2147483648 ≤ p.nscans * 5 ∧ p.nscans * 5 < 2147483648) →
          (dataSizeMismatch p.ret p.nscans = true ↔ p.ret ≠ 20 * p.nscans)) ∧
        (∀ p1, binconvert_checks ext (some f) = .accepted p1 →
          p1 = p ∧ p.s_rate.leLit 0 = false ∧ dataSizeMismatch p.ret p.nscans = false ∧
          (p.nscans * 5 < 2147483648 → p.ret = 20 * p.nscans) ∧
          (∀ i chan, get_chan_name p.s_rate i = .ok chan → ∃ q : ℚ, 0 < q ∧ p.s_rate = .fin q)) ∧
        (∀ out, binconvert ext packmsr (some f) st = .ok out → out.segments ≠ [] →
          binconvert_checks ext (some f) = .accepted p) := by
  have hname : get_chan_name overflowParse.s_rate 1 = .ok "LFN" := by
    show get_chan_name (recipF32 0x3F800000) 1 = _
    rw [recipF32_one]
    exact get_chan_name_of_band _ 'L' 1 bandCode_1Hz (by decide)
  refine ⟨rfl, rfl, rfl, rfl, by decide, rfl, by decide, by decide, overflowFile_accepted,
    hname, rfl, fun σ packmsr st => overflowFile_binconvert packmsr st, ?_⟩
  intro σ ext packmsr f r p st hp
  have hchk : ∀ p1, binconvert_checks ext (some f) = .accepted p1 →
      p1 = p ∧ p.s_rate.leLit 0 = false ∧ dataSizeMismatch p.ret p.nscans = false ∧
      0 ≤ p.nscans := by
    intro p1 h1
    obtain ⟨f1, r1, hf, hread, -, hle, hmis, -, -, hn⟩ := binconvert_checks_accepted ext _ p1 h1
    cases hf
    rw [hp] at hread
    cases hread
    exact ⟨rfl, hle, hmis, hn⟩
  obtain ⟨-, hret0, hret1⟩ := read_bin_file_data_length f p r hp
  refine ⟨?_, fun hn => dataSizeMismatch_iff _ _ ⟨hret0, hret1⟩ hn, ?_, ?_⟩
  · intro hbad
    have hrej : binconvert_checks ext (some f) = .rejected := by
      cases hc : binconvert_checks ext (some f) with
      | rejected => rfl
      | accepted p1 =>
        obtain ⟨-, hle, hmis, -⟩ := hchk p1 hc
        rcases hbad with hbad | hbad
        · rw [hle] at hbad
          cases hbad
        · rw [hmis] at hbad
          cases hbad
    refine ⟨hrej, ?_⟩
    unfold binconvert
    rw [hrej]
  · intro p1 h1
    obtain ⟨h2, hle, hmis, hn⟩ := hchk p1 h1
    refine ⟨h2, hle, hmis, ?_, fun i chan hc => named_rate_positive _ i chan hle hc⟩
    intro hsz
    by_contra hne
    have := (dataSizeMismatch_iff p.ret p.nscans ⟨hret0, hret1⟩ ⟨by omega, hsz⟩).2 hne
    rw [hmis] at this
    cases this
  · intro out hout hseg
    cases hc : binconvert_checks ext (some f) with
    | rejected =>
      unfold binconvert at hout
      rw [hc] at hout
      cases hout
      exact absurd rfl hseg
    | accepted p1 =>
      rw [(hchk p1 hc).1]

/-! ### C13: a failed `packmsr` -/

/-- C13, the code at the failing input. On the 1 Hz sample file with a
`packmsr` whose first call fails, the call for channel LFN returns -1 and the
conversion goes on: the segments of the four later channels are still passed
to `packmsr`, and `binconvert` returns 0. In general `packmsr` returns -1 when
no stream is open and `fopen` fails, and when the encoder returns a negative
record count; a failed call ends the conversion of its channel only: in the
record of the calls made by `binconvert` (the segments passed, in call order,
each with the value returned), a call that is followed by another call for the
same channel code has returned 0, and for an accepted file whose `nscans * 5`
does not overflow and whose sample rate has a band code, the first segment of
every channel is passed to `packmsr`, whatever the earlier calls returned. -/
theorem binconvert_continues_after_failed_pack :
    binconvert sampleExt (logged failFirst) (some sampleFile) (0, []) =
      .ok { ret := 0, segments := sampleSegments,
            state := (5,
              [({ channel := "LFN", startidx := 0, samples := [1] }, -1),
               ({ channel := "LFE", startidx := 0, samples := [2] }, 0),
               ({ channel := "LFZ", startidx := 0, samples := [3] }, 0),
               ({ channel := "LQN", startidx := 0, samples := [4] }, 0),
               ({ channel := "LQE", startidx := 0, samples := [5] }, 0)]) } ∧
    ∀ (σ : Type) (ext : Ext) (packmsr1 : σ → Segment → Int × σ)
      (ifp : Option (List Byte)) (st : σ) (out : Converted (σ × List (Segment × Int))),
      binconvert ext (logged packmsr1) ifp (st, []) = .ok out →
      (∀ (env : PackEnv) (outfile : Option String) (chanfiles : Bool) (encoding : Int)
          (ps : PackState) (msr : MSRecord),
        (ps.outfp = none → (∀ name, env.fopen ps.fopens name = false) →
          (packmsr env outfile chanfiles encoding ps msr).1 = -1) ∧
        ((env.msr_pack { msr with encoding := encoding }).1 < 0 →
          (packmsr env outfile chanfiles encoding ps msr).1 = -1)) ∧
      out.state.2.map Prod.fst = out.segments ∧
      (∀ l1 e l2, out.state.2 = l1 ++ e :: l2 →
        ∀ e1 ∈ l2, e1.1.channel = e.1.channel → e.2 = 0) ∧
      ∀ (p : BinFile) (b : Char), binconvert_checks ext ifp = .accepted p →
        p.nscans * 5 < 2147483648 → bandCode p.s_rate = some b →
        ∀ (c : Nat) (seg : Segment), c < 5 →
          (referenceSegments p.data p.nscans.toNat c p.missingdataflag
            (String.mk (b :: specSuffix ((c : Int) + 1)))).head? = some seg →
          seg ∈ out.segments := by
  refine ⟨?_, ?_⟩
  · rw [sampleFile_binconvert]
    rfl
  intro σ ext packmsr1 ifp st out h
  refine ⟨?_, ?_⟩
  · intro env outfile chanfiles encoding ps msr
    constructor
    · intro hnone hfail
      unfold packmsr fopen_w
      cases outfile <;> cases chanfiles <;> simp [hnone, hfail]
    · intro hneg
      have hrec : ∀ (ofp : OutStream) (ps1 : PackState),
          (pack_records env encoding ofp ps1 msr).1 = -1 := by
        intro ofp ps1
        unfold pack_records
        simp only
        rw [if_pos hneg]
      unfold packmsr fopen_w
      cases outfile <;> cases chanfiles <;> cases ps.outfp <;> simp only [hrec] <;>
        split_ifs <;> simp [hrec]
  · unfold binconvert at h
    cases hc : binconvert_checks ext ifp with
    | rejected =>
      rw [hc] at h
      cases h
      exact ⟨rfl, fun l1 e l2 hl => by simp at hl, fun p b hp => by cases hp⟩
    | accepted p =>
      rw [hc] at h
      simp only at h
      cases hconv : convert_channels (logged packmsr1) p.s_rate p.data p.nscans
          p.missingdataflag 6 0 (st, []) with
      | error f =>
        rw [hconv] at h
        cases h
      | ok q =>
        obtain ⟨segs, st1, log⟩ := q
        rw [hconv] at h
        cases h
        obtain ⟨L, hL, hmap, -, hlast⟩ := convert_channels_logged packmsr1 p.s_rate p.data
          p.nscans p.missingdataflag 6 0 st [] segs st1 log hconv
        simp only [List.nil_append] at hL
        subst hL
        refine ⟨hmap, hlast, ?_⟩
        intro p1 b hp1 hsz hb c seg hc5 hhead
        cases hp1
        obtain ⟨hlen, hn⟩ := accepted_data_length ext ifp p hc hsz
        rw [hn] at hconv
        exact convert_channels_first_run (logged packmsr1) p.s_rate p.data p.nscans.toNat
          p.missingdataflag b hlen hb 6 0 _ _ _ hconv c seg (Nat.zero_le _) hc5 (by omega) hhead

/-! ### C14: consolidated mode -/

/-- C14, counterexample. In consolidated mode (no `-o`, no `-C`), two records
of network EM whose start times are 0 and 11000000 ticks are handed to the
encoder with the same stream, the one opened for the first record under the
name of the first start time, although the second record has another start
time and its own name would be another one. -/
theorem consolidated_mode_second_start_time :
    (packmsr_calls sampleEnv none false 11
        [sampleRecord 0 [1, 2], sampleRecord 11000000 [3]] PackState.start).2.packed =
      [({ name := "EM..1970-01-01T00:00:00", rank := 0 },
          { sampleRecord 0 [1, 2] with encoding := 11 }),
       ({ name := "EM..1970-01-01T00:00:00", rank := 0 },
          { sampleRecord 11000000 [3] with encoding := 11 })] ∧
    (sampleRecord 0 [1, 2]).starttime ≠ (sampleRecord 11000000 [3]).starttime ∧
    sharedName sampleEnv none (sampleRecord 11000000 [3]) = "EM..1970-01-01T00:00:11" := by
  refine ⟨by rfl, by decide, by rfl⟩

/-- C14, amended. In consolidated mode, over any sequence of `packmsr` calls
from program start: at most one stream is ever opened and none is closed;
every record handed to the encoder is handed with that one stream, `outfp`,
whatever its start time; the stream is named network.station.time after the
first record that reaches the encoder, the one whose call opened it; and the
records that reach the encoder are, in call order, all those from that call
on. -/
theorem consolidated_mode_one_stream (env : PackEnv) (encoding : Int)
    (msrs : List MSRecord) :
    ∃ rets st, packmsr_calls env none false encoding msrs PackState.start = (rets, st) ∧
      st.closed = [] ∧ st.opened.length ≤ 1 ∧
      (∀ x ∈ st.packed, st.outfp = some x.1) ∧
      (∀ s m rest, st.packed = (s, m) :: rest →
        st.opened = [s] ∧
        s.name = m.network ++ "." ++ m.station ++ "." ++
          env.ms_hptime2isotimestr m.starttime) ∧
      ∃ pre, msrs.map (fun m => { m with encoding := encoding }) =
        pre ++ st.packed.map Prod.snd := by
  refine ⟨_, _, rfl, ?_⟩
  obtain ⟨h1, h2⟩ := packmsr_calls_shared_closed env none false encoding (Or.inr rfl) msrs
    PackState.start rfl
  refine ⟨h1, ?_⟩
  rcases h2 with ⟨a1, a2, a3, -, -⟩ | ⟨pre, m, post, b1, -, -, -, b4, b5, -, b7⟩
  · rw [a2, a3]
    refine ⟨by simp [PackState.start], by simp [PackState.start], ?_, ?_⟩
    · intro s m rest h
      simp [PackState.start] at h
    · exact ⟨msrs.map (fun m => { m with encoding := encoding }), by simp [PackState.start]⟩
  · rw [b4, b5, b7]
    refine ⟨by simp [PackState.start], ?_, ?_, ?_⟩
    · intro x hx
      simp only [PackState.start, List.nil_append, List.mem_map] at hx
      obtain ⟨y, -, rfl⟩ := hx
      rfl
    · intro s m1 rest h
      simp only [PackState.start, List.nil_append, List.map_cons, List.cons.injEq,
        Prod.mk.injEq] at h
      obtain ⟨⟨rfl, rfl⟩, -⟩ := h
      exact ⟨rfl, rfl⟩
    · refine ⟨pre.map (fun m => { m with encoding := encoding }), ?_⟩
      rw [b1]
      simp [PackState.start, Function.comp_def]

/-! ### C15: single-file mode -/

/-- C15, counterexample. In single-file mode with a first `fopen` that fails
and a second that returns a stream, the first call of `packmsr` returns -1
and hands the encoder nothing, and the stream is opened by the second call. -/
theorem single_file_mode_failed_open :
    packmsr_calls flakyEnv (some "out.mseed") false 11
        [sampleRecord 0 [1, 2], sampleRecord 11000000 [3]] PackState.start =
      ([-1, 0],
        { outfp := some { name := "out.mseed", rank := 1 }, packedsamples := 1,
          packedrecords := 1, fopens := 2, opened := [{ name := "out.mseed", rank := 1 }],
          packed := [({ name := "out.mseed", rank := 1 },
            { sampleRecord 11000000 [3] with encoding := 11 })],
          closed := [] }) := by
  rfl

/-- C15, amended. In single-file mode (an output file `name` given with `-o`),
over any sequence of `packmsr` calls from program start and whatever the
per-channel flag: at most one stream is ever opened, under the name given,
and none is closed; the calls split into those before the stream is open,
whose `fopen` fails and which return -1 and hand the encoder nothing, and
those from the call that opens it on, each of which hands the encoder its
record with that stream, `outfp`, in call order; and when the first `fopen`
returns a stream, every record reaches the encoder and the stream is opened
by the first call, the only call of `fopen`. -/
theorem single_file_mode_one_stream (env : PackEnv) (name : String) (chanfiles : Bool)
    (encoding : Int) (msrs : List MSRecord) :
    ∃ rets st, packmsr_calls env (some name) chanfiles encoding msrs PackState.start =
        (rets, st) ∧
      st.closed = [] ∧ st.opened.length ≤ 1 ∧
      (∀ s ∈ st.opened, s.name = name) ∧
      (∀ x ∈ st.packed, st.outfp = some x.1 ∧ st.opened = [x.1]) ∧
      (∃ pre post, msrs = pre ++ post ∧
        (∀ i x, pre[i]? = some x → env.fopen i name = false) ∧
        (∀ (i : Nat) (r : Int), i < pre.length → rets[i]? = some r → r = -1) ∧
        st.packed.map Prod.snd = post.map (fun m => { m with encoding := encoding })) ∧
      (env.fopen 0 name = true →
        st.packed.map Prod.snd = msrs.map (fun m => { m with encoding := encoding }) ∧
        (msrs ≠ [] → st.opened = [{ name := name, rank := 0 }] ∧ st.fopens = 1)) := by
  refine ⟨_, _, rfl, ?_⟩
  obtain ⟨h1, h2⟩ := packmsr_calls_shared_closed env (some name) chanfiles encoding
    (Or.inl (by simp)) msrs PackState.start rfl
  refine ⟨h1, ?_⟩
  rcases h2 with ⟨a1, a2, a3, -, a5, a6⟩ | ⟨pre, m, post, b1, b2, b8, b3, b4, b5, b6, b7⟩
  · rw [a2, a3]
    refine ⟨by simp [PackState.start], by simp [PackState.start],
      by simp [PackState.start], ⟨msrs, [], by simp, ?_, fun i r _ hr => a6 i r hr,
        by simp [PackState.start]⟩, ?_⟩
    · intro i x hx
      have := a5 i x hx
      simpa [PackState.start, sharedName] using this
    · intro hf
      cases msrs with
      | nil => exact ⟨rfl, fun h => absurd rfl h⟩
      | cons m rest =>
        have := a5 0 m (by simp)
        simp only [PackState.start, sharedName, Nat.add_zero] at this
        rw [hf] at this
        cases this
  · rw [b4, b5, b6, b7]
    refine ⟨by simp [PackState.start], ?_, ?_, ?_, ?_⟩
    · intro s hs
      simp only [PackState.start, List.nil_append, List.mem_singleton] at hs
      rw [hs]
      rfl
    · intro x hx
      simp only [PackState.start, List.nil_append, List.mem_map] at hx
      obtain ⟨y, -, rfl⟩ := hx
      exact ⟨rfl, rfl⟩
    · refine ⟨pre, m :: post, b1, ?_, b8, ?_⟩
      · intro i x hx
        have := b2 i x hx
        simpa [PackState.start, sharedName] using this
      · simp [PackState.start, Function.comp_def]
    · intro hf
      have hpre : pre = [] := by
        cases pre with
        | nil => rfl
        | cons x pre =>
          have := b2 0 x (by simp)
          simp only [PackState.start, sharedName, Nat.add_zero] at this
          rw [hf] at this
          cases this
      subst hpre
      refine ⟨?_, fun _ => ⟨?_, ?_⟩⟩
      · rw [b1]
        simp [PackState.start, Function.comp_def]
      · simp [PackState.start, sharedName]
      · simp [PackState.start]

/-! ### C16: encoding validation -/

/-- C16. Encoding validation. The loop over the arguments either ends the
process (an earlier exit) or leaves global variables `o`, with `encoding = 11`
when no argument is `-e`. In the second case, when there is an input argument:
if `encoding` is not 3, 10 or 11, `parameter_proc` ends the process with
status 1 having read no list file, and `main` ends with status 1 having read
no list file and called `binconvert` on no file; if `encoding` is 3, 10 or 11,
`parameter_proc` does not end the process, and it returns 0 with the global
variables as they are when no input argument names a list file. -/
theorem encoding_validation (strtoul : String → Nat) (readlistfile : String → List String)
    (fuel : Nat) (argvec : List String) :
    (∃ status,
      process_arguments strtoul argvec (argvec.length + 1) 1 Options.start =
        .error (.exit status)) ∨
    ∃ o, process_arguments strtoul argvec (argvec.length + 1) 1 Options.start = .ok o ∧
      ((∀ a ∈ argvec, a ≠ "-e") → o.encoding = 11) ∧
      (o.filelist ≠ [] →
        ((o.encoding ≠ 3 ∧ o.encoding ≠ 10 ∧ o.encoding ≠ 11) →
          parameter_proc strtoul readlistfile fuel argvec =
            { listfiles := [], result := .error (.exit 1) } ∧
          ∀ (σ : Type) (binconvert : Options → σ → String → Int × σ) (st : σ),
            main strtoul readlistfile binconvert fuel argvec st =
              { listfiles := [], binconverts := [], state := st,
                result := .error (.exit 1) }) ∧
        ((o.encoding = 3 ∨ o.encoding = 10 ∨ o.encoding = 11) →
          (∀ status, (parameter_proc strtoul readlistfile fuel argvec).result ≠
            .error (.exit status)) ∧
          ((∀ a ∈ o.filelist, a.data.head? ≠ some '@') → o.filelist.length < fuel →
            parameter_proc strtoul readlistfile fuel argvec =
              { listfiles := [], result := .ok (0, o) }))) := by
  cases hargs : process_arguments strtoul argvec (argvec.length + 1) 1 Options.start with
  | error e =>
    cases e with
    | exit status => exact Or.inl ⟨status, rfl⟩
    | fuel =>
      exact absurd hargs
        (process_arguments_fuel strtoul argvec _ _ _ (by omega) (by omega))
  | ok o =>
    refine Or.inr ⟨o, rfl, ?_, ?_⟩
    · intro hne
      exact process_arguments_encoding strtoul argvec hne _ _ _ _ hargs
    · intro hfiles
      constructor
      · intro hbad
        have hp : parameter_proc strtoul readlistfile fuel argvec =
            { listfiles := [], result := .error (.exit 1) } := by
          unfold parameter_proc
          rw [hargs]
          simp only
          rw [if_neg hfiles, if_pos hbad]
        refine ⟨hp, ?_⟩
        intro σ binconvert st
        unfold main
        rw [hp]
      · intro hgood
        have hnot : ¬ (o.encoding ≠ 3 ∧ o.encoding ≠ 10 ∧ o.encoding ≠ 11) := by
          intro h
          rcases hgood with h1 | h1 | h1
          · exact h.1 h1
          · exact h.2.1 h1
          · exact h.2.2 h1
        have hp : parameter_proc strtoul readlistfile fuel argvec =
            match expand_lists readlistfile fuel [] o.filelist [] with
            | .error h => { listfiles := [], result := .error h }
            | .ok (filelist, lists) =>
              { listfiles := lists, result := .ok (0, { o with filelist := filelist }) } := by
          unfold parameter_proc
          rw [hargs]
          simp only
          rw [if_neg hfiles, if_neg hnot]
        constructor
        · intro status hres
          rw [hp] at hres
          cases hex : expand_lists readlistfile fuel [] o.filelist [] with
          | error e =>
            rw [hex] at hres
            simp only [Except.error.injEq] at hres
            rw [hres] at hex
            exact expand_lists_no_exit readlistfile _ _ _ _ _ hex
          | ok q =>
            rw [hex] at hres
            cases hres
        · intro hplain hlen
          rw [hp, expand_lists_plain readlistfile fuel [] o.filelist [] hlen hplain]
          simp

/-- Witness of C16 on the command line `mt2mseed -e 4 a.bin`: the process ends
with status 1 and no list file is read. -/
theorem encoding_validation_witness :
    parameter_proc decimal (fun _ => []) 10 ["mt2mseed", "-e", "4", "a.bin"] =
      { listfiles := [], result := .error (.exit 1) } := by
  have hargs : process_arguments decimal ["mt2mseed", "-e", "4", "a.bin"] 5 1 Options.start =
      .ok { Options.start with encoding := 4, filelist := ["a.bin"] } := rfl
  rcases encoding_validation decimal (fun _ => []) 10 ["mt2mseed", "-e", "4", "a.bin"] with
    ⟨s, hs⟩ | ⟨o, ho, -, h⟩
  · rw [show ["mt2mseed", "-e", "4", "a.bin"].length + 1 = 5 from rfl, hargs] at hs
    cases hs
  · rw [show ["mt2mseed", "-e", "4", "a.bin"].length + 1 = 5 from rfl, hargs] at ho
    cases ho
    exact ((h (by decide)).1 (by decide)).1

/-! ### C17: the return value of `binconvert` -/

/-- C17, the code at the failing inputs. On the 1 Hz sample file with a
`packmsr` on which every call fails, `binconvert` returns 0 although no
segment was packed; on the 128 Hz file, for which no channel code can be
determined, `binconvert` returns 0 although no channel was converted. In
general `binconvert` returns -1 exactly when a check before the loop over the
channels rejects the file, and 0 otherwise. -/
theorem binconvert_returns_zero_after_failure :
    (∀ st seg, (failingPack st seg).1 = -1) ∧
    binconvert sampleExt failingPack (some sampleFile) () =
      .ok { ret := 0, segments := sampleSegments, state := () } ∧
    get_chan_name fastParse.s_rate 1 = .error .bandCode ∧
    binconvert sampleExt recordOnly (some fastFile) [] =
      .ok { ret := 0, segments := [], state := [] } ∧
    ∀ (σ : Type) (ext : Ext) (packmsr1 : σ → Segment → Int × σ) (ifp : Option (List Byte))
      (st : σ) (out : Converted σ), binconvert ext packmsr1 ifp st = .ok out →
      (out.ret = -1 ↔ binconvert_checks ext ifp = .rejected) ∧
      (out.ret = 0 ↔ ∃ p, binconvert_checks ext ifp = .accepted p) := by
  have hname : get_chan_name fastParse.s_rate 1 = .error .bandCode := by
    show get_chan_name (recipF32 0x3C000000) _ = _
    rw [recipF32_fast]
    simp [get_chan_name, bandCode, CFloat.geLit, CFloat.ltLit]
    norm_num
  refine ⟨fun _ _ => rfl, ?_, hname, ?_, ?_⟩
  · rw [sampleFile_binconvert]
  · unfold binconvert
    rw [fastFile_accepted]
    simp only
    unfold convert_channels
    simp only [Nat.ofNat_pos, if_true]
    have h1 : (((0 : Nat) : Int) + 1) = 1 := rfl
    rw [h1, hname]
  · intro σ ext packmsr1 ifp st out h
    unfold binconvert at h
    cases hc : binconvert_checks ext ifp with
    | rejected =>
      rw [hc] at h
      cases h
      exact ⟨⟨fun _ => rfl, fun _ => rfl⟩, ⟨fun h0 => (by cases h0), fun ⟨p, hp⟩ => (by cases hp)⟩⟩
    | accepted p =>
      rw [hc] at h
      simp only at h
      cases hconv : convert_channels packmsr1 p.s_rate p.data p.nscans p.missingdataflag 6 0
          st with
      | error f =>
        rw [hconv] at h
        cases h
      | ok q =>
        obtain ⟨segs, st1⟩ := q
        rw [hconv] at h
        cases h
        exact ⟨⟨fun h0 => (by cases h0), fun h0 => (by cases h0)⟩, ⟨fun _ => ⟨p, rfl⟩, fun _ => rfl⟩⟩

/-! ### C18: the driver skips and continues -/

/-- C18. Whenever `parameter_proc` returns, with the file list `o.filelist`:
`main` returns 0, and it calls `binconvert` exactly once on each file of the
list, in list order, whatever the calls return (`binconvert` is any function
of the program state and the file name); the loop does so on every list of
files. -/
theorem main_converts_every_file {σ : Type} (strtoul : String → Nat)
    (readlistfile : String → List String) (binconvert : Options → σ → String → Int × σ)
    (fuel : Nat) (argv : List String) (st : σ) (ret : Int) (o : Options)
    (h : (parameter_proc strtoul readlistfile fuel argv).result = .ok (ret, o)) :
    (main strtoul readlistfile binconvert fuel argv st).result = .ok 0 ∧
    (main strtoul readlistfile binconvert fuel argv st).binconverts.map Prod.fst =
      o.filelist ∧
    (main strtoul readlistfile binconvert fuel argv st).binconverts =
      (convert_files (binconvert o) o.filelist st).1 ∧
    ∀ (files : List String) (st1 : σ),
      (convert_files (binconvert o) files st1).1.map Prod.fst = files := by
  have hret := parameter_proc_returns_zero strtoul readlistfile fuel argv ret o h
  subst hret
  have hm : main strtoul readlistfile binconvert fuel argv st =
      { listfiles := (parameter_proc strtoul readlistfile fuel argv).listfiles,
        binconverts := (convert_files (binconvert o) o.filelist st).1,
        state := (convert_files (binconvert o) o.filelist st).2,
        result := .ok 0 } := by
    unfold main
    rw [h]
    simp
  rw [hm]
  exact ⟨rfl, convert_files_calls _ _ _, rfl, fun files st1 => convert_files_calls _ _ _⟩

/-- Witness of C18 on the command line `mt2mseed a.bin b.bin` with a
`binconvert` that fails on `a.bin`: both files are converted, in order, and
`main` returns 0. -/
theorem main_converts_every_file_witness :
    (main decimal (fun _ => []) failOnA 10 ["mt2mseed", "a.bin", "b.bin"] 0).result = .ok 0 ∧
    (main decimal (fun _ => []) failOnA 10 ["mt2mseed", "a.bin", "b.bin"] 0).binconverts =
      [("a.bin", -1), ("b.bin", 0)] := by
  have h := main_converts_every_file decimal (fun _ => []) failOnA 10
    ["mt2mseed", "a.bin", "b.bin"] 0 0 { Options.start with filelist := ["a.bin", "b.bin"] } rfl
  exact ⟨h.1, by rw [h.2.2.1]; rfl⟩

/-! ### C19: unused header fields -/

/-- C19. For two streams of the same length whose bytes agree at every offset
outside the unused header fields (latitude, longitude, declination,
elevation, `clock_zero`, the gap type, the gap table and the padding, as laid
out by the header length of the first stream), `read_bin_file` gives the same
outcome: the same error on both, or success on both with the same return
value, sample rate, number of scans, start time, missing-data flag, data
array and rest of the stream. In particular this holds for two streams that
differ only in the gap type code, bytes 76-79, whatever its value. -/
theorem unused_fields_do_not_matter (f f' : List Byte)
    (h : differOnlyUnused f f' = true) :
    read_bin_file f' = read_bin_file f ∧
    returnValue (read_bin_file f') = returnValue (read_bin_file f) ∧
    ∀ g g' : List Byte, g.length = g'.length →
      (∀ i, ¬ (76 ≤ i ∧ i < 80) → g[i]? = g'[i]?) →
      read_bin_file g' = read_bin_file g := by
  have h1 := read_bin_file_unused f f' h
  refine ⟨h1, by rw [h1], ?_⟩
  intro g g' hlen hg
  apply read_bin_file_unused
  apply differOnlyUnused_of_agree g g' hlen
  intro i hi
  apply hg
  intro h76
  simp only [unusedOffset, decide_eq_false_iff_not] at hi
  omega

set_option maxRecDepth 100000 in
/-- Witness of C19 on two files with one gap and one padding word that differ
in every unused field (0 against 7): both parse to the same result. -/
theorem unused_fields_do_not_matter_witness :
    differOnlyUnused (paddedFile 0) (paddedFile 7) = true ∧
      read_bin_file (paddedFile 7) = read_bin_file (paddedFile 0) :=
  ⟨by decide, (unused_fields_do_not_matter (paddedFile 0) (paddedFile 7) (by decide)).1⟩

/-! ### C20: header framing -/

/-- C20. On every successful parse, with `hd` the header read and `d` the data
block: the padding holds `1 + rl/4 - 22 - 3 * ngaps` words as the `int`
arithmetic of the code computes it, which is that number whenever `3 * ngaps`
does not overflow; the gap table and the padding together hold `rl/4 - 21`
words whatever the gap count, so that the bytes between the leading and the
trailing header length record are `4 * (rl/4)` (`rl` itself when `rl` is a
multiple of 4), the header with both records taking `8 + 4 * (rl/4)` bytes;
and the parse consumes `16 + 4 * (rl/4) + 4 * (rl2/4)` bytes of the stream,
`rl2` being the data length record, which is the value returned. -/
theorem header_framing (f : List Byte) (p : BinFile) (r : List Byte)
    (h : read_bin_file f = .ok (p, r)) :
    ∃ hd s1 d, read_header f = .ok (hd, s1) ∧ read_data_block hd.swapflag s1 = .ok (d, r) ∧
      d.rl = p.ret ∧
      (hd.itmp.length : Int) =
        wrap32 (1 + Int.tdiv hd.j1 4 - 22 - wrap32 (3 * hd.ngaps)) ∧
      ((-2147483648 ≤ 3 * hd.ngaps ∧ 3 * hd.ngaps < 2147483648) →
        (hd.gaps.length : Int) = 3 * hd.ngaps ∧
        (hd.itmp.length : Int) = 1 + Int.tdiv hd.j1 4 - 22 - 3 * hd.ngaps) ∧
      (hd.gaps.length : Int) + hd.itmp.length + 21 = Int.tdiv hd.j1 4 ∧
      (f.length : Int) - s1.length - 8 = 4 * Int.tdiv hd.j1 4 ∧
      (hd.j1 % 4 = 0 → 4 * Int.tdiv hd.j1 4 = hd.j1) ∧
      (f.length : Int) - r.length = 16 + 4 * Int.tdiv hd.j1 4 + 4 * Int.tdiv p.ret 4 := by
  rw [read_bin_file_eq] at h
  cases hh : read_header f with
  | error e =>
    rw [hh] at h
    cases h
  | ok q =>
    obtain ⟨hd, s1⟩ := q
    rw [hh] at h
    simp only at h
    by_cases hj : hd.j1 ≠ hd.j2
    · rw [if_pos hj] at h
      cases h
    rw [if_neg hj] at h
    cases hdb : read_data_block hd.swapflag s1 with
    | error e =>
      rw [hdb] at h
      cases h
    | ok q2 =>
      obtain ⟨d, s2⟩ := q2
      rw [hdb] at h
      simp only at h
      by_cases hj2 : d.rl ≠ d.j2
      · rw [if_pos hj2] at h
        cases h
      rw [if_neg hj2] at h
      simp only [Except.ok.injEq, Prod.mk.injEq] at h
      obtain ⟨rfl, rfl⟩ := h
      obtain ⟨hrl, k1, k2, hg, hi, hsum, hlen⟩ := read_header_framing f hd s1 hh
      obtain ⟨hd0, hdlen⟩ := read_data_block_length hd.swapflag s1 d s2 hdb
      refine ⟨hd, s1, d, rfl, hdb, rfl, hi, ?_, hsum, by omega, ?_, ?_⟩
      · intro hno
        have hw : wrap32 (3 * hd.ngaps) = 3 * hd.ngaps := by
          unfold wrap32
          omega
        rw [hw] at hg
        exact ⟨hg, by omega⟩
      · intro h4
        rw [tdiv_pos_lit _ 4 (by decide)]
        split_ifs <;> omega
      · simp only
        omega

/-- Witness of C20 on the 1 Hz sample file, whose header length is 84 and data
length 20: the parse consumes all `16 + 84 + 20` bytes. -/
theorem header_framing_witness :
    ∃ hd s1 d, read_header sampleFile = .ok (hd, s1) ∧
      read_data_block hd.swapflag s1 = .ok (d, []) ∧
      (sampleFile.length : Int) - ([] : List Byte).length =
        16 + 4 * Int.tdiv hd.j1 4 + 4 * Int.tdiv sampleParse.ret 4 := by
  obtain ⟨hd, s1, d, h1, h2, -, -, -, -, -, -, h3⟩ :=
    header_framing sampleFile sampleParse [] rfl
  exact ⟨hd, s1, d, h1, h2, h3⟩

/-! ### C21: byte-order detection is unambiguous -/

/-- C21. The acceptance test of lines 113 and 118 on a header length `rl`
(gap count `(rl/4 - 21)/3` in 0..100 with C truncating division, or
`rl = 5108`) holds exactly for `76 <= rl <= 1295` or `rl = 5108`; a 32-bit word
that passes it does not pass it byte-reversed, so the two byte orders of a
leading word are never both accepted; hence a stream whose leading word is an
acceptable length written in the other byte order is read with `swapflag`
set, and the byte-reversed twin of a stream whose header is read without
swapping is read with swapping, with the same header length. The byte-reversed
sample file is read with `swapflag` set. -/
theorem byte_order_unambiguous :
    (∀ rl : Int, rlAccepted rl = true ↔ (76 ≤ rl ∧ rl ≤ 1295) ∨ rl = 5108) ∧
    (∀ w : Nat, w < 4294967296 → rlAccepted (toInt32 w) = true →
      rlAccepted (toInt32 (ms_gswap4a w)) = false) ∧
    (∀ w : Nat, w < 4294967296 →
      ¬ (rlAccepted (toInt32 w) = true ∧ rlAccepted (toInt32 (ms_gswap4a w)) = true)) ∧
    (∀ (b0 b1 b2 b3 : Byte) (rest : List Byte),
      rlAccepted (toInt32 (ms_gswap4a (hostWord b0 b1 b2 b3))) = true →
      swapCheck (hostWord b0 b1 b2 b3) rest =
          .ok ((toInt32 (ms_gswap4a (hostWord b0 b1 b2 b3)), true), rest) ∧
        read_header (b0 :: b1 :: b2 :: b3 :: rest) =
          read_header_fields (toInt32 (ms_gswap4a (hostWord b0 b1 b2 b3))) true rest) ∧
    (∀ (f : List Byte) (h : Header) (r : List Byte), read_header f = .ok (h, r) →
      h.swapflag = false →
      ∃ h1, read_header (swapStream f) = .ok (h1, swapStream r) ∧ h1.swapflag = true ∧
        h1.j1 = h.j1) ∧
    (∃ h r, read_header (swapStream sampleFile) = .ok (h, r) ∧ h.swapflag = true ∧
      h.j1 = 84) := by
  refine ⟨rlAccepted_iff, rlAccepted_gswap, ?_, ?_, ?_, ?_⟩
  · rintro w hw ⟨h1, h2⟩
    rw [rlAccepted_gswap w hw h1] at h2
    cases h2
  · intro b0 b1 b2 b3 rest hs
    have hw := hostWord_lt b0 b1 b2 b3
    have hn : rlAccepted (toInt32 (hostWord b0 b1 b2 b3)) = false := by
      cases hc : rlAccepted (toInt32 (hostWord b0 b1 b2 b3)) with
      | false => rfl
      | true =>
        rw [rlAccepted_gswap _ hw hc] at hs
        cases hs
    have hsc : swapCheck (hostWord b0 b1 b2 b3) rest =
        .ok ((toInt32 (ms_gswap4a (hostWord b0 b1 b2 b3)), true), rest) := by
      unfold swapCheck
      rw [hn, hs]
      rfl
    refine ⟨hsc, ?_⟩
    rw [read_header_cons, hsc]
  · intro f h r hr hsw
    obtain ⟨h1, ⟨pad, hpad⟩, hread⟩ := (swapRel_read_header f).2 h r hr
    refine ⟨h1, hread, ?_, ?_⟩
    · rw [hpad]
      simp [hsw]
    · rw [hpad]
  · exact ⟨_, _, rfl, rfl, rfl⟩

/-! ### C22: band-code coverage -/

/-- C22. Band-code coverage. For a channel index in 1..5 and a finite
frequency `q`, `get_chan_name` succeeds if and only if `q < 1e-6` or
`1e-5 <= q < 80`; for every index it fails with the band-code message at a
frequency in `[1e-6, 1e-5)`, at a frequency `>= 80`, at `+inf` and at NaN; a
zero or negative frequency (and `-inf`) is given the band code Q, so that for
an index in 1..5 the name starts with Q. -/
theorem band_code_coverage (i : Int) (hi : 1 ≤ i ∧ i ≤ 5) :
    (∀ q : ℚ, (∃ name, get_chan_name (.fin q) i = .ok name) ↔
      q < 1 / 1000000 ∨ (1 / 100000 ≤ q ∧ q < 80)) ∧
    (∀ freq : CFloat, (∃ name, get_chan_name freq i = .ok name) ↔
      freq.ltLit (1 / 1000000) = true ∨
        (freq.geLit (1 / 100000) = true ∧ freq.ltLit 80 = true)) ∧
    (∀ (q : ℚ) (j : Int), 1 / 1000000 ≤ q → q < 1 / 100000 →
      get_chan_name (.fin q) j = .error .bandCode) ∧
    (∀ (q : ℚ) (j : Int), 80 ≤ q → get_chan_name (.fin q) j = .error .bandCode) ∧
    (∀ j : Int, get_chan_name .posInf j = .error .bandCode ∧
      get_chan_name .nan j = .error .bandCode) ∧
    (∀ q : ℚ, q ≤ 0 → bandCode (.fin q) = some 'Q' ∧
      get_chan_name (.fin q) i = .ok (String.mk ('Q' :: specSuffix i))) ∧
    (bandCode .negInf = some 'Q' ∧
      get_chan_name .negInf i = .ok (String.mk ('Q' :: specSuffix i))) := by
  have hfin : ∀ q : ℚ, (∃ name, get_chan_name (.fin q) i = .ok name) ↔
      q < 1 / 1000000 ∨ (1 / 100000 ≤ q ∧ q < 80) := by
    intro q
    have hnone := bandCode_fin_none q
    cases hb : bandCode (.fin q) with
    | none =>
      rw [get_chan_name_no_band _ i hb]
      have h := hnone.1 hb
      constructor
      · rintro ⟨name, hname⟩
        cases hname
      · rintro (h1 | ⟨h1, h2⟩)
        · rcases h with ⟨h3, -⟩ | h3
          · exact absurd h1 (not_lt.2 h3)
          · exact absurd h1 (not_lt.2 (by norm_num at h3 ⊢; linarith))
        · rcases h with ⟨-, h3⟩ | h3
          · exact absurd h3 (not_lt.2 h1)
          · exact absurd h2 (not_lt.2 h3)
    | some b =>
      rw [get_chan_name_of_band _ b i hb hi]
      have h : ¬ ((1 / 1000000 ≤ q ∧ q < 1 / 100000) ∨ 80 ≤ q) := by
        intro hc
        rw [hnone.2 hc] at hb
        cases hb
      rw [not_or, not_and, not_le, not_lt] at h
      refine ⟨fun _ => ?_, fun _ => ⟨_, rfl⟩⟩
      by_cases c : q < 1 / 1000000
      · exact Or.inl c
      · exact Or.inr ⟨h.1 (not_lt.1 c), h.2⟩
  have hQ : bandCode .negInf = some 'Q' := by
    simp [bandCode, CFloat.geLit, CFloat.ltLit]
  refine ⟨hfin, ?_, ?_, ?_, ?_, ?_, ?_⟩
  · intro freq
    cases freq with
    | nan => simp [get_chan_name, bandCode, CFloat.geLit, CFloat.ltLit]
    | posInf => simp [get_chan_name, bandCode, CFloat.geLit, CFloat.ltLit]
    | negInf =>
      rw [get_chan_name_of_band _ _ i hQ hi]
      simp [CFloat.ltLit]
    | fin q =>
      rw [hfin q]
      simp only [CFloat.geLit, CFloat.ltLit, decide_eq_true_eq]
  · intro q j h1 h2
    exact get_chan_name_no_band _ j ((bandCode_fin_none q).2 (Or.inl ⟨h1, h2⟩))
  · intro q j h1
    exact get_chan_name_no_band _ j ((bandCode_fin_none q).2 (Or.inr h1))
  · intro j
    constructor
    · exact get_chan_name_no_band _ j (by simp [bandCode, CFloat.geLit, CFloat.ltLit])
    · exact get_chan_name_no_band _ j (by simp [bandCode, CFloat.geLit, CFloat.ltLit])
  · intro q hq
    have hb := bandCode_fin_Q q (by norm_num; linarith)
    exact ⟨hb, get_chan_name_of_band _ _ i hb hi⟩
  · exact ⟨hQ, get_chan_name_of_band _ _ i hQ hi⟩

/-- Witness of C22 at channel index 3: a frequency of 3e-6 Hz has no band
code, and a frequency of 0 Hz is named QFZ. -/
theorem band_code_coverage_witness :
    get_chan_name (.fin (3 / 1000000)) 3 = .error .bandCode ∧
      get_chan_name (.fin 0) 3 = .ok "QFZ" :=
  ⟨(band_code_coverage 3 (by decide)).2.2.1 (3 / 1000000) 3 (by norm_num) (by norm_num),
    ((band_code_coverage 3 (by decide)).2.2.2.2.2.1 0 (le_refl 0)).2⟩

/-! ### C23: in-bounds access during segmentation -/

/-- C23. In-bounds access during segmentation. When the parsed array holds
`5 * nscans` samples (a data length of `20 * nscans` bytes, so `nscans >= 0`):
for every channel 0..4 and every scan `dataidx < nscans` the index
`5 * dataidx + channel` is below the number of samples, so the read finds a
sample; the loops over the scans and over the channels never read `idata`
outside the parsed samples and never write `cdata` at an index that is not
below `nscans`, with whatever fuel and from whatever scan they are entered; a
run holds at most `nscans` samples; and the loop over the five channels
returns. The checks of `binconvert` give this precondition, with indices
that fit an `int`, and `binconvert` returns 0 without a fault, whenever
`nscans * 5` does not overflow an `int`. -/
theorem segmentation_in_bounds {σ : Type} (packmsr : σ → Segment → Int × σ)
    (samprate : CFloat) (idata : List Int) (nscans flag : Int) (st : σ)
    (hlen : (idata.length : Int) = 5 * nscans) :
    (∀ channel dataidx : Nat, channel < 5 → (dataidx : Int) < nscans →
      5 * dataidx + channel < idata.length ∧
      ∃ v, idata[5 * dataidx + channel]? = some v) ∧
    (∀ (channel fuel dataidx : Nat) (cdata : List Int), channel < 5 →
      cdata.length ≤ dataidx →
      extract_run idata nscans flag channel fuel dataidx cdata ≠ .error .readBounds ∧
      extract_run idata nscans flag channel fuel dataidx cdata ≠ .error .writeBounds ∧
      ∀ d1 cd, extract_run idata nscans flag channel fuel dataidx [] = .ok (d1, cd) →
        (cd.length : Int) ≤ nscans) ∧
    (∀ (channel fuel dataidx : Nat) (chan : String) (st1 : σ), channel < 5 →
      extract_channel packmsr idata nscans flag channel chan fuel dataidx st1 ≠
        .error .readBounds ∧
      extract_channel packmsr idata nscans flag channel chan fuel dataidx st1 ≠
        .error .writeBounds) ∧
    (∀ (fuel channel : Nat) (st1 : σ),
      convert_channels packmsr samprate idata nscans flag fuel channel st1 ≠
        .error .readBounds ∧
      convert_channels packmsr samprate idata nscans flag fuel channel st1 ≠
        .error .writeBounds) ∧
    (∃ segs st1, convert_channels packmsr samprate idata nscans flag 6 0 st =
      .ok (segs, st1)) ∧
    (∀ (ext : Ext) (ifp : Option (List Byte)) (p : BinFile),
      binconvert_checks ext ifp = .accepted p → p.nscans * 5 < 2147483648 →
      0 ≤ p.nscans ∧ p.ret = 20 * p.nscans ∧ (p.data.length : Int) = 5 * p.nscans ∧
      (∀ channel dataidx : Nat, channel < 5 → (dataidx : Int) < p.nscans →
        5 * dataidx + channel < 2147483648) ∧
      ∃ segs st1, binconvert ext packmsr ifp st =
        .ok { ret := 0, segments := segs, state := st1 }) := by
  have hidx : ∀ c i : Nat, c < 5 → (i : Int) < nscans → 5 * i + c < idata.length := by
    intro c i hc hi
    omega
  refine ⟨fun c i hc hi => ⟨hidx c i hc hi, _, List.getElem?_eq_getElem (hidx c i hc hi)⟩,
    ?_, ?_, ?_, convert_channels_returns packmsr samprate idata nscans flag hidx 6 0 st
      (by omega), ?_⟩
  · intro c fuel d cdata hc hcd
    obtain ⟨h1, h2, -⟩ := extract_run_in_bounds idata nscans flag c (fun i => hidx c i hc)
      fuel d cdata hcd
    refine ⟨h1, h2, fun d1 cd h => ?_⟩
    have := (extract_run_in_bounds idata nscans flag c (fun i => hidx c i hc)
      fuel d [] (Nat.zero_le _)).2.2 d1 cd h
    simp only [List.length_nil, le_max_iff] at this
    omega
  · intro c fuel d chan st1 hc
    obtain ⟨-, -, h3, h4⟩ := extract_channel_outcome packmsr idata nscans flag c chan fuel d st1
    refine ⟨fun h => ?_, h3⟩
    obtain ⟨i, -, hi2, hi3⟩ := h4 h
    have := hidx c i hc hi2
    omega
  · intro fuel c st1
    obtain ⟨-, h2, h3⟩ := convert_channels_outcome packmsr samprate idata nscans flag fuel c st1
    refine ⟨fun h => ?_, h2⟩
    obtain ⟨c1, i, hc, hi2, hi3⟩ := h3 h
    have := hidx c1 i hc hi2
    omega
  · intro ext ifp p hacc hsz
    obtain ⟨hl, hnn⟩ := accepted_data_length ext ifp p hacc hsz
    obtain ⟨f, r, hf, hread, -, -, hmis, -, -, hn0⟩ := binconvert_checks_accepted ext ifp p hacc
    obtain ⟨-, hret0, hret1⟩ := read_bin_file_data_length f p r hread
    have hret : p.ret = 20 * p.nscans := by
      by_contra hne
      have := (dataSizeMismatch_iff p.ret p.nscans ⟨hret0, hret1⟩ ⟨by omega, hsz⟩).2 hne
      rw [hmis] at this
      cases this
    have hlen2 : (p.data.length : Int) = 5 * p.nscans := by omega
    refine ⟨hn0, hret, hlen2, fun c i hc hi => by omega, ?_⟩
    obtain ⟨segs, st1, hconv⟩ := convert_channels_returns packmsr p.s_rate p.data p.nscans
      p.missingdataflag (fun c i hc hi => by omega) 6 0 st (by omega)
    refine ⟨segs, st1, ?_⟩
    unfold binconvert
    rw [hacc]
    simp only
    rw [hconv]

/-- Witness of C23 on three scans of five channels: the loop over the channels
returns. -/
theorem segmentation_in_bounds_witness :
    (gapData.length : Int) = 5 * 3 ∧
      ∃ segs st1, convert_channels recordOnly (.fin 1) gapData 3 9 6 0 [] = .ok (segs, st1) :=
  ⟨by decide,
    (segmentation_in_bounds recordOnly (.fin 1) gapData 3 9 [] (by decide)).2.2.2.2.1⟩

/-! ### C24: the extraction loop terminates -/

/-- C24. Termination of the extraction loop of one channel, for every
`nscans`, sample array and missing-data flag. The fuel of a loop bounds the
number of its iterations. An iteration of the `while` loop entered with
`dataidx < nscans` leaves the `for` loop with a larger `dataidx`, at most
`nscans`, having stored at most as many samples as scans were consumed, and
the `for` loop does not run out of its `nscans + 1` fuel; hence the `while`
loop entered at `dataidx` does not run out of fuel with more than
`nscans - dataidx` fuel, its result does not depend on the fuel beyond that,
it hands at most `nscans - dataidx` segments to `packmsr`, and it returns
whenever the array holds the samples of every scan of the channel. -/
theorem extraction_terminates {σ : Type} (packmsr : σ → Segment → Int × σ)
    (idata : List Int) (nscans flag : Int) (channel : Nat) (chan : String) :
    (∀ dataidx : Nat,
      extract_run idata nscans flag channel (nscans.toNat + 1) dataidx [] ≠ .error .fuel) ∧
    (∀ (dataidx dataidx1 : Nat) (cdata : List Int), (dataidx : Int) < nscans →
      extract_run idata nscans flag channel (nscans.toNat + 1) dataidx [] =
        .ok (dataidx1, cdata) →
      dataidx < dataidx1 ∧ (dataidx1 : Int) ≤ nscans ∧
        cdata.length ≤ dataidx1 - dataidx) ∧
    (∀ (fuel dataidx : Nat) (st : σ), nscans.toNat - dataidx < fuel →
      extract_channel packmsr idata nscans flag channel chan fuel dataidx st ≠
        .error .fuel) ∧
    (∀ (fuel dataidx : Nat) (st : σ), nscans.toNat - dataidx < fuel →
      extract_channel packmsr idata nscans flag channel chan fuel dataidx st =
        extract_channel packmsr idata nscans flag channel chan
          (nscans.toNat - dataidx + 1) dataidx st) ∧
    (∀ (fuel dataidx : Nat) (st : σ) (segs : List Segment) (st1 : σ),
      extract_channel packmsr idata nscans flag channel chan fuel dataidx st =
        .ok (segs, st1) →
      segs.length ≤ nscans.toNat - dataidx) ∧
    ((∀ i : Nat, (i : Int) < nscans → 5 * i + channel < idata.length) →
      ∀ st : σ, ∃ segs st1,
        extract_channel packmsr idata nscans flag channel chan (nscans.toNat + 1) 0 st =
          .ok (segs, st1) ∧ segs.length ≤ nscans.toNat) := by
  refine ⟨?_, ?_, ?_, ?_, ?_, ?_⟩
  · intro d h
    rcases extract_run_outcome idata nscans flag channel (nscans.toNat + 1) d []
      (by omega) (Nat.zero_le _) with ⟨d1, cd, hr, -⟩ | ⟨hr, -⟩
    · rw [hr] at h
      cases h
    · rw [hr] at h
      cases h
  · intro d d1 cd hdn h
    rcases extract_run_outcome idata nscans flag channel (nscans.toNat + 1) d []
      (by omega) (Nat.zero_le _) with ⟨d2, cd2, hr, -, h2, -, -, h5, -⟩ | ⟨hr, -⟩
    · rw [hr] at h
      cases h
      obtain ⟨h3, h4⟩ := h2 hdn
      simp only [List.length_nil] at h5
      exact ⟨h3, h4, by omega⟩
    · rw [hr] at h
      cases h
  · intro fuel d st hf h
    have := (extract_channel_outcome packmsr idata nscans flag channel chan fuel d st).2.1 h
    omega
  · intro fuel d st hf
    exact extract_channel_fuel packmsr idata nscans flag channel chan fuel
      (nscans.toNat - d + 1) d st hf (by omega)
  · intro fuel d st segs st1 h
    exact (extract_channel_outcome packmsr idata nscans flag channel chan fuel d st).1 segs st1 h
  · intro hlen st
    obtain ⟨segs, st1, h1, h2⟩ := extract_channel_returns packmsr idata nscans flag channel chan
      hlen (nscans.toNat + 1) 0 st (by omega)
    exact ⟨segs, st1, h1, by omega⟩

/-! ### C25: an empty data block is taken for a read error -/

/-- C25. An empty data block is taken for a failure. For a stream whose header
is read with matching length records and is followed by a data length record
0, no sample, and a trailing record 0, `read_bin_file` succeeds with an empty
data array and returns 0, the value it returns after every error message;
`binconvert` then prints "Error reading input bin file" and returns -1 without
handing a segment to `packmsr`. More generally, whenever `read_bin_file`
returns 0, after an error or with a data length record 0 (and then no
sample), `binconvert` prints that message and returns -1. -/
theorem empty_data_block_read_error {σ : Type} (ext : Ext)
    (packmsr : σ → Segment → Int × σ) (f : List Byte) (h : Header) (r : List Byte) (st : σ)
    (hh : read_header f = .ok (h, 0 :: 0 :: 0 :: 0 :: 0 :: 0 :: 0 :: 0 :: r))
    (hj : h.j1 = h.j2) :
    read_bin_file f =
      .ok ({ ret := 0, dt := h.dt, s_rate := recipF32 h.dt, nscans := h.nscans,
             start_time := h.start_time, data := [],
             missingdataflag := h.missingdataflag }, r) ∧
    returnValue (read_bin_file f) = 0 ∧
    (∀ e : ReadError, returnValue (.error e) = 0) ∧
    binconvert_error ext (some f) = some .readInput ∧
    binconvert ext packmsr (some f) st = .ok { ret := -1, segments := [], state := st } ∧
    (∀ g : List Byte, returnValue (read_bin_file g) = 0 →
      ((∃ e, read_bin_file g = .error e) ∨
        ∃ p r1, read_bin_file g = .ok (p, r1) ∧ p.ret = 0 ∧ p.data = []) ∧
      binconvert_error ext (some g) = some .readInput ∧
      binconvert ext packmsr (some g) st =
        .ok { ret := -1, segments := [], state := st }) := by
  have hgen : ∀ g : List Byte, returnValue (read_bin_file g) = 0 →
      ((∃ e, read_bin_file g = .error e) ∨
        ∃ p r1, read_bin_file g = .ok (p, r1) ∧ p.ret = 0 ∧ p.data = []) ∧
      binconvert_error ext (some g) = some .readInput ∧
      binconvert ext packmsr (some g) st =
        .ok { ret := -1, segments := [], state := st } := by
    intro g hg
    have herr : binconvert_error ext (some g) = some .readInput := by
      unfold binconvert_error
      simp only
      rw [if_pos hg]
    have hrej : binconvert_checks ext (some g) = .rejected :=
      (binconvert_error_none ext (some g)).2.1 (by rw [herr]; simp)
    refine ⟨?_, herr, ?_⟩
    · cases hr : read_bin_file g with
      | error e => exact Or.inl ⟨e, rfl⟩
      | ok q =>
        obtain ⟨p, r1⟩ := q
        rw [hr] at hg
        have h0 : p.ret = 0 := hg
        have hl := (read_bin_file_data_length g p r1 hr).1
        rw [h0] at hl
        exact Or.inr ⟨p, r1, rfl, h0, List.length_eq_zero.1 hl⟩
    · unfold binconvert
      rw [hrej]
  have hread : read_bin_file f =
      .ok ({ ret := 0, dt := h.dt, s_rate := recipF32 h.dt, nscans := h.nscans,
             start_time := h.start_time, data := [],
             missingdataflag := h.missingdataflag }, r) := by
    rw [read_bin_file_eq, hh]
    simp only [hj, ne_eq, not_true_eq_false, if_false]
    rw [read_data_block_empty]
    simp
  have hret : returnValue (read_bin_file f) = 0 := by
    rw [hread]
    rfl
  exact ⟨hread, hret, fun _ => rfl, (hgen f hret).2.1, (hgen f hret).2.2, hgen⟩

/-- Witness of C25 on the well-formed file with no scan: it is parsed, and
`binconvert` returns -1 with the message of a read error. -/
theorem empty_data_block_read_error_witness :
    read_header emptyFile = .ok (emptyHeader, 0 :: 0 :: 0 :: 0 :: 0 :: 0 :: 0 :: 0 :: []) ∧
      emptyHeader.j1 = emptyHeader.j2 ∧
      returnValue (read_bin_file emptyFile) = 0 ∧
      binconvert_error sampleExt (some emptyFile) = some .readInput ∧
      binconvert sampleExt recordOnly (some emptyFile) [] =
        .ok { ret := -1, segments := [], state := [] } :=
  ⟨rfl, rfl,
    (empty_data_block_read_error sampleExt recordOnly emptyFile emptyHeader [] [] rfl rfl).2.1,
    (empty_data_block_read_error sampleExt recordOnly emptyFile emptyHeader [] []
      rfl rfl).2.2.2.1,
    (empty_data_block_read_error sampleExt recordOnly emptyFile emptyHeader [] []
      rfl rfl).2.2.2.2.1⟩

end Mt2mseed
